import Mathlib

/-!
# susanin: route patterns, their matcher and their builder

A shallow embedding of `src/router.js`.

Modelling conventions.

* A JavaScript string is a `List Char` (`Str`); string literals are written `"...".data`.
* A JavaScript object used as a mapping is an association list of its own enumerable
  properties in enumeration order (`Params`). The prototype chain is modelled at the two places
  where the router goes through `Object.prototype`: a write under the key `__proto__` to an
  object created by `{}` (`setProp`) and the read of the condition of a parameter
  (`objectPrototypeText`).
* The facilities of the runtime the router calls but does not define (`toUpperCase`,
  `querystring.parse`, `querystring.stringify`) are the fields of a `Host`.
* `new RegExp(source)` and `RegExp` matching are modelled by `newRegExp` and `RegExp.exec`
  for the part of the regular expression syntax described at `newRegExp`.
* `new Function('p', source)` is modelled by interpreting the pattern tree the way the generated
  expression evaluates (`Part.buildFn`), reading every generated string literal through
  `jsStringValue`.
-/

namespace Susanin

/-- A JavaScript string. -/
abbrev Str := List Char

/-- A JavaScript object used as a mapping from strings to strings: its own enumerable
properties, in enumeration order. -/
abbrev Params := List (Str × Str)

/-- The test `hasOwnProp.call(o, key)`. -/
def hasOwn (o : Params) (key : Str) : Bool :=
  o.any (fun kv => kv.1 = key)

/-- The read `o[key]`; `none` is `undefined`. -/
def getProp (o : Params) (key : Str) : Option Str :=
  o.lookup key

/-- The key `__proto__`. -/
def PROTO : Str := "__proto__".data

/-- Adds or updates a property: an existing property keeps its place, a new one goes last. -/
def insertProp : Params → Str → Str → Params
  | [], key, value => [(key, value)]
  | (k, v) :: o, key, value =>
    if k = key then (k, value) :: o else (k, v) :: insertProp o key value

/-- The write `o[key] = value` of a string to an object created by `{}` (`ret`, `newParams`,
`queryParams`). For the key `__proto__` the write goes to the accessor of `Object.prototype`,
which ignores a string: the object gets no property. -/
def setProp (o : Params) (key value : Str) : Params :=
  if key = PROTO then o else insertProp o key value

/-- The statement `delete o[key]`. -/
def deleteProp (o : Params) (key : Str) : Params :=
  o.filter (fun kv => kv.1 ≠ key)

/-- The runtime facilities the router uses without defining them, with the facts about them
this development relies on. `qsParse` is `querystring.parse` (its argument is `undefined` or a
string), `qsStringify` is `querystring.stringify`. -/
structure Host where
  toUpperCase : Str → Str
  qsParse : Option Str → Params
  qsStringify : Params → Str
  toUpperCase_ascii : ∀ s : Str, (∀ c ∈ s, c.toNat < 128) → toUpperCase s = s.map Char.toUpper
  toUpperCase_idem : ∀ s : Str, toUpperCase (toUpperCase s) = toUpperCase s
  qsParse_undefined : qsParse none = []
  qsStringify_empty : qsStringify [] = []
  qsStringify_nonempty : ∀ q : Params, q ≠ [] → qsStringify q ≠ []

/-! ## `Route.escape` and generated string literals -/

/-- The table `SPECIAL_CHARS` of `Route.escape`. -/
def SPECIAL_CHARS : List Char :=
  ['/', '.', '*', '+', '?', '|', '(', ')', '[', ']', '{', '}', '\\']

/-- `Route.escape`: every occurrence of a character of `SPECIAL_CHARS` gets a backslash in
front of it. -/
def escape : Str → Str
  | [] => []
  | c :: cs => if c ∈ SPECIAL_CHARS then '\\' :: c :: escape cs else c :: escape cs

/-- The line terminators of JavaScript source text. -/
def isLineTerminator (c : Char) : Bool :=
  c.toNat = 0x0A || c.toNat = 0x0D || c.toNat = 0x2028 || c.toNat = 0x2029

/-- The value JavaScript reads for the string literal whose body (the text between the double
quotes) is given. Only the bodies `Route.escape` can produce are read: a backslash followed by a
character of `SPECIAL_CHARS` stands for that character, any other character except the double
quote, the backslash, the line feed and the carriage return stands for itself. `none` means the
body does not form one string literal. -/
def jsStringValue : Str → Option Str
  | [] => some []
  | c :: cs =>
    if c = '\\' then
      match cs with
      | [] => none
      | d :: ds => if d ∈ SPECIAL_CHARS then (jsStringValue ds).map (d :: ·) else none
    else if c = '"' ∨ c.toNat = 0x0A ∨ c.toNat = 0x0D then none
    else (jsStringValue cs).map (c :: ·)

/-- The value of the literal `'"' + Route.escape(text) + '"'` in the generated builder source. -/
def jsLit (text : Str) : Str :=
  (jsStringValue (escape text)).getD []

/-! ## The pattern tree and its parser (`Route.prototype.parsePattern`) -/

/-- An element of `_parts`: a string, `{what: 'param', name}` or
`{what: 'optional', dependOnParams, parts}`. -/
inductive Part where
  | lit (text : Str)
  | param (name : Str)
  | optional (dependOnParams : List Str) (parts : List Part)
  deriving Repr

/-- The class `\w` of a regular expression without flags. -/
def isWordChar (c : Char) : Bool :=
  c.isAlphanum || c = '_'

/-- The class `[a-zA-Z_]`, the first character of `PARAM_NAME_REGEXP_SOURCE`. -/
def isNameStart (c : Char) : Bool :=
  c.isAlpha || c = '_'

/-- The class `[\w\-]`, shared by `PARAM_NAME_REGEXP_SOURCE` and `PARAM_VALUE_REGEXP_SOURCE`. -/
def isNameChar (c : Char) : Bool :=
  isWordChar c || c = '-'

/-- The class `[^<>]` of `PARSE_PARAMS_REGEXP`. -/
def isPlainChar (c : Char) : Bool :=
  c ≠ '<' && c ≠ '>'

/-- The first alternative of `PARSE_PARAMS_REGEXP` tried at the head of the text:
`<[a-zA-Z_][\w\-]*>`. The class `[\w\-]*` is greedy and `>` is outside it, so the alternative
matches exactly when the longest run of name characters is followed by `>`. Returns the matched
text and the rest. -/
def matchParamToken : Str → Option (Str × Str)
  | '<' :: c :: cs =>
    if isNameStart c then
      match cs.span isNameChar with
      | (run, '>' :: rest) => some ('<' :: c :: (run ++ ['>']), rest)
      | _ => none
    else none
  | _ => none

/-- `pattern.match(Route.PARSE_PARAMS_REGEXP)` with the `g` flag: the successive matches of
`(<[a-zA-Z_][\w\-]*>|[^<>]+|<|>)`, scanning from the left. `fuel` bounds the number of matches. -/
def paramTokensFuel : Nat → Str → List Str
  | 0, _ => []
  | _ + 1, [] => []
  | fuel + 1, c :: cs =>
    match matchParamToken (c :: cs) with
    | some (token, rest) => token :: paramTokensFuel fuel rest
    | none =>
      if isPlainChar c then
        (c :: cs.takeWhile isPlainChar) :: paramTokensFuel fuel (cs.dropWhile isPlainChar)
      else [c] :: paramTokensFuel fuel cs

/-- All matches of `PARSE_PARAMS_REGEXP` in the text; every match consumes a character, so the
length of the text is fuel enough. -/
def paramTokens (pattern : Str) : List Str :=
  paramTokensFuel pattern.length pattern

/-- The callback of `matches.forEach` in `parseParams`: a match that starts with `<` and whose
last `>` is its last character is a parameter named by `part.substr(1, part.length - 2)`, any
other match is literal text. -/
def tokenPart (part : Str) : Part :=
  if part.head? = some '<' ∧ part.getLast? = some '>' then
    Part.param ((part.drop 1).take (part.length - 2))
  else Part.lit part

/-- `parseParams(pattern, parts)`: pushes the parts of the text onto `parts`. -/
def parseParams (pattern : Str) (parts : List Part) : List Part :=
  parts ++ (paramTokens pattern).map tokenPart

/-- The names pushed onto `dependOnParams`: those of the parameters that are direct members
of the group. -/
def dependOnParams : List Part → List Str
  | [] => []
  | Part.param name :: ps => name :: dependOnParams ps
  | _ :: ps => dependOnParams ps

/-- The `while` loop of `parseBrackets` over the characters still to read, with the variables
`parts`, `part`, `countOpened` and `isFindingClosed`; `sub` is the recursive call
`parseBrackets(part)` made for the content of a group. -/
def bracketsLoop (sub : Str → List Part) :
    Str → List Part → Str → Nat → Bool → List Part
  | [], parts, part, _, _ => parseParams part parts
  | c :: cs, parts, part, countOpened, isFindingClosed =>
    if c = '(' then
      if isFindingClosed then bracketsLoop sub cs parts (part ++ [c]) (countOpened + 1) true
      else bracketsLoop sub cs (parseParams part parts) [] 0 true
    else if c = ')' then
      if isFindingClosed then
        if countOpened = 0 then
          bracketsLoop sub cs
            (parts ++ [Part.optional (dependOnParams (sub part)) (sub part)]) [] countOpened false
        else bracketsLoop sub cs parts (part ++ [c]) (countOpened - 1) true
      else bracketsLoop sub cs parts (part ++ [c]) countOpened false
    else bracketsLoop sub cs parts (part ++ [c]) countOpened isFindingClosed

/-- `parseBrackets` with a bound on the depth of its recursion. -/
def parseBracketsFuel : Nat → Str → List Part
  | 0, _ => []
  | fuel + 1, pattern => bracketsLoop (parseBracketsFuel fuel) pattern [] [] 0 false

/-- `parseBrackets(pattern)`. The recursive call is made on the content of a group, which is
shorter than the text that holds it, so the length of the pattern bounds the depth. -/
def parseBrackets (pattern : Str) : List Part :=
  parseBracketsFuel (pattern.length + 1) pattern

/-! ## The builder (`Route.prototype.buildBuildFn`) -/

/-- The disjunct the builder source holds for one name of `dependOnParams`:
`(h.call(p,"name"))`, followed by `&&p["name"]!=="default"` when the route declares a default
for the name. -/
def dependCounts (defaults p : Params) (name : Str) : Bool :=
  hasOwn p (jsLit name) &&
    (if hasOwn defaults name then
      getProp p (jsLit name) != some (jsLit ((getProp defaults name).getD []))
    else true)

/-- The value of the expression `build(parts)` writes into `_buildFnSource`, for the mapping
`p`: the function `_buildFn`. -/
def Part.buildFn (defaults p : Params) : Part → Str
  | Part.lit text => jsLit text
  | Part.param name =>
    if hasOwn p (jsLit name) then (getProp p (jsLit name)).getD []
    else if hasOwn defaults name then jsLit ((getProp defaults name).getD [])
    else []
  | Part.optional dependOn parts =>
    if dependOn.any (dependCounts defaults p) then buildList parts else []
where
  /-- The concatenation `build(parts)` describes. -/
  buildList : List Part → Str
    | [] => []
    | part :: parts => part.buildFn defaults p ++ buildList parts

/-- Whether every string literal of `_buildFnSource` is one string literal for JavaScript: the
escaped literal texts, parameter names and default values. Otherwise the source is not the
expression `Part.buildFn` evaluates. -/
def Part.buildFnReadable (defaults : Params) : Part → Bool
  | Part.lit text => (jsStringValue (escape text)).isSome
  | Part.param name =>
    (jsStringValue (escape name)).isSome &&
      (if hasOwn defaults name then
        (jsStringValue (escape ((getProp defaults name).getD []))).isSome
      else true)
  | Part.optional dependOn parts =>
    dependOn.all (fun name =>
      (jsStringValue (escape name)).isSome &&
        (if hasOwn defaults name then
          (jsStringValue (escape ((getProp defaults name).getD []))).isSome
        else true)) && readableList parts
where
  /-- The same test for a list of parts. -/
  readableList : List Part → Bool
    | [] => true
    | part :: parts => part.buildFnReadable defaults && readableList parts

/-! ## Regular expressions (`new RegExp`, `String.prototype.match`) -/

/-- A member of a character class. -/
inductive ClassItem where
  | char (c : Char)
  | range (lo hi : Char)
  | word
  | digit
  deriving DecidableEq, Repr

/-- A regular expression as JavaScript reads it from its source. A non-capturing group is the
expression it encloses; capturing groups are numbered from 0 by their opening parenthesis;
quantifiers are greedy. -/
inductive Regex where
  | empty
  | char (c : Char)
  | any
  | cls (negated : Bool) (items : List ClassItem)
  | bol
  | eol
  | seq (a b : Regex)
  | alt (a b : Regex)
  | group (index : Nat) (r : Regex)
  | star (r : Regex)
  | plus (r : Regex)
  | opt (r : Regex)
  deriving DecidableEq, Repr

/-- The terms of one alternative, in sequence. -/
def Regex.seqOf : List Regex → Regex
  | [] => Regex.empty
  | r :: rs => Regex.seq r (seqOf rs)

/-- The alternatives of a disjunction, first one first. -/
def Regex.altOf : List Regex → Regex
  | [] => Regex.empty
  | [r] => r
  | r :: rs => Regex.alt r (altOf rs)

/-- A disjunction being read: the capturing group it is the body of (`none` for `(?:` and for
the whole expression), the alternatives already finished and the terms of the current one, both
last first. -/
structure Frame where
  capture : Option Nat
  alts : List Regex
  terms : List Regex
  deriving Repr

/-- The expression a finished frame stands for. -/
def Frame.close (f : Frame) : Regex :=
  let body := Regex.altOf (f.alts.reverse ++ [Regex.seqOf f.terms.reverse])
  match f.capture with
  | some i => Regex.group i body
  | none => body

/-- Where the reader of a regular expression source stands: between terms (`quantifiable` tells
whether a quantifier may follow), after a backslash, after `(`, after `(?`, after `[`, or inside
a character class (`dash`: a `-` that may make a range of the last item has been read; `esc`: a
backslash has been read). -/
inductive Mode where
  | normal (quantifiable : Bool)
  | esc
  | opened
  | openedQ
  | clsStart
  | cls (negated : Bool) (items : List ClassItem) (dash : Bool) (esc : Bool)
  deriving Repr

/-- The state of the reader: the innermost frame, the frames around it (innermost first), the
number of capturing groups opened so far and the mode. -/
structure PState where
  frame : Frame
  stack : List Frame
  groups : Nat
  mode : Mode
  deriving Repr

/-- Appends a term to the current alternative. -/
def PState.push (st : PState) (r : Regex) (quantifiable : Bool) : PState :=
  { st with frame := { st.frame with terms := r :: st.frame.terms },
            mode := Mode.normal quantifiable }

/-- Reads one character inside a character class. -/
def stepClass (st : PState) (negated : Bool) (items : List ClassItem) (dash esc : Bool)
    (c : Char) : Option PState :=
  if esc then
    if c = 'w' ∨ c = 'd' then
      let item := if c = 'w' then ClassItem.word else ClassItem.digit
      let items := if dash then ClassItem.char '-' :: items else items
      some { st with mode := Mode.cls negated (item :: items) false false }
    else if c.isAlphanum then none
    else
      match dash, items with
      | true, ClassItem.char lo :: items =>
        if lo.toNat ≤ c.toNat then
          some { st with mode := Mode.cls negated (ClassItem.range lo c :: items) false false }
        else none
      | true, _ => none
      | false, _ => some { st with mode := Mode.cls negated (ClassItem.char c :: items) false false }
  else if c = '\\' then some { st with mode := Mode.cls negated items dash true }
  else if c = ']' then
    let items := if dash then ClassItem.char '-' :: items else items
    some (st.push (Regex.cls negated items.reverse) true)
  else if dash then
    match items with
    | ClassItem.char lo :: items =>
      if lo.toNat ≤ c.toNat then
        some { st with mode := Mode.cls negated (ClassItem.range lo c :: items) false false }
      else none
    | _ => none
  else if c = '-' then
    match items with
    | ClassItem.char _ :: _ => some { st with mode := Mode.cls negated items true false }
    | _ => some { st with mode := Mode.cls negated (ClassItem.char '-' :: items) false false }
  else some { st with mode := Mode.cls negated (ClassItem.char c :: items) false false }

/-- Reads one character between terms. -/
def stepNormal (st : PState) (quantifiable : Bool) (c : Char) : Option PState :=
  if c = '\\' then some { st with mode := Mode.esc }
  else if c = '(' then some { st with mode := Mode.opened }
  else if c = ')' then
    match st.stack with
    | [] => none
    | outer :: stack =>
      some { st with frame := { outer with terms := st.frame.close :: outer.terms },
                     stack := stack, mode := Mode.normal true }
  else if c = '|' then
    some { st with frame := { st.frame with
                                alts := Regex.seqOf st.frame.terms.reverse :: st.frame.alts,
                                terms := [] },
                   mode := Mode.normal false }
  else if c = '*' ∨ c = '+' ∨ c = '?' then
    match quantifiable, st.frame.terms with
    | true, r :: terms =>
      let q := if c = '*' then Regex.star r else if c = '+' then Regex.plus r else Regex.opt r
      some { st with frame := { st.frame with terms := q :: terms }, mode := Mode.normal false }
    | _, _ => none
  else if c = '.' then some (st.push Regex.any true)
  else if c = '^' then some (st.push Regex.bol false)
  else if c = '$' then some (st.push Regex.eol false)
  else if c = '[' then some { st with mode := Mode.clsStart }
  else if c = ']' ∨ c = '{' ∨ c = '}' then none
  else some (st.push (Regex.char c) true)

/-- Reads one character of a regular expression source. -/
def stepRegExp (st : PState) (c : Char) : Option PState :=
  match st.mode with
  | Mode.normal quantifiable => stepNormal st quantifiable c
  | Mode.esc =>
    if c = 'w' then some (st.push (Regex.cls false [ClassItem.word]) true)
    else if c = 'd' then some (st.push (Regex.cls false [ClassItem.digit]) true)
    else if c.isAlphanum then none
    else some (st.push (Regex.char c) true)
  | Mode.opened =>
    if c = '?' then some { st with mode := Mode.openedQ }
    else
      stepNormal
        { frame := { capture := some st.groups, alts := [], terms := [] },
          stack := st.frame :: st.stack, groups := st.groups + 1, mode := Mode.normal false }
        false c
  | Mode.openedQ =>
    if c = ':' then
      some { frame := { capture := none, alts := [], terms := [] },
             stack := st.frame :: st.stack, groups := st.groups, mode := Mode.normal false }
    else none
  | Mode.clsStart =>
    if c = '^' then some { st with mode := Mode.cls true [] false false }
    else stepClass st false [] false false c
  | Mode.cls negated items dash esc => stepClass st negated items dash esc c

/-- A compiled `RegExp`: its expression and the number of its capturing groups. -/
structure RegExp where
  re : Regex
  groups : Nat
  deriving Repr

/-- The state before the first character of a source. -/
def PState.init : PState :=
  { frame := { capture := none, alts := [], terms := [] }, stack := [], groups := 0,
    mode := Mode.normal false }

/-- The end of a source: every group must be closed and no term may be left unfinished. -/
def PState.finish (st : PState) : Option RegExp :=
  match st.mode, st.stack with
  | Mode.normal _, [] => some { re := st.frame.close, groups := st.groups }
  | _, _ => none

/-- `new RegExp(source)` for a source without flags. The syntax read is: characters, `.`, `^`,
`$`, `|`, `(...)`, `(?:...)`, the greedy quantifiers `*`, `+`, `?`, classes `[...]` and `[^...]`
of characters, ranges, `\w` and `\d`, the escapes `\w` and `\d`, and a backslash before a
character that is neither a letter nor a digit, which stands for that character. `none` stands
for a `SyntaxError` and for any source outside this syntax (lazy and counted quantifiers,
look-ahead, back-references, letter escapes other than `\w` and `\d`, a bare `]`, `{` or `}`). -/
def newRegExp (source : Str) : Option RegExp :=
  (source.foldlM stepRegExp PState.init).bind PState.finish

/-- The state of a match: the text still to read and the captures made so far (`none` is
`undefined`). -/
structure MState where
  rest : Str
  caps : List (Option Str)
  deriving DecidableEq, Repr

/-- The indices of the capturing groups inside an expression. -/
def Regex.groupIndices : Regex → List Nat
  | Regex.seq a b => a.groupIndices ++ b.groupIndices
  | Regex.alt a b => a.groupIndices ++ b.groupIndices
  | Regex.group i r => i :: r.groupIndices
  | Regex.star r => r.groupIndices
  | Regex.plus r => r.groupIndices
  | Regex.opt r => r.groupIndices
  | _ => []

/-- Resets the captures of the listed groups to `undefined`, as every iteration of a
quantifier does for the groups of its body. -/
def clearCaps (indices : List Nat) (s : MState) : MState :=
  { s with caps := indices.foldl (fun caps i => caps.set i none) s.caps }

/-- Whether a character belongs to a class item. -/
def ClassItem.test : ClassItem → Char → Bool
  | ClassItem.char c, d => d = c
  | ClassItem.range lo hi, d => lo.toNat ≤ d.toNat && d.toNat ≤ hi.toNat
  | ClassItem.word, d => isWordChar d
  | ClassItem.digit, d => d.isDigit

/-- Reads one character that satisfies the test. -/
def matchChar (test : Char → Bool) (k : MState → Option MState) (s : MState) : Option MState :=
  match s.rest with
  | [] => none
  | c :: rest => if test c then k { s with rest := rest } else none

/-- The iterations of `*` from the state `s`: one more iteration of the body `m`, which must
not match the empty text, then the remaining ones; if that fails, no more iteration. Every
iteration consumes a character, so `fuel` above the length of the text left is never used up. -/
def repeatK (m : (MState → Option MState) → MState → Option MState) (clear : MState → MState) :
    Nat → (MState → Option MState) → MState → Option MState
  | 0, k, s => k s
  | fuel + 1, k, s =>
    match m (fun y => if y.rest.length = s.rest.length then none else repeatK m clear fuel k y)
        (clear s) with
    | some z => some z
    | none => k s

/-- The matcher of an expression, in the continuation style of the ECMAScript specification:
`r.matchK n k s` matches `r` from the state `s` and hands the state reached to the
continuation `k`, trying the next way of matching `r` whenever `k` fails. `n` is the length of
the whole text, by which `^` recognises its start. -/
def Regex.matchK (n : Nat) : Regex → (MState → Option MState) → MState → Option MState
  | Regex.empty, k, s => k s
  | Regex.char c, k, s => matchChar (fun d => d = c) k s
  | Regex.any, k, s => matchChar (fun d => !isLineTerminator d) k s
  | Regex.cls negated items, k, s => matchChar (fun d => items.any (·.test d) != negated) k s
  | Regex.bol, k, s => if s.rest.length = n then k s else none
  | Regex.eol, k, s => if s.rest = [] then k s else none
  | Regex.seq a b, k, s => a.matchK n (b.matchK n k) s
  | Regex.alt a b, k, s =>
    match a.matchK n k s with
    | some z => some z
    | none => b.matchK n k s
  | Regex.group i r, k, s =>
    r.matchK n (fun y =>
      k { y with caps := y.caps.set i (some (s.rest.take (s.rest.length - y.rest.length))) }) s
  | Regex.star r, k, s => repeatK (r.matchK n) (clearCaps r.groupIndices) (s.rest.length + 1) k s
  | Regex.plus r, k, s =>
    r.matchK n (fun y => repeatK (r.matchK n) (clearCaps r.groupIndices) (y.rest.length + 1) k y)
      (clearCaps r.groupIndices s)
  | Regex.opt r, k, s =>
    match r.matchK n (fun y => if y.rest.length = s.rest.length then none else k y)
        (clearCaps r.groupIndices s) with
    | some z => some z
    | none => k s

/-- The search of `RegExp.prototype.exec` from `lastIndex = 0`: the first start position, from
the left, at which the expression matches. Returns the matched text and the final state. -/
def RegExp.search (x : RegExp) (n : Nat) : Str → Option (Str × MState)
  | [] =>
    (x.re.matchK n some { rest := [], caps := List.replicate x.groups none }).map
      (fun y => ([], y))
  | c :: cs =>
    match x.re.matchK n some { rest := c :: cs, caps := List.replicate x.groups none } with
    | some y => some ((c :: cs).take ((c :: cs).length - y.rest.length), y)
    | none => search x n cs

/-- `text.match(regexp)` for a `RegExp` without flags: `none` is `null`, otherwise the array of
the matched text followed by the captures. -/
def RegExp.exec (x : RegExp) (text : Str) : Option (List (Option Str)) :=
  (x.search text.length text).map (fun m => some m.1 :: m.2.caps)

/-! ## The matcher source (`Route.prototype.buildParseRegExp`) -/

/-- A condition on a parameter: the source of a regular expression, or an array of values. -/
inductive Condition where
  | source (text : Str)
  | values (list : List Str)
  deriving DecidableEq, Repr

/-- The object `conditions`. -/
abbrev Conditions := List (Str × Condition)

/-- The write `conditions[key] = value`. -/
def setCondition : Conditions → Str → Condition → Conditions
  | [], key, value => [(key, value)]
  | (k, v) :: o, key, value =>
    if k = key then (k, value) :: o else (k, v) :: setCondition o key value

/-- `Route.PARAM_VALUE_REGEXP_SOURCE`. -/
def PARAM_VALUE_REGEXP_SOURCE : Str := "[\\w\\-]+".data

/-- `condition.join('|')`. -/
def joinBar : List Str → Str
  | [] => []
  | [v] => v
  | v :: vs => v ++ '|' :: joinBar vs

/-- The names of the function-valued members of `Object.prototype`, each with the name its
function carries. -/
def OBJECT_PROTOTYPE_FUNCTIONS : List (Str × Str) :=
  [("constructor".data, "Object".data),
   ("__defineGetter__".data, "__defineGetter__".data),
   ("__defineSetter__".data, "__defineSetter__".data),
   ("hasOwnProperty".data, "hasOwnProperty".data),
   ("__lookupGetter__".data, "__lookupGetter__".data),
   ("__lookupSetter__".data, "__lookupSetter__".data),
   ("isPrototypeOf".data, "isPrototypeOf".data),
   ("propertyIsEnumerable".data, "propertyIsEnumerable".data),
   ("toString".data, "toString".data),
   ("valueOf".data, "valueOf".data),
   ("toLocaleString".data, "toLocaleString".data)]

/-- The text `Object.prototype[name] + ''` of a member of `Object.prototype`: what
`route._conditions[paramName]` reads through the prototype chain when the conditions have no
own property of that name. -/
def objectPrototypeText (name : Str) : Option Str :=
  if name = "__proto__".data then some "[object Object]".data
  else (OBJECT_PROTOTYPE_FUNCTIONS.lookup name).map
    (fun fn => "function ".data ++ fn ++ "() { [native code] }".data)

/-- `buildParamValueRegExpSource(paramName)`. A condition that is the empty string is falsy and
counts as no condition; an array always counts; a name the conditions do not own is read from
`Object.prototype`. -/
def buildParamValueRegExpSource (conditions : Conditions) (paramName : Str) : Str :=
  match conditions.lookup paramName with
  | some (Condition.values list) => "(?:".data ++ joinBar list ++ ")".data
  | some (Condition.source text) => if text = [] then PARAM_VALUE_REGEXP_SOURCE else text
  | none => (objectPrototypeText paramName).getD PARAM_VALUE_REGEXP_SOURCE

/-- The text `build(parts)` of `buildParseRegExp` returns for one part. -/
def Part.regExpSource (conditions : Conditions) : Part → Str
  | Part.lit text => escape text
  | Part.param name => "(".data ++ buildParamValueRegExpSource conditions name ++ ")".data
  | Part.optional _ parts => "(?:".data ++ sourceList parts ++ ")?".data
where
  /-- The text `build(parts)` returns. -/
  sourceList : List Part → Str
    | [] => []
    | part :: parts => part.regExpSource conditions ++ sourceList parts

/-- The names `build(parts)` of `buildParseRegExp` pushes onto `_paramsMap` for one part, in the
order of the walk. -/
def Part.paramNames : Part → List Str
  | Part.lit _ => []
  | Part.param name => [name]
  | Part.optional _ parts => namesList parts
where
  /-- The names pushed for a list of parts. -/
  namesList : List Part → List Str
    | [] => []
    | part :: parts => part.paramNames ++ namesList parts

/-! ## Routes -/

/-- `Route.HTTP_METHODS`. The test `Route.HTTP_METHODS_REGEXP.test(method)` of the anchored
alternation `^(GET|POST|DELETE|PUT)$` holds exactly for the members of this list. -/
def HTTP_METHODS : List Str := ["GET".data, "POST".data, "DELETE".data, "PUT".data]

/-- The text the constructor appends to the pattern: `(?<query_string>)`. -/
def QUERY_STRING_GROUP : Str := "(?<query_string>)".data

/-- The parameter name `query_string`. -/
def QUERY_STRING : Str := "query_string".data

/-- The fields of a constructed `Route`. -/
structure Route where
  method : Str
  name : Str
  pattern : Str
  conditions : Conditions
  defaults : Params
  parts : List Part
  paramsMap : List Str
  parseRegExpSource : Str
  parseRegExp : RegExp
  deriving Repr

/-- Why the construction of a route does not return: the method is rejected (the constructor
throws), the matcher source is not read by `newRegExp`, or the builder source is not the
expression `Part.buildFn` evaluates. -/
inductive RouteError where
  | invalidMethod (method : Str)
  | matcherSource (source : Str)
  | builderSource
  deriving DecidableEq, Repr

/-- The constructor `new Route(...)` after its first statement: `method` is already
upper-cased. The name and the pattern are strings; an absent `conditions` or `defaults` is the
empty mapping. -/
def Route.compile (method name pattern : Str) (conditions : Conditions)
    (defaults : Params) : Except RouteError Route :=
  if method ∉ HTTP_METHODS then Except.error (RouteError.invalidMethod method)
  else
    let pattern := pattern ++ QUERY_STRING_GROUP
    let conditions := setCondition conditions QUERY_STRING (Condition.source ".*".data)
    let parts := parseBrackets pattern
    let source := "^".data ++ Part.regExpSource.sourceList conditions parts ++ "$".data
    match newRegExp source with
    | none => Except.error (RouteError.matcherSource source)
    | some regExp =>
      if Part.buildFnReadable.readableList defaults parts then
        Except.ok
          { method := method, name := name, pattern := pattern, conditions := conditions,
            defaults := defaults, parts := parts,
            paramsMap := Part.paramNames.namesList parts,
            parseRegExpSource := source, parseRegExp := regExp }
      else Except.error RouteError.builderSource

/-- The constructor `new Route(method, name, pattern, conditions, defaults)`. -/
def Route.new (h : Host) (method name pattern : Str) (conditions : Conditions)
    (defaults : Params) : Except RouteError Route :=
  Route.compile (h.toUpperCase method) name pattern conditions defaults

/-- The name `this._paramsMap[i]` turned into a property key: `undefined` becomes the key
`"undefined"`. -/
def paramKey (paramsMap : List Str) (i : Nat) : Str :=
  (paramsMap.get? i).getD "undefined".data

/-- The first loop of `parse`: `ret[this._paramsMap[i - 1]] = matches[i]` for every defined
`matches[i]`, `i ≥ 1`; `captures` is the rest of `matches` and `i` the number of captures
already seen. -/
def assignCaptures (paramsMap : List Str) : List (Option Str) → Nat → Params → Params
  | [], _, ret => ret
  | none :: captures, i, ret => assignCaptures paramsMap captures (i + 1) ret
  | some value :: captures, i, ret =>
    assignCaptures paramsMap captures (i + 1) (setProp ret (paramKey paramsMap i) value)

/-- The second and third loops of `parse`: every own property of `source` whose key `ret` does
not have yet is copied to `ret`. -/
def fillMissing : Params → Params → Params
  | [], ret => ret
  | (key, value) :: source, ret =>
    fillMissing source (if hasOwn ret key then ret else setProp ret key value)

/-- The part of `parse` between the test of the method and the call of `querystring.parse`:
`null` when the path does not match, otherwise `ret` filled from the captures and from the
defaults. -/
def Route.matchPath (r : Route) (path : Str) : Option Params :=
  match r.parseRegExp.exec path with
  | some found => some (fillMissing r.defaults (assignCaptures r.paramsMap found.tail 0 []))
  | none => none

/-- The end of `parse`: the decoded query parameters are copied to `ret` where it has no such
key, then `query_string` is deleted. -/
def mergeQuery (ret queryParams : Params) : Params :=
  deleteProp (fillMissing queryParams ret) QUERY_STRING

/-- `Route.prototype.parse(path, method)`; `none` is `null`. -/
def Route.parse (h : Host) (r : Route) (path method : Str) : Option Params :=
  if r.method = h.toUpperCase method then
    match r.matchPath path with
    | some ret => some (mergeQuery ret (h.qsParse (getProp ret QUERY_STRING)))
    | none => none
  else none

/-- The loop of `build` over the own keys of `params`, for one of its two target objects:
`target[key] = params[key]` for each key the test selects. -/
def copyOwn (params : Params) (selects : Str → Bool) : List Str → Params → Params
  | [], target => target
  | key :: keys, target =>
    copyOwn params selects keys
      (if selects key then setProp target key ((getProp params key).getD []) else target)

/-- The parameters `build` keeps as path parameters: `newParams` before `query_string` is
set. -/
def Route.pathParams (r : Route) (params : Params) : Params :=
  copyOwn params (fun key => decide (key ∈ r.paramsMap)) (params.map Prod.fst) []

/-- The parameters `build` hands to `querystring.stringify`: `queryParams`. -/
def Route.queryParams (r : Route) (params : Params) : Params :=
  copyOwn params (fun key => decide (key ∉ r.paramsMap)) (params.map Prod.fst) []

/-- The end of `build`, from the encoded query string on. -/
def Route.buildWith (r : Route) (params : Params) (queryString : Str) : Str :=
  Part.buildFn.buildList r.defaults
    (if queryString = [] then r.pathParams params
     else setProp (r.pathParams params) QUERY_STRING queryString)
    r.parts

/-- `Route.prototype.build(params)`. -/
def Route.build (h : Host) (r : Route) (params : Params) : Str :=
  r.buildWith params (h.qsStringify (r.queryParams params))

/-! ## A reference host -/

/-- Splits a text at the first occurrence of a separator. -/
def splitFirst (sep : Char) : Str → Str × Str
  | [] => ([], [])
  | c :: cs => if c = sep then ([], cs) else ((splitFirst sep cs).1.cons c, (splitFirst sep cs).2)

/-- Splits a text at every occurrence of a separator. -/
def splitAll (sep : Char) : Str → List Str
  | [] => [[]]
  | c :: cs =>
    if c = sep then [] :: splitAll sep cs
    else
      match splitAll sep cs with
      | [] => [[c]]
      | piece :: pieces => (c :: piece) :: pieces

/-- A decoder of `key=value&key=value` texts without percent-decoding; the first occurrence of a
key wins. -/
def simpleQsParse : Option Str → Params
  | none => []
  | some text =>
    ((splitAll '&' text).filter (· ≠ [])).foldl
      (fun ret piece =>
        if hasOwn ret (splitFirst '=' piece).1 then ret
        else ret ++ [splitFirst '=' piece])
      []

/-- An encoder to `key=value&key=value` texts without percent-encoding. -/
def simpleQsStringify : Params → Str
  | [] => []
  | [(k, v)] => k ++ '=' :: v
  | (k, v) :: q => k ++ '=' :: v ++ '&' :: simpleQsStringify q

/-- A host to run the definitions with: upper-casing of the letters `a` to `z` and the codec
above. -/
def Host.reference : Host where
  toUpperCase := fun s => s.map Char.toUpper
  qsParse := simpleQsParse
  qsStringify := simpleQsStringify
  toUpperCase_ascii := fun _ _ => rfl
  toUpperCase_idem := fun s => by
    have key : ∀ c : Char, c.toUpper.toUpper = c.toUpper := by
      intro c
      by_cases hc : c.toNat ≥ 97 ∧ c.toNat ≤ 122
      · have h1 : c.toUpper = Char.ofNat (c.toNat - 32) := by
          unfold Char.toUpper
          exact if_pos hc
        have hv : (Char.ofNat (c.toNat - 32)).toNat = c.toNat - 32 := by
          have hvalid : (c.toNat - 32).isValidChar := Or.inl (by omega)
          unfold Char.ofNat
          rw [dif_pos hvalid]
          rfl
        rw [h1]
        unfold Char.toUpper
        rw [if_neg]
        rw [hv]
        omega
      · have h1 : c.toUpper = c := by
          unfold Char.toUpper
          exact if_neg hc
        rw [h1, h1]
    simp [List.map_map, Function.comp_def, key]
  qsParse_undefined := rfl
  qsStringify_empty := rfl
  qsStringify_nonempty := fun q hq => by
    match q, hq with
    | [(k, v)], _ => simp [simpleQsStringify]
    | (k, v) :: kv :: q, _ => simp [simpleQsStringify]

/-- The part itself and every part nested in it, at any depth. -/
def Part.nodes : Part → List Part
  | Part.lit text => [Part.lit text]
  | Part.param name => [Part.param name]
  | Part.optional dependOn parts => Part.optional dependOn parts :: nodesList parts
where
  /-- The parts of a list and every part nested in them. -/
  nodesList : List Part → List Part
    | [] => []
    | part :: parts => part.nodes ++ nodesList parts

/-- Equality of parts, as a test. -/
def Part.beq : Part → Part → Bool
  | Part.lit a, Part.lit b => a = b
  | Part.param a, Part.param b => a = b
  | Part.optional d ps, Part.optional e qs => d = e && beqList ps qs
  | _, _ => false
where
  /-- Equality of lists of parts, as a test. -/
  beqList : List Part → List Part → Bool
    | [], [] => true
    | p :: ps, q :: qs => p.beq q && beqList ps qs
    | _, _ => false

mutual
theorem Part.eq_of_beq : ∀ a b : Part, a.beq b = true → a = b
  | Part.lit a, Part.lit b, h => by simpa [Part.beq] using h
  | Part.param a, Part.param b, h => by simpa [Part.beq] using h
  | Part.optional d ps, Part.optional e qs, h => by
    simp only [Part.beq, Bool.and_eq_true, decide_eq_true_eq] at h
    rw [h.1, Part.eqList_of_beq ps qs h.2]
  | Part.lit _, Part.param _, h => by simp [Part.beq] at h
  | Part.lit _, Part.optional _ _, h => by simp [Part.beq] at h
  | Part.param _, Part.lit _, h => by simp [Part.beq] at h
  | Part.param _, Part.optional _ _, h => by simp [Part.beq] at h
  | Part.optional _ _, Part.lit _, h => by simp [Part.beq] at h
  | Part.optional _ _, Part.param _, h => by simp [Part.beq] at h
theorem Part.eqList_of_beq : ∀ as bs : List Part, Part.beq.beqList as bs = true → as = bs
  | [], [], _ => rfl
  | p :: ps, q :: qs, h => by
    simp only [Part.beq.beqList, Bool.and_eq_true] at h
    rw [Part.eq_of_beq p q h.1, Part.eqList_of_beq ps qs h.2]
  | [], _ :: _, h => by simp [Part.beq.beqList] at h
  | _ :: _, [], h => by simp [Part.beq.beqList] at h
end

mutual
theorem Part.beq_self : ∀ a : Part, a.beq a = true
  | Part.lit a => by simp [Part.beq]
  | Part.param a => by simp [Part.beq]
  | Part.optional d ps => by simp [Part.beq, Part.beqList_self ps]
theorem Part.beqList_self : ∀ as : List Part, Part.beq.beqList as as = true
  | [] => rfl
  | p :: ps => by simp [Part.beq.beqList, Part.beq_self p, Part.beqList_self ps]
end

instance : DecidableEq Part := fun a b =>
  if h : a.beq b = true then isTrue (Part.eq_of_beq a b h)
  else isFalse (fun e => h (e ▸ Part.beq_self a))

deriving instance DecidableEq for RegExp
deriving instance DecidableEq for Route

/-- Equality of results of a construction is decidable. -/
instance decEqExcept {ε α : Type} [DecidableEq ε] [DecidableEq α] : DecidableEq (Except ε α)
  | Except.ok a, Except.ok b =>
    if h : a = b then isTrue (h ▸ rfl) else isFalse (fun e => h (Except.ok.inj e))
  | Except.error a, Except.error b =>
    if h : a = b then isTrue (h ▸ rfl) else isFalse (fun e => h (Except.error.inj e))
  | Except.ok _, Except.error _ => isFalse (fun e => Except.noConfusion e)
  | Except.error _, Except.ok _ => isFalse (fun e => Except.noConfusion e)

/-! ## The registry (`Router`) -/

/-- A `Router`: `_routes` in the order of registration (`null` is the empty list) and
`_routesByName`. -/
structure Router where
  routes : List Route
  routesByName : List (Str × Route)

/-- `new Router()`. -/
def Router.empty : Router :=
  { routes := [], routesByName := [] }

/-- The write `this._routesByName[name] = route`. -/
def setRoute : List (Str × Route) → Str → Route → List (Str × Route)
  | [], key, value => [(key, value)]
  | (k, v) :: o, key, value =>
    if k = key then (k, value) :: o else (k, v) :: setRoute o key value

/-- `Router.prototype.addRoute`: the router after the call and the route returned; nothing is
registered when the constructor of the route does not return. -/
def Router.addRoute (h : Host) (router : Router) (method name pattern : Str)
    (conditions : Conditions) (defaults : Params) : Except RouteError (Router × Route) :=
  match Route.new h method name pattern conditions defaults with
  | Except.error e => Except.error e
  | Except.ok route =>
    Except.ok
      ({ routes := router.routes ++ [route],
         routesByName := setRoute router.routesByName name route }, route)

/-- The `for` loop of `Router.prototype.find` over the routes still to try. -/
def findLoop (h : Host) (path method : Str) : List Route → Option (Route × Params)
  | [] => none
  | route :: routes =>
    match route.parse h path method with
    | some parsed => some (route, parsed)
    | none => findLoop h path method routes

/-- `Router.prototype.find(path, method)`; `none` is `null`. -/
def Router.find (h : Host) (router : Router) (path method : Str) : Option (Route × Params) :=
  findLoop h path method router.routes

/-- An argument of the constructor of a route that must be a string: a string, or a value
whose `typeof` is not `'string'`. -/
inductive JsValue where
  | string (s : Str)
  | notString
  deriving DecidableEq

/-- What the constructor of a route throws for its arguments, or the error of the
compilation. -/
inductive ConstructError where
  | invalidMethod (method : Str)
  | nameNotString
  | patternNotString
  | compile (e : RouteError)
  deriving DecidableEq

/-- The constructor `new Route(method, name, pattern, conditions, defaults)` with its three
checks, for a name and a pattern of any type. -/
def Route.construct (h : Host) (method : Str) (name pattern : JsValue)
    (conditions : Conditions) (defaults : Params) : Except ConstructError Route :=
  if h.toUpperCase method ∉ HTTP_METHODS then
    Except.error (ConstructError.invalidMethod (h.toUpperCase method))
  else
    match name, pattern with
    | JsValue.notString, _ => Except.error ConstructError.nameNotString
    | JsValue.string _, JsValue.notString => Except.error ConstructError.patternNotString
    | JsValue.string name, JsValue.string pattern =>
      match Route.new h method name pattern conditions defaults with
      | Except.ok r => Except.ok r
      | Except.error e => Except.error (ConstructError.compile e)

/-! ## Notions used to state properties of the parser -/

/-- The variables of the loop of `parseBrackets`. -/
structure BState where
  parts : List Part
  part : Str
  countOpened : Nat
  isFindingClosed : Bool

/-- One turn of the loop of `parseBrackets`, for the character read. -/
def bracketStep (sub : Str → List Part) (st : BState) (c : Char) : BState :=
  if c = '(' then
    if st.isFindingClosed then
      { st with part := st.part ++ [c], countOpened := st.countOpened + 1 }
    else { parts := parseParams st.part st.parts, part := [], countOpened := 0,
           isFindingClosed := true }
  else if c = ')' then
    if st.isFindingClosed then
      if st.countOpened = 0 then
        { parts := st.parts ++ [Part.optional (dependOnParams (sub st.part)) (sub st.part)],
          part := [], countOpened := st.countOpened, isFindingClosed := false }
      else { st with part := st.part ++ [c], countOpened := st.countOpened - 1 }
    else { st with part := st.part ++ [c] }
  else { st with part := st.part ++ [c] }

/-- The number of `(` still waiting for their `)` after a text has been read, `depth` of them
waiting before it; a `)` met when none is waiting closes nothing. -/
def unclosed : Str → Nat → Nat
  | [], depth => depth
  | c :: cs, depth =>
    if c = '(' then unclosed cs (depth + 1)
    else if c = ')' then unclosed cs (depth - 1)
    else unclosed cs depth

/-- The text of a tree: a Literal is its text, a Param is `<name>`, an Optional is its children
between `(` and `)`. -/
def Part.render : Part → Str
  | Part.lit text => text
  | Part.param name => '<' :: name ++ ['>']
  | Part.optional _ parts => '(' :: renderList parts ++ [')']
where
  /-- The text of a list of parts. -/
  renderList : List Part → Str
    | [] => []
    | part :: parts => part.render ++ renderList parts

/-- The names of the Param nodes that are direct members of a list of parts, in order. -/
def directParams (parts : List Part) : List Str :=
  parts.filterMap (fun part =>
    match part with
    | Part.param name => some name
    | _ => none)

/-- Every Optional node of a list of parts lists its direct parameters. -/
def shallowDeps (parts : List Part) : Prop :=
  ∀ node ∈ Part.nodes.nodesList parts, ∀ (dependOn : List Str) (children : List Part),
    node = Part.optional dependOn children → dependOn = directParams children


/-- Whether a text can be the content of one group, `depth` further `(` being open before it:
every `)` of the text closes a `(` of the text or one of these, and none of them is left
open. -/
def groupContent : Str → Nat → Bool
  | [], depth => depth = 0
  | c :: cs, depth =>
    if c = '(' then groupContent cs (depth + 1)
    else if c = ')' then depth ≠ 0 && groupContent cs (depth - 1)
    else groupContent cs depth

/-- A text that `PARAM_NAME_REGEXP_SOURCE`, `[a-zA-Z_][\w\-]*`, matches entirely. -/
def isParamName : Str → Bool
  | [] => false
  | c :: cs => isNameStart c && cs.all isNameChar

/-! ## The expression the matcher source stands for -/

/-- The term `new RegExp` reads for one character of an escaped literal text: `^` and `$` are
not escaped by `Route.escape` and are read as assertions. -/
def litTerm (c : Char) : Regex :=
  if c = '^' then Regex.bol else if c = '$' then Regex.eol else Regex.char c

/-- The expression of `[\w\-]+`. -/
def VALUE_REGEX : Regex :=
  Regex.plus (Regex.cls false [ClassItem.word, ClassItem.char '-'])

/-- The expression `new RegExp` reads between the parentheses of a parameter whose value source
is `[\w\-]+` (no condition) or `.*` (the condition of `query_string`); `none` for any
other value source. -/
def valueBody (conditions : Conditions) (name : Str) : Option Regex :=
  if buildParamValueRegExpSource conditions name = PARAM_VALUE_REGEXP_SOURCE then
    some (Regex.seq VALUE_REGEX Regex.empty)
  else if buildParamValueRegExpSource conditions name = ".*".data then
    some (Regex.seq (Regex.star Regex.any) Regex.empty)
  else none

/-- Whether every parameter of a part has one of the two value sources of `valueBody`. -/
def Part.plain (conditions : Conditions) (part : Part) : Bool :=
  part.paramNames.all (fun name => (valueBody conditions name).isSome)

/-- The terms of the expression of a part, `index` capturing groups being opened before it:
a Literal gives one term for each character, a Param gives the capturing group of the next
index around the expression of its value source, an Optional gives the sequence of the terms
of its children, made optional. -/
def Part.terms (conditions : Conditions) : Nat → Part → List Regex
  | _, Part.lit text => text.map litTerm
  | index, Part.param name =>
    [Regex.group index ((valueBody conditions name).getD Regex.empty)]
  | index, Part.optional _ parts => [Regex.opt (Regex.seqOf (termsList index parts))]
where
  /-- The terms of a list of parts. -/
  termsList : Nat → List Part → List Regex
    | _, [] => []
    | index, part :: parts =>
      part.terms conditions index ++ termsList (index + part.paramNames.length) parts

theorem exists_ok_of_map_eq_some {ε α β : Type} {x : Except ε α} {g : α → β} {v : β}
    (hx : x.toOption.map g = some v) : ∃ a, x = Except.ok a ∧ g a = v := by
  cases x with
  | error e => simp [Except.toOption] at hx
  | ok a => exact ⟨a, rfl, by simpa [Except.toOption] using hx⟩

theorem backslash_mem_special : '\\' ∈ SPECIAL_CHARS := by decide

theorem jsStringValue_cons_of_ne (c : Char) (cs : Str) (hc : c ≠ '\\') :
    jsStringValue (c :: cs) =
      if c = '"' ∨ c.toNat = 0x0A ∨ c.toNat = 0x0D then none
      else (jsStringValue cs).map (c :: ·) := by
  cases cs <;> simp [jsStringValue, hc]

theorem jsStringValue_backslash (d : Char) (ds : Str) :
    jsStringValue ('\\' :: d :: ds) =
      if d ∈ SPECIAL_CHARS then (jsStringValue ds).map (d :: ·) else none := by
  simp [jsStringValue]

theorem jsStringValue_escape (s : Str) :
    ∀ t, jsStringValue (escape s) = some t → t = s := by
  induction s with
  | nil => intro t ht; simpa [escape, jsStringValue] using ht.symm
  | cons c cs ih =>
    intro t ht
    by_cases hc : c ∈ SPECIAL_CHARS
    · simp only [escape, if_pos hc] at ht
      rw [jsStringValue_backslash, if_pos hc] at ht
      cases hv : jsStringValue (escape cs) with
      | none => simp [hv] at ht
      | some u =>
        rw [hv] at ht
        simp only [Option.map_some', Option.some.injEq] at ht
        rw [← ht, ih u hv]
    · have hne : c ≠ '\\' := fun h => hc (h ▸ backslash_mem_special)
      simp only [escape, if_neg hc] at ht
      rw [jsStringValue_cons_of_ne c _ hne] at ht
      split at ht
      · exact absurd ht (by simp)
      · cases hv : jsStringValue (escape cs) with
        | none => simp [hv] at ht
        | some u =>
          rw [hv] at ht
          simp only [Option.map_some', Option.some.injEq] at ht
          rw [← ht, ih u hv]

theorem jsLit_of_readable (s : Str) (hs : (jsStringValue (escape s)).isSome = true) :
    jsLit s = s := by
  cases hv : jsStringValue (escape s) with
  | none => simp [hv] at hs
  | some t => simp [jsLit, hv, jsStringValue_escape s t hv]

theorem hasOwn_nil (key : Str) : hasOwn [] key = false := rfl

mutual
theorem readable_of_mem_nodes (defaults : Params) (node : Part) :
    ∀ part : Part, part.buildFnReadable defaults = true → node ∈ part.nodes →
      node.buildFnReadable defaults = true
  | Part.lit text, hr, hm => by
    simp only [Part.nodes, List.mem_singleton] at hm
    rw [hm]; exact hr
  | Part.param name, hr, hm => by
    simp only [Part.nodes, List.mem_singleton] at hm
    rw [hm]; exact hr
  | Part.optional dependOn parts, hr, hm => by
    simp only [Part.nodes, List.mem_cons] at hm
    rcases hm with hm | hm
    · rw [hm]; exact hr
    · have hl : Part.buildFnReadable.readableList defaults parts = true := by
        simp only [Part.buildFnReadable, Bool.and_eq_true] at hr
        exact hr.2
      exact readable_of_mem_nodesList defaults node parts hl hm
theorem readable_of_mem_nodesList (defaults : Params) (node : Part) :
    ∀ parts : List Part, Part.buildFnReadable.readableList defaults parts = true →
      node ∈ Part.nodes.nodesList parts → node.buildFnReadable defaults = true
  | [], _, hm => by simp [Part.nodes.nodesList] at hm
  | part :: parts, hr, hm => by
    simp only [Part.buildFnReadable.readableList, Bool.and_eq_true] at hr
    simp only [Part.nodes.nodesList, List.mem_append] at hm
    rcases hm with hm | hm
    · exact readable_of_mem_nodes defaults node part hr.1 hm
    · exact readable_of_mem_nodesList defaults node parts hr.2 hm
end

/-- What a successful construction fixes. -/
theorem Route.compile_ok {method name pattern : Str} {conditions : Conditions}
    {defaults : Params} {r : Route}
    (hr : Route.compile method name pattern conditions defaults = Except.ok r) :
    method ∈ HTTP_METHODS ∧ r.method = method ∧ r.defaults = defaults ∧
      r.parts = parseBrackets (pattern ++ QUERY_STRING_GROUP) ∧
      r.paramsMap = Part.paramNames.namesList r.parts ∧
      r.conditions = setCondition conditions QUERY_STRING (Condition.source ".*".data) ∧
      newRegExp ("^".data ++ Part.regExpSource.sourceList r.conditions r.parts ++ "$".data)
        = some r.parseRegExp ∧
      Part.buildFnReadable.readableList defaults r.parts = true := by
  unfold Route.compile at hr
  split at hr
  · exact absurd hr (by simp)
  · rename_i hm
    simp only at hr
    split at hr
    · exact absurd hr (by simp)
    · rename_i regExp hre
      split at hr
      · rename_i hread
        simp only [Except.ok.injEq] at hr
        subst hr
        exact ⟨not_not.mp hm, rfl, rfl, rfl, rfl, rfl, hre, hread⟩
      · exact absurd hr (by simp)

theorem Route.compile_name (method name pattern : Str) (conditions : Conditions)
    (defaults : Params) :
    Route.compile method name pattern conditions defaults =
      (Route.compile method [] pattern conditions defaults).map
        (fun r => { r with name := name }) := by
  unfold Route.compile
  split
  · rfl
  · simp only
    split
    · rfl
    · split <;> rfl

/-- A route of a concrete method, pattern, conditions and defaults exists for every host and
name, and has the property `P` tested on the route compiled under the empty name. -/
theorem Route.exists_new (h : Host) (method upper name pattern : Str)
    (conditions : Conditions) (defaults : Params) (P : Route → Prop) [DecidablePred P]
    (hascii : ∀ c ∈ method, c.toNat < 128) (hupper : method.map Char.toUpper = upper)
    (hP : ∀ (r : Route) (name : Str), P r → P { r with name := name })
    (hv : (Route.compile upper [] pattern conditions defaults).toOption.map
      (fun r => decide (P r)) = some true) :
    ∃ r, Route.new h method name pattern conditions defaults = Except.ok r ∧ P r := by
  obtain ⟨r, hr, hgr⟩ := exists_ok_of_map_eq_some hv
  refine ⟨{ r with name := name }, ?_, hP r name (of_decide_eq_true hgr)⟩
  rw [Route.new, h.toUpperCase_ascii method hascii, hupper, Route.compile_name, hr]
  rfl

theorem Route.new_ok {h : Host} {method name pattern : Str} {conditions : Conditions}
    {defaults : Params} {r : Route}
    (hr : Route.new h method name pattern conditions defaults = Except.ok r) :
    h.toUpperCase method ∈ HTTP_METHODS ∧ r.method = h.toUpperCase method ∧
      r.defaults = defaults ∧
      r.parts = parseBrackets (pattern ++ QUERY_STRING_GROUP) ∧
      r.paramsMap = Part.paramNames.namesList r.parts ∧
      r.conditions = setCondition conditions QUERY_STRING (Condition.source ".*".data) ∧
      newRegExp ("^".data ++ Part.regExpSource.sourceList r.conditions r.parts ++ "$".data)
        = some r.parseRegExp ∧
      Part.buildFnReadable.readableList defaults r.parts = true :=
  Route.compile_ok hr

theorem any_congr_of_mem {α : Type} {f g : α → Bool} :
    ∀ l : List α, (∀ x ∈ l, f x = g x) → l.any f = l.any g
  | [], _ => rfl
  | x :: l, hfg => by
    simp only [List.any_cons]
    rw [hfg x (List.mem_cons_self x l),
      any_congr_of_mem l (fun y hy => hfg y (List.mem_cons_of_mem x hy))]

/-- The names of a readable optional node are read back unchanged. -/
theorem jsLit_depend_of_readable {defaults : Params} {dependOn : List Str} {parts : List Part}
    (hread : (Part.optional dependOn parts).buildFnReadable defaults = true) :
    ∀ name ∈ dependOn, jsLit name = name := by
  intro name hname
  simp only [Part.buildFnReadable, Bool.and_eq_true, List.all_eq_true] at hread
  exact jsLit_of_readable name (hread.1 name hname).1

/-! ## Lemmas: reading the mappings `parse` writes -/

theorem getProp_nil (key : Str) : getProp [] key = none := rfl

theorem getProp_cons (k v : Str) (o : Params) (key : Str) :
    getProp ((k, v) :: o) key = if key = k then some v else getProp o key := by
  by_cases hk : key = k
  · simp [getProp, List.lookup, hk]
  · have hb : (key == k) = false := by simpa using hk
    simp [getProp, List.lookup, hb, hk]

theorem hasOwn_cons (k v : Str) (o : Params) (key : Str) :
    hasOwn ((k, v) :: o) key = (decide (k = key) || hasOwn o key) := by
  simp [hasOwn]

theorem hasOwn_eq_isSome : ∀ (o : Params) (key : Str), hasOwn o key = (getProp o key).isSome
  | [], key => rfl
  | (k, v) :: o, key => by
    rw [hasOwn_cons, getProp_cons, hasOwn_eq_isSome o key]
    by_cases hk : key = k
    · simp [hk]
    · have hk2 : ¬ k = key := fun e => hk e.symm
      simp [hk, hk2]

theorem getProp_insertProp : ∀ (o : Params) (k v key : Str),
    getProp (insertProp o k v) key = if key = k then some v else getProp o key
  | [], k, v, key => by rw [insertProp, getProp_cons, getProp_nil]
  | (k0, v0) :: o, k, v, key => by
    by_cases h0 : k0 = k
    · rw [insertProp, if_pos h0, getProp_cons, getProp_cons, h0]
      by_cases hk : key = k <;> simp [hk]
    · rw [insertProp, if_neg h0, getProp_cons, getProp_cons, getProp_insertProp o k v key]
      by_cases hk0 : key = k0
      · have : ¬ key = k := fun e => h0 (hk0.symm.trans e)
        simp [hk0, h0]
      · simp [hk0]

/-- Reading after a write: a write under `__proto__` changes nothing. -/
theorem getProp_setProp (o : Params) (k v key : Str) :
    getProp (setProp o k v) key =
      if k = PROTO then getProp o key else if key = k then some v else getProp o key := by
  unfold setProp
  by_cases hk : k = PROTO
  · rw [if_pos hk, if_pos hk]
  · rw [if_neg hk, if_neg hk, getProp_insertProp]

theorem getProp_setProp_of_ne (o : Params) (k v key : Str) (hk : k ≠ PROTO) :
    getProp (setProp o k v) key = if key = k then some v else getProp o key := by
  rw [getProp_setProp, if_neg hk]

theorem QUERY_STRING_ne_PROTO : QUERY_STRING ≠ PROTO := by decide

theorem getProp_deleteProp : ∀ (o : Params) (k key : Str),
    getProp (deleteProp o k) key = if key = k then none else getProp o key
  | [], k, key => by simp [deleteProp, getProp_nil]
  | (k0, v0) :: o, k, key => by
    have ih := getProp_deleteProp o k key
    by_cases h0 : k0 = k
    · have : deleteProp ((k0, v0) :: o) k = deleteProp o k := by
        simp [deleteProp, h0]
      rw [this, ih, getProp_cons, h0]
      by_cases hk : key = k <;> simp [hk]
    · have : deleteProp ((k0, v0) :: o) k = (k0, v0) :: deleteProp o k := by
        simp [deleteProp, h0]
      rw [this, getProp_cons, ih, getProp_cons]
      by_cases hk0 : key = k0
      · have : ¬ key = k := fun e => h0 (hk0.symm.trans e)
        simp [hk0, h0]
      · simp [hk0]

theorem mem_keys_iff : ∀ (o : Params) (key : Str),
    key ∈ o.map Prod.fst ↔ ∃ v, getProp o key = some v
  | [], key => by simp [getProp_nil]
  | (k, v) :: o, key => by
    rw [List.map_cons, List.mem_cons, getProp_cons, mem_keys_iff o key]
    by_cases hk : key = k
    · simp [hk]
    · simp [hk]

/-- Reading a target of the loop of `build`: a selected own key of `params` other than
`__proto__` has the value `params` gives it, every other key has what the target had. -/
theorem getProp_copyOwn (params : Params) (selects : Str → Bool) :
    ∀ (keys : List Str) (target : Params) (key : Str),
      getProp (copyOwn params selects keys target) key =
        if key ∈ keys ∧ selects key = true ∧ key ≠ PROTO then
          some ((getProp params key).getD [])
        else getProp target key
  | [], target, key => by simp [copyOwn]
  | k :: keys, target, key => by
    rw [copyOwn, getProp_copyOwn params selects keys _ key]
    by_cases hmem : key ∈ keys ∧ selects key = true ∧ key ≠ PROTO
    · rw [if_pos hmem, if_pos ⟨List.mem_cons_of_mem _ hmem.1, hmem.2⟩]
    · rw [if_neg hmem]
      by_cases hk : key = k
      · subst hk
        by_cases hs : selects key = true
        · rw [if_pos hs, getProp_setProp]
          by_cases hp : key = PROTO
          · simp [hp]
          · simp [hp, hs]
        · simp [hs]
      · have hnot : ¬ (key ∈ k :: keys ∧ selects key = true ∧ key ≠ PROTO) := by
          simp only [List.mem_cons, hk, false_or]
          exact hmem
        rw [if_neg hnot]
        by_cases hs : selects k = true
        · rw [if_pos hs, getProp_setProp]
          by_cases hp : k = PROTO
          · rw [if_pos hp]
          · rw [if_neg hp, if_neg hk]
        · rw [if_neg hs]

theorem getProp_copyOwn_keys (params : Params) (selects : Str → Bool) (key : Str) :
    getProp (copyOwn params selects (params.map Prod.fst) []) key =
      if selects key = true ∧ key ≠ PROTO then getProp params key else none := by
  rw [getProp_copyOwn, getProp_nil]
  cases hg : getProp params key with
  | none =>
    have hmem : key ∉ params.map Prod.fst := by
      rw [mem_keys_iff]
      simp [hg]
    simp [hmem]
  | some v =>
    have hmem : key ∈ params.map Prod.fst := by
      rw [mem_keys_iff]
      exact ⟨v, hg⟩
    simp [hmem]

theorem getProp_pathParams (r : Route) (p : Params) (key : Str) :
    getProp (r.pathParams p) key =
      if key ∈ r.paramsMap ∧ key ≠ PROTO then getProp p key else none := by
  rw [Route.pathParams, getProp_copyOwn_keys]
  simp only [decide_eq_true_eq]

theorem getProp_queryParams (r : Route) (p : Params) (key : Str) :
    getProp (r.queryParams p) key =
      if key ∉ r.paramsMap ∧ key ≠ PROTO then getProp p key else none := by
  rw [Route.queryParams, getProp_copyOwn_keys]
  simp only [decide_eq_true_eq]

theorem getProp_pathParams_of_ne (r : Route) (p : Params) (key : Str) (hkey : key ≠ PROTO) :
    getProp (r.pathParams p) key = if key ∈ r.paramsMap then getProp p key else none := by
  rw [getProp_pathParams]
  simp [hkey]

theorem getProp_queryParams_of_ne (r : Route) (p : Params) (key : Str) (hkey : key ≠ PROTO) :
    getProp (r.queryParams p) key = if key ∈ r.paramsMap then none else getProp p key := by
  rw [getProp_queryParams]
  by_cases hm : key ∈ r.paramsMap <;> simp [hkey, hm]

theorem eq_nil_of_getProp : ∀ (o : Params), (∀ key, getProp o key = none) → o = []
  | [], _ => rfl
  | (k, v) :: o, hall => by
    have := hall k
    rw [getProp_cons, if_pos rfl] at this
    exact absurd this (by simp)

/-! ## C1 -/

/-- C1: in a route constructed with no declared defaults, the builder's output for an Optional
node (at any depth of the tree) is the build of its children if the mapping has an own entry
for at least one of the node's `dependOnParams`, and the empty string otherwise; for the
pattern `/a<x>(/b<y>)`, `build({x:"1"})` is `/a1` and `build({x:"1", y:"2"})` is `/a1/b2`. -/
theorem optional_build_without_defaults :
    (∀ (h : Host) (method name pattern : Str) (conditions : Conditions) (r : Route),
      Route.new h method name pattern conditions [] = Except.ok r →
      ∀ (dependOn : List Str) (parts : List Part),
        Part.optional dependOn parts ∈ Part.nodes.nodesList r.parts →
        ∀ p : Params,
          (Part.optional dependOn parts).buildFn r.defaults p =
            if dependOn.any (hasOwn p) then Part.buildFn.buildList r.defaults p parts
            else []) ∧
    (∀ (h : Host) (name : Str),
      ∃ r, Route.new h "GET".data name "/a<x>(/b<y>)".data [] [] = Except.ok r ∧
        r.build h [("x".data, "1".data)] = "/a1".data ∧
        r.build h [("x".data, "1".data), ("y".data, "2".data)] = "/a1/b2".data) := by
  constructor
  · intro h method name pattern conditions r hr dependOn parts hmem p
    obtain ⟨_, _, hdef, _, _, _, _, hread⟩ := Route.new_ok hr
    have hnode := readable_of_mem_nodesList [] _ r.parts hread hmem
    have hnames := jsLit_depend_of_readable hnode
    have hany : dependOn.any (dependCounts r.defaults p) = dependOn.any (hasOwn p) := by
      apply any_congr_of_mem
      intro name hname
      simp [dependCounts, hnames name hname, hdef, hasOwn_nil]
    rw [Part.buildFn, hany]
  · intro h name
    obtain ⟨r, hr, h1, h2, h3, h4⟩ := Route.exists_new h "GET".data "GET".data name
      "/a<x>(/b<y>)".data [] []
      (fun r =>
        r.queryParams [("x".data, "1".data)] = [] ∧
        r.buildWith [("x".data, "1".data)] [] = "/a1".data ∧
        r.queryParams [("x".data, "1".data), ("y".data, "2".data)] = [] ∧
        r.buildWith [("x".data, "1".data), ("y".data, "2".data)] [] = "/a1/b2".data)
      (by decide) (by decide) (fun _ _ hp => hp) (by decide!)
    refine ⟨r, hr, ?_, ?_⟩
    · rw [Route.build, h1, h.qsStringify_empty, h2]
    · rw [Route.build, h3, h.qsStringify_empty, h4]

theorem optional_build_without_defaults_witness :
    (Part.optional ["y".data] [Part.lit "/b".data, Part.param "y".data]).buildFn []
        [("x".data, "1".data), ("y".data, "2".data)] = "/b2".data := by
  obtain ⟨r, hr, _⟩ := optional_build_without_defaults.2 Host.reference "users".data
  have hparts := (Route.new_ok hr).2.2.2.1
  have hdef := (Route.new_ok hr).2.2.1
  have hmem : Part.optional ["y".data] [Part.lit "/b".data, Part.param "y".data] ∈
      Part.nodes.nodesList r.parts := by
    rw [hparts]
    decide!
  have key := optional_build_without_defaults.1 Host.reference "GET".data "users".data
    "/a<x>(/b<y>)".data [] r hr _ _ hmem [("x".data, "1".data), ("y".data, "2".data)]
  rw [hdef] at key
  rw [key]
  decide!

/-! ## C2 -/

theorem getProp_of_hasOwn : ∀ {o : Params} {key : Str}, hasOwn o key = true →
    ∃ v, getProp o key = some v
  | [], key, h => by simp [hasOwn] at h
  | (k, v) :: o, key, h => by
    by_cases hk : key = k
    · exact ⟨v, by simp [getProp, List.lookup, hk]⟩
    · have ho : hasOwn o key = true := by
        have hk2 : ¬ k = key := fun e => hk e.symm
        simpa [hasOwn, hk2] using h
      obtain ⟨w, hw⟩ := getProp_of_hasOwn ho
      refine ⟨w, ?_⟩
      have hb : (key == k) = false := by simpa using hk
      simpa [getProp, List.lookup, hb] using hw

/-- A name does not count for the inclusion of a group when the mapping has no own entry for
it or holds the declared default. -/
theorem dependCounts_eq_false {defaults q : Params} {name : Str}
    (hname : jsLit name = name)
    (hdefault : hasOwn defaults name = true →
      jsLit ((getProp defaults name).getD []) = (getProp defaults name).getD [])
    (hq : hasOwn q name = false ∨
      (hasOwn defaults name = true ∧ getProp q name = getProp defaults name)) :
    dependCounts defaults q name = false := by
  rcases hq with hq | ⟨hd, hv⟩
  · simp [dependCounts, hname, hq]
  · obtain ⟨d, hd2⟩ := getProp_of_hasOwn hd
    have := hdefault hd
    rw [hd2] at this hv
    simp only [Option.getD_some] at this
    simp [dependCounts, hname, hd, hd2, hv, this]

/-- The names and default values of a readable optional node are read back unchanged. -/
theorem jsLit_default_of_readable {defaults : Params} {dependOn : List Str} {parts : List Part}
    (hread : (Part.optional dependOn parts).buildFnReadable defaults = true) :
    ∀ name ∈ dependOn, hasOwn defaults name = true →
      jsLit ((getProp defaults name).getD []) = (getProp defaults name).getD [] := by
  intro name hname hd
  simp only [Part.buildFnReadable, Bool.and_eq_true, List.all_eq_true] at hread
  have := (hread.1 name hname).2
  rw [if_pos hd] at this
  exact jsLit_of_readable _ this

/-- C2, counterexample: for the pattern `/a(/<y>)` with default `y="d"` and the mapping
`{z:"1"}`, the trailing optional group of the route has the single direct parameter
`query_string`, the mapping has no entry for it, and `build` still renders the group:
the result is `/a?z=1`. -/
theorem build_renders_group_of_absent_parameter :
    ∃ r, Route.new Host.reference "GET".data "r".data "/a(/<y>)".data []
        [("y".data, "d".data)] = Except.ok r ∧
      Part.optional [QUERY_STRING] [Part.lit "?".data, Part.param QUERY_STRING] ∈ r.parts ∧
      hasOwn [("z".data, "1".data)] QUERY_STRING = false ∧
      r.build Host.reference [("z".data, "1".data)] = "/a?z=1".data :=
  Route.exists_new Host.reference "GET".data "GET".data "r".data "/a(/<y>)".data []
    [("y".data, "d".data)]
    (fun r =>
      Part.optional [QUERY_STRING] [Part.lit "?".data, Part.param QUERY_STRING] ∈ r.parts ∧
      hasOwn [("z".data, "1".data)] QUERY_STRING = false ∧
      r.build Host.reference [("z".data, "1".data)] = "/a?z=1".data)
    (by decide) (by decide) (fun _ _ hp => hp) (by decide!)

/-- C2, amended: the compiled builder, for every mapping `q` it is called with, emits the empty
string for an optional group (at any depth) when each direct parameter of the group is absent
from `q` or present with a value equal to the default the route declares for it; `build(p)`
calls the builder with the mapping `newParams`, to which `query_string` is added when the
encoding of the mapping `queryParams` is not empty, where, for every key other than
`__proto__`, `newParams` has the entry of `p` when the key is a parameter of the route and no
entry otherwise, and `queryParams` has the entry of `p` when the key is not a parameter of the
route and no entry otherwise; for the pattern `/a(/<y>)` with default `y="d"`,
`build({y:"d"})` is `/a`. -/
theorem optional_omitted_when_absent_or_default :
    (∀ (h : Host) (method name pattern : Str) (conditions : Conditions) (defaults : Params)
        (r : Route) (dependOn : List Str) (parts : List Part) (q : Params),
      Route.new h method name pattern conditions defaults = Except.ok r →
      Part.optional dependOn parts ∈ Part.nodes.nodesList r.parts →
      (∀ name ∈ dependOn, hasOwn q name = false ∨
        (hasOwn r.defaults name = true ∧ getProp q name = getProp r.defaults name)) →
      (Part.optional dependOn parts).buildFn r.defaults q = []) ∧
    (∀ (h : Host) (r : Route) (p : Params),
      r.build h p = Part.buildFn.buildList r.defaults
        (if h.qsStringify (r.queryParams p) = [] then r.pathParams p
        else setProp (r.pathParams p) QUERY_STRING (h.qsStringify (r.queryParams p)))
        r.parts ∧
      (∀ key, key ≠ PROTO →
        getProp (r.pathParams p) key = if key ∈ r.paramsMap then getProp p key else none) ∧
      (∀ key, key ≠ PROTO →
        getProp (r.queryParams p) key = if key ∈ r.paramsMap then none else getProp p key)) ∧
    (∀ (h : Host) (name : Str),
      ∃ r, Route.new h "GET".data name "/a(/<y>)".data [] [("y".data, "d".data)]
          = Except.ok r ∧
        r.build h [("y".data, "d".data)] = "/a".data) := by
  refine ⟨?_, fun _ r p => ⟨rfl, fun key hkey => getProp_pathParams_of_ne r p key hkey,
    fun key hkey => getProp_queryParams_of_ne r p key hkey⟩, ?_⟩
  · intro h method name pattern conditions defaults r dependOn parts q hr hmem hq
    obtain ⟨_, _, hdef, _, _, _, _, hread⟩ := Route.new_ok hr
    rw [← hdef] at hread
    have hnode := readable_of_mem_nodesList r.defaults _ r.parts hread hmem
    have hany : dependOn.any (dependCounts r.defaults q) = false := by
      rw [List.any_eq_false]
      intro name hname
      rw [dependCounts_eq_false (jsLit_depend_of_readable hnode name hname)
        (jsLit_default_of_readable hnode name hname) (hq name hname)]
      simp
    rw [Part.buildFn, hany]
    rfl
  · intro h name
    obtain ⟨r, hr, h1, h2⟩ := Route.exists_new h "GET".data "GET".data name
      "/a(/<y>)".data [] [("y".data, "d".data)]
      (fun r =>
        r.queryParams [("y".data, "d".data)] = [] ∧
        r.buildWith [("y".data, "d".data)] [] = "/a".data)
      (by decide) (by decide) (fun _ _ hp => hp) (by decide!)
    exact ⟨r, hr, by rw [Route.build, h1, h.qsStringify_empty, h2]⟩

theorem optional_omitted_when_absent_or_default_witness :
    (Part.optional ["y".data] [Part.lit "/".data, Part.param "y".data]).buildFn
        [("y".data, "d".data)] [("y".data, "d".data)] = [] := by
  obtain ⟨r, hr, _⟩ := optional_omitted_when_absent_or_default.2.2 Host.reference "users".data
  have hparts := (Route.new_ok hr).2.2.2.1
  have hdef := (Route.new_ok hr).2.2.1
  have hmem : Part.optional ["y".data] [Part.lit "/".data, Part.param "y".data] ∈
      Part.nodes.nodesList r.parts := by
    rw [hparts]
    decide!
  have key := optional_omitted_when_absent_or_default.1 Host.reference "GET".data "users".data
    "/a(/<y>)".data [] [("y".data, "d".data)] r _ _ [("y".data, "d".data)] hr hmem
    (by
      rw [hdef]
      decide!)
  rw [hdef] at key
  exact key

/-! ## C3 -/

/-- C3, counterexample: for the pattern `/a(/<y>)` with default `y="d"`, `build({y:"e"})` is
`/a/e`, which is not `/ae`. -/
theorem build_override_is_not_ae :
    ∃ r, Route.new Host.reference "GET".data "r".data "/a(/<y>)".data []
        [("y".data, "d".data)] = Except.ok r ∧
      r.build Host.reference [("y".data, "e".data)] ≠ "/ae".data :=
  Route.exists_new Host.reference "GET".data "GET".data "r".data "/a(/<y>)".data []
    [("y".data, "d".data)]
    (fun r => r.build Host.reference [("y".data, "e".data)] ≠ "/ae".data)
    (by decide) (by decide) (fun _ _ hp => hp) (by decide!)

/-- C3, amended: for the route with pattern `/a(/<y>)` and default `y="d"`, `build({y:"e"})`
returns `/a/e`: the group is rendered with its literal `/`. -/
theorem build_override_renders_group (h : Host) (name : Str) :
    ∃ r, Route.new h "GET".data name "/a(/<y>)".data [] [("y".data, "d".data)]
        = Except.ok r ∧
      r.build h [("y".data, "e".data)] = "/a/e".data := by
  obtain ⟨r, hr, h1, h2⟩ := Route.exists_new h "GET".data "GET".data name
    "/a(/<y>)".data [] [("y".data, "d".data)]
    (fun r =>
      r.queryParams [("y".data, "e".data)] = [] ∧
      r.buildWith [("y".data, "e".data)] [] = "/a/e".data)
    (by decide) (by decide) (fun _ _ hp => hp) (by decide!)
  exact ⟨r, hr, by rw [Route.build, h1, h.qsStringify_empty, h2]⟩

/-! ## Lemmas: the mappings `parse` builds -/

/-- Reading a mapping after the missing properties of `source` have been copied to it: its own
value when it has one, otherwise the value of `source`. -/
theorem getProp_fillMissing : ∀ (source ret : Params) (key : Str),
    getProp (fillMissing source ret) key =
      match getProp ret key with
      | some v => some v
      | none => if key = PROTO then none else getProp source key
  | [], ret, key => by
    rw [fillMissing, getProp_nil]
    cases getProp ret key <;> simp
  | (k, v) :: source, ret, key => by
    rw [fillMissing, getProp_fillMissing source _ key, getProp_cons]
    by_cases hown : hasOwn ret k = true
    · rw [if_pos hown]
      by_cases hk : key = k
      · rw [hasOwn_eq_isSome, ← hk] at hown
        cases hr : getProp ret key with
        | none => simp [hr] at hown
        | some w => rfl
      · simp [hk]
    · rw [if_neg hown, getProp_setProp]
      by_cases hp : k = PROTO
      · rw [if_pos hp]
        by_cases hk : key = k
        · have hkp : key = PROTO := hk.trans hp
          cases getProp ret key <;> simp [hkp]
        · simp [hk]
      · rw [if_neg hp]
        by_cases hk : key = k
        · have hnone : getProp ret key = none := by
            rw [hasOwn_eq_isSome, ← hk] at hown
            cases hr : getProp ret key with
            | none => rfl
            | some w => simp [hr] at hown
          have hkp : ¬ key = PROTO := fun e => hp (hk.symm.trans e)
          rw [hnone, if_pos hk]
          simp [hk, hkp, hp]
        · simp [hk]

/-- Reading the result of `parse` built from `ret` and the decoded query parameters. -/
theorem getProp_mergeQuery (ret queryParams : Params) (key : Str) :
    getProp (mergeQuery ret queryParams) key =
      if key = QUERY_STRING then none
      else
        match getProp ret key with
        | some v => some v
        | none => if key = PROTO then none else getProp queryParams key := by
  rw [mergeQuery, getProp_deleteProp, getProp_fillMissing]

/-- What a successful `parse` returns. -/
theorem Route.parse_eq_some {h : Host} {r : Route} {path method : Str} {result : Params}
    (hp : r.parse h path method = some result) :
    r.method = h.toUpperCase method ∧
      ∃ ret, r.matchPath path = some ret ∧
        result = mergeQuery ret (h.qsParse (getProp ret QUERY_STRING)) := by
  unfold Route.parse at hp
  split at hp
  · rename_i hm
    split at hp
    · rename_i ret hret
      exact ⟨hm, ret, hret, (Option.some.inj hp).symm⟩
    · exact absurd hp (by simp)
  · exact absurd hp (by simp)

/-! ## C4 -/

/-- C4, counterexample: parsing `/a1?y=2` against the pattern `/a<x>`, the key `query_string`
gets the value `y=2` captured from the path, and the result of `parse` does not keep it. -/
theorem parse_drops_captured_query_string :
    ∃ r, Route.new Host.reference "GET".data "r".data "/a<x>".data [] [] = Except.ok r ∧
      r.matchPath "/a1?y=2".data
        = some [("x".data, "1".data), (QUERY_STRING, "y=2".data)] ∧
      (r.parse Host.reference "/a1?y=2".data "GET".data).map (fun ret => getProp ret QUERY_STRING)
        = some none :=
  Route.exists_new Host.reference "GET".data "GET".data "r".data "/a<x>".data [] []
    (fun r =>
      r.matchPath "/a1?y=2".data
        = some [("x".data, "1".data), (QUERY_STRING, "y=2".data)] ∧
      (r.parse Host.reference "/a1?y=2".data "GET".data).map (fun ret => getProp ret QUERY_STRING)
        = some none)
    (by decide) (by decide) (fun _ _ hp => hp) (by decide!)

/-- C4, amended: when `parse` succeeds, with `ret` the mapping filled from the captures of the
path and then from the declared defaults, every key of `ret` other than `query_string` keeps
its value in the result even when the query string carries the same key, every decoded query
key other than `__proto__` that `ret` does not have is in the result with its decoded value,
and `query_string` itself is not in the result; parsing `/a1?y=2` against the pattern `/a<x>`
yields exactly `{x:"1", y:"2"}` when the codec decodes `y=2` to `{y:"2"}`. -/
theorem parse_query_merge :
    (∀ (h : Host) (r : Route) (path method : Str) (result : Params),
      r.parse h path method = some result →
      ∃ ret, r.matchPath path = some ret ∧
        (∀ key v, key ≠ QUERY_STRING → getProp ret key = some v →
          getProp result key = some v) ∧
        (∀ key v, key ≠ PROTO → getProp ret key = none →
          getProp (h.qsParse (getProp ret QUERY_STRING)) key = some v →
          getProp result key = some v) ∧
        getProp result QUERY_STRING = none) ∧
    (∀ (h : Host) (name : Str),
      h.qsParse (some "y=2".data) = [("y".data, "2".data)] →
      ∃ r, Route.new h "GET".data name "/a<x>".data [] [] = Except.ok r ∧
        r.parse h "/a1?y=2".data "GET".data = some [("x".data, "1".data), ("y".data, "2".data)])
    := by
  constructor
  · intro h r path method result hp
    obtain ⟨_, ret, hret, hres⟩ := Route.parse_eq_some hp
    refine ⟨ret, hret, ?_, ?_, ?_⟩
    · intro key v hkey hv
      rw [hres, getProp_mergeQuery, if_neg hkey, hv]
    · intro key v hproto hnone hv
      have hkey : key ≠ QUERY_STRING := by
        intro e
        rw [e] at hnone
        rw [hnone, h.qsParse_undefined] at hv
        simp [getProp_nil] at hv
      rw [hres, getProp_mergeQuery, if_neg hkey, hnone]
      simp only [if_neg hproto]
      exact hv
    · rw [hres, getProp_mergeQuery, if_pos rfl]
  · intro h name hq
    obtain ⟨r, hr, h1, h2, h3⟩ := Route.exists_new h "GET".data "GET".data name
      "/a<x>".data [] []
      (fun r =>
        r.method = "GET".data ∧
        r.matchPath "/a1?y=2".data
          = some [("x".data, "1".data), (QUERY_STRING, "y=2".data)] ∧
        mergeQuery [("x".data, "1".data), (QUERY_STRING, "y=2".data)] [("y".data, "2".data)]
          = [("x".data, "1".data), ("y".data, "2".data)])
      (by decide) (by decide) (fun _ _ hp => hp) (by decide!)
    refine ⟨r, hr, ?_⟩
    have hup : h.toUpperCase "GET".data = "GET".data := by
      rw [h.toUpperCase_ascii _ (by decide)]
      decide
    have hqs : getProp [("x".data, "1".data), (QUERY_STRING, "y=2".data)] QUERY_STRING
        = some "y=2".data := by decide
    rw [Route.parse, h1, hup, if_pos rfl, h2]
    simp only
    rw [hqs, hq, h3]

theorem parse_query_merge_witness :
    ∃ r, Route.new Host.reference "GET".data "users".data "/a<x>".data [] [] = Except.ok r ∧
      r.parse Host.reference "/a1?y=2".data "GET".data
        = some [("x".data, "1".data), ("y".data, "2".data)] ∧
      getProp [("x".data, "1".data), ("y".data, "2".data)] QUERY_STRING = none := by
  obtain ⟨r, hr, hp⟩ := parse_query_merge.2 Host.reference "users".data (by decide!)
  obtain ⟨_, _, _, _, hq⟩ := parse_query_merge.1 Host.reference r _ _ _ hp
  exact ⟨r, hr, hp, hq⟩

/-! ## C5 -/

/-- A key under which no defined capture is stored keeps what it had before the loop over the
captures. -/
theorem getProp_assignCaptures_of_absent (pm : List Str) (key : Str) :
    ∀ (caps : List (Option Str)) (i : Nat) (ret : Params),
      (∀ j v, caps.get? j = some (some v) → paramKey pm (i + j) ≠ key) →
      getProp (assignCaptures pm caps i ret) key = getProp ret key
  | [], _, _, _ => rfl
  | none :: caps, i, ret, hno => by
    rw [assignCaptures]
    apply getProp_assignCaptures_of_absent pm key caps (i + 1) ret
    intro j v hj
    have := hno (j + 1) v (by simpa using hj)
    rwa [Nat.add_assoc, Nat.add_comm 1 j]
  | some w :: caps, i, ret, hno => by
    rw [assignCaptures, getProp_assignCaptures_of_absent pm key caps (i + 1) _
      (by
        intro j v hj
        have := hno (j + 1) v (by simpa using hj)
        rwa [Nat.add_assoc, Nat.add_comm 1 j])]
    have h0 := hno 0 w (by simp)
    rw [Nat.add_zero] at h0
    rw [getProp_setProp]
    split
    · rfl
    · rw [if_neg (fun e => h0 e.symm)]

/-- A key other than `__proto__` holds the last defined capture stored under it. -/
theorem getProp_assignCaptures_of_last (pm : List Str) (key v : Str) (hproto : key ≠ PROTO) :
    ∀ (caps : List (Option Str)) (i j : Nat) (ret : Params),
      caps.get? j = some (some v) → paramKey pm (i + j) = key →
      (∀ j2 v2, j < j2 → caps.get? j2 = some (some v2) → paramKey pm (i + j2) ≠ key) →
      getProp (assignCaptures pm caps i ret) key = some v
  | [], _, j, _, hj, _, _ => by simp at hj
  | c :: caps, i, 0, ret, hj, hkey, hlast => by
    simp only [List.get?_cons_zero, Option.some.injEq] at hj
    subst hj
    rw [assignCaptures, getProp_assignCaptures_of_absent pm key caps (i + 1) _
      (by
        intro j2 v2 hj2
        have := hlast (j2 + 1) v2 (Nat.succ_pos j2) (by simpa using hj2)
        rwa [Nat.add_assoc, Nat.add_comm 1 j2])]
    rw [Nat.add_zero] at hkey
    rw [getProp_setProp_of_ne _ _ _ _ (by rw [hkey]; exact hproto), if_pos hkey.symm]
  | c :: caps, i, j + 1, ret, hj, hkey, hlast => by
    have hj2 : caps.get? j = some (some v) := by simpa using hj
    have hkey2 : paramKey pm (i + 1 + j) = key := by
      rwa [Nat.add_assoc, Nat.add_comm 1 j]
    have hlast2 : ∀ j2 v2, j < j2 → caps.get? j2 = some (some v2) →
        paramKey pm (i + 1 + j2) ≠ key := by
      intro j2 v2 hlt hc
      have := hlast (j2 + 1) v2 (Nat.succ_lt_succ hlt) (by simpa using hc)
      rwa [Nat.add_assoc, Nat.add_comm 1 j2]
    cases c with
    | none =>
      rw [assignCaptures]
      exact getProp_assignCaptures_of_last pm key v hproto caps (i + 1) j ret hj2 hkey2 hlast2
    | some w =>
      rw [assignCaptures]
      exact getProp_assignCaptures_of_last pm key v hproto caps (i + 1) j _ hj2 hkey2 hlast2

theorem Route.matchPath_eq_some {r : Route} {path : Str} {ret : Params}
    (hm : r.matchPath path = some ret) :
    ∃ found, r.parseRegExp.exec path = some found ∧
      ret = fillMissing r.defaults (assignCaptures r.paramsMap found.tail 0 []) := by
  unfold Route.matchPath at hm
  split at hm
  · rename_i found hfound
    exact ⟨found, hfound, (Option.some.inj hm).symm⟩
  · exact absurd hm (by simp)

/-- Reading the mapping `parse` has after the loops over the captures and the defaults. -/
theorem getProp_matchPath {r : Route} {ret : Params} {found : List (Option Str)}
    (hret : ret = fillMissing r.defaults (assignCaptures r.paramsMap found.tail 0 []))
    (key : Str) :
    getProp ret key =
      match getProp (assignCaptures r.paramsMap found.tail 0 []) key with
      | some v => some v
      | none => if key = PROTO then none else getProp r.defaults key := by
  rw [hret, getProp_fillMissing]

/-- C5: when `parse` succeeds, with `found` the array returned by the match (capture `j` is
`found[j + 1]` and is stored under the name `paramKey r.paramsMap j`), every name other than
`query_string` and `__proto__` with a declared default is a key of the result; it holds the
value of the last capture stored under it that took part in the match, and the declared
default when no such capture took part. A name without default, without a capture that took
part and without a same-named decoded query key is absent from the result. The name
`__proto__` is where the code departs from the claim: for the pattern `/a` with the declared
default `__proto__="d"`, `parse` of `/a` succeeds and returns the empty mapping. -/
theorem parse_defaults_and_captures :
    (∀ (h : Host) (r : Route) (path method : Str) (result : Params),
      r.parse h path method = some result →
      ∃ found ret, r.parseRegExp.exec path = some found ∧ r.matchPath path = some ret ∧
        (∀ key, hasOwn r.defaults key = true → key ≠ QUERY_STRING → key ≠ PROTO →
          hasOwn result key = true ∧
          (∀ j v, found.tail.get? j = some (some v) → paramKey r.paramsMap j = key →
            (∀ j2 v2, j < j2 → found.tail.get? j2 = some (some v2) →
              paramKey r.paramsMap j2 ≠ key) →
            getProp result key = some v) ∧
          ((∀ j v, found.tail.get? j = some (some v) → paramKey r.paramsMap j ≠ key) →
            getProp result key = getProp r.defaults key)) ∧
        (∀ key, hasOwn r.defaults key = false →
          (∀ j v, found.tail.get? j = some (some v) → paramKey r.paramsMap j ≠ key) →
          getProp (h.qsParse (getProp ret QUERY_STRING)) key = none →
          getProp result key = none)) ∧
    (∀ (h : Host) (name : Str),
      ∃ r, Route.new h "GET".data name "/a".data [] [(PROTO, "d".data)] = Except.ok r ∧
        hasOwn r.defaults PROTO = true ∧
        r.parse h "/a".data "GET".data = some []) := by
  constructor
  · intro h r path method result hp
    obtain ⟨_, ret, hret, hres⟩ := Route.parse_eq_some hp
    obtain ⟨found, hfound, hret2⟩ := Route.matchPath_eq_some hret
    have hread := fun key => getProp_matchPath hret2 key
    have hlast : ∀ key, key ≠ PROTO → ∀ j v, found.tail.get? j = some (some v) →
        paramKey r.paramsMap j = key →
        (∀ j2 v2, j < j2 → found.tail.get? j2 = some (some v2) →
          paramKey r.paramsMap j2 ≠ key) →
        getProp ret key = some v := by
      intro key hproto j v hj hkey hl
      rw [hread, getProp_assignCaptures_of_last r.paramsMap key v hproto found.tail 0 j [] hj
        (by rwa [Nat.zero_add])
        (by
          intro j2 v2 hlt hc
          rw [Nat.zero_add]
          exact hl j2 v2 hlt hc)]
    have habsent : ∀ key,
        (∀ j v, found.tail.get? j = some (some v) → paramKey r.paramsMap j ≠ key) →
        getProp ret key = if key = PROTO then none else getProp r.defaults key := by
      intro key hno
      rw [hread, getProp_assignCaptures_of_absent r.paramsMap key found.tail 0 []
        (by
          intro j v hc
          rw [Nat.zero_add]
          exact hno j v hc), getProp_nil]
    refine ⟨found, ret, hfound, hret, ?_, ?_⟩
    · intro key hdef hkey hproto
      have hresult : ∀ v, getProp ret key = some v → getProp result key = some v := by
        intro v hv
        rw [hres, getProp_mergeQuery, if_neg hkey, hv]
      obtain ⟨d, hd⟩ := getProp_of_hasOwn hdef
      refine ⟨?_, ?_, ?_⟩
      · have hsome : ∃ v, getProp ret key = some v := by
          rw [hread]
          cases getProp (assignCaptures r.paramsMap found.tail 0 []) key with
          | some v => exact ⟨v, rfl⟩
          | none => exact ⟨d, by simp only [if_neg hproto]; exact hd⟩
        obtain ⟨v, hv⟩ := hsome
        rw [hasOwn_eq_isSome, hresult v hv]
        rfl
      · intro j v hj hk hl
        exact hresult v (hlast key hproto j v hj hk hl)
      · intro hno
        rw [hd]
        exact hresult d (by rw [habsent key hno, if_neg hproto, hd])
    · intro key hdef hno hq
      have hnone : getProp r.defaults key = none := by
        rw [hasOwn_eq_isSome] at hdef
        cases hg : getProp r.defaults key with
        | none => rfl
        | some v => simp [hg] at hdef
      rw [hres, getProp_mergeQuery]
      split
      · rfl
      · rw [habsent key hno, hnone, ite_self]
        simp only [hq, ite_self]
  · intro h name
    obtain ⟨r, hr, h1, h2, h3⟩ := Route.exists_new h "GET".data "GET".data name
      "/a".data [] [(PROTO, "d".data)]
      (fun r =>
        r.method = "GET".data ∧
        hasOwn r.defaults PROTO = true ∧
        r.matchPath "/a".data = some [])
      (by decide) (by decide) (fun _ _ hp => hp) (by decide!)
    refine ⟨r, hr, h2, ?_⟩
    have hup : h.toUpperCase "GET".data = "GET".data := by
      rw [h.toUpperCase_ascii _ (by decide)]
      decide
    rw [Route.parse, h1, hup, if_pos rfl, h3]
    simp only
    rw [getProp_nil, h.qsParse_undefined]
    rfl

theorem parse_defaults_and_captures_witness :
    ∃ r, Route.new Host.reference "GET".data "users".data "/a(/<y>)".data []
        [("y".data, "d".data)] = Except.ok r ∧
      r.parse Host.reference "/a".data "GET".data = some [("y".data, "d".data)] ∧
      hasOwn [("y".data, "d".data)] "y".data = true := by
  obtain ⟨r, hr, hp, hd⟩ := Route.exists_new Host.reference "GET".data "GET".data
    "users".data "/a(/<y>)".data [] [("y".data, "d".data)]
    (fun r => r.parse Host.reference "/a".data "GET".data = some [("y".data, "d".data)] ∧
      hasOwn r.defaults "y".data = true)
    (by decide) (by decide) (fun _ _ hp => hp) (by decide!)
  obtain ⟨_, _, _, _, hkeys, _⟩ :=
    parse_defaults_and_captures.1 Host.reference r _ _ _ hp
  exact ⟨r, hr, hp, (hkeys "y".data hd (by decide) (by decide)).1⟩

/-! ## C6 -/

/-- C6: a mapping returned by `parse` has no key `query_string`. -/
theorem parse_has_no_query_string (h : Host) (r : Route) (path method : Str)
    (result : Params) (hp : r.parse h path method = some result) :
    hasOwn result QUERY_STRING = false := by
  obtain ⟨_, ret, _, hres⟩ := Route.parse_eq_some hp
  rw [hasOwn_eq_isSome, hres, getProp_mergeQuery, if_pos rfl]
  rfl

theorem parse_has_no_query_string_witness :
    ∃ r, Route.new Host.reference "GET".data "users".data "/a<x>".data []
        [(QUERY_STRING, "x=7&query_string=8".data)] = Except.ok r ∧
      r.parse Host.reference "/a1?query_string=5".data "GET".data
        = some [("x".data, "1".data)] ∧
      hasOwn [("x".data, "1".data)] QUERY_STRING = false := by
  obtain ⟨r, hr, hp⟩ := Route.exists_new Host.reference "GET".data "GET".data
    "users".data "/a<x>".data [] [(QUERY_STRING, "x=7&query_string=8".data)]
    (fun r => r.parse Host.reference "/a1?query_string=5".data "GET".data
      = some [("x".data, "1".data)])
    (by decide) (by decide) (fun _ _ hp => hp) (by decide!)
  exact ⟨r, hr, hp, parse_has_no_query_string Host.reference r _ _ _ hp⟩

/-! ## C7 -/

/-- C7: `parse(path, m)` is `null` whenever the upper-cased `m` differs from the route's
method, and equals `parse(path, uppercase(m))`; a route registered for `POST` returns `null`
for a `GET` request to a path it matches for `POST`. -/
theorem parse_method_discrimination :
    (∀ (h : Host) (r : Route) (path m : Str),
      h.toUpperCase m ≠ r.method → r.parse h path m = none) ∧
    (∀ (h : Host) (r : Route) (path m : Str),
      r.parse h path m = r.parse h path (h.toUpperCase m)) ∧
    (∀ (h : Host) (name : Str),
      ∃ r, Route.new h "POST".data name "/a<x>".data [] [] = Except.ok r ∧
        r.parse h "/a1".data "GET".data = none ∧
        (r.parse h "/a1".data "POST".data).isSome = true) := by
  refine ⟨?_, ?_, ?_⟩
  · intro h r path m hne
    rw [Route.parse, if_neg (fun e => hne e.symm)]
  · intro h r path m
    rw [Route.parse, Route.parse, h.toUpperCase_idem]
  · intro h name
    obtain ⟨r, hr, h1, h2⟩ := Route.exists_new h "POST".data "POST".data name
      "/a<x>".data [] []
      (fun r => r.method = "POST".data ∧ (r.matchPath "/a1".data).isSome = true)
      (by decide) (by decide) (fun _ _ hp => hp) (by decide!)
    have hget : h.toUpperCase "GET".data = "GET".data := by
      rw [h.toUpperCase_ascii _ (by decide)]
      decide
    have hpost : h.toUpperCase "POST".data = "POST".data := by
      rw [h.toUpperCase_ascii _ (by decide)]
      decide
    refine ⟨r, hr, ?_, ?_⟩
    · rw [Route.parse, h1, hget, if_neg (by decide)]
    · rw [Route.parse, h1, hpost, if_pos rfl]
      cases hm : r.matchPath "/a1".data with
      | none => simp [hm] at h2
      | some ret => rfl

theorem parse_method_discrimination_witness :
    ∃ r, Route.new Host.reference "POST".data "users".data "/a<x>".data [] [] = Except.ok r ∧
      r.parse Host.reference "/a1".data "get".data = none := by
  obtain ⟨r, hr, _, _⟩ := parse_method_discrimination.2.2 Host.reference "users".data
  have hm : r.method = "POST".data := by
    have := (Route.new_ok hr).2.1
    rw [this]
    decide
  exact ⟨r, hr, parse_method_discrimination.1 Host.reference r _ _ (by rw [hm]; decide)⟩

/-! ## C11 -/

theorem findLoop_eq_none (h : Host) (path method : Str) :
    ∀ routes : List Route, findLoop h path method routes = none ↔
      ∀ q ∈ routes, q.parse h path method = none
  | [] => by simp [findLoop]
  | route :: routes => by
    rw [findLoop]
    cases hp : route.parse h path method with
    | some parsed =>
      simp only [List.mem_cons, forall_eq_or_imp, hp]
      simp
    | none =>
      simp only [List.mem_cons, forall_eq_or_imp, hp, true_and]
      exact findLoop_eq_none h path method routes

theorem findLoop_eq_some (h : Host) (path method : Str) (r : Route) (parsed : Params) :
    ∀ routes : List Route, findLoop h path method routes = some (r, parsed) ↔
      ∃ before after, routes = before ++ r :: after ∧
        (∀ q ∈ before, q.parse h path method = none) ∧
        r.parse h path method = some parsed
  | [] => by simp [findLoop]
  | route :: routes => by
    rw [findLoop]
    cases hp : route.parse h path method with
    | some found =>
      constructor
      · intro hf
        simp only [Option.some.injEq, Prod.mk.injEq] at hf
        obtain ⟨h1, h2⟩ := hf
        subst h1 h2
        exact ⟨[], routes, rfl, by simp, hp⟩
      · rintro ⟨before, after, hsplit, hnone, hsome⟩
        cases before with
        | nil =>
          simp only [List.nil_append, List.cons.injEq] at hsplit
          rw [← hsplit.1] at hsome
          rw [hp] at hsome
          rw [hsplit.1, Option.some.inj hsome]
        | cons q before =>
          simp only [List.cons_append, List.cons.injEq] at hsplit
          have := hnone q (List.mem_cons_self q before)
          rw [← hsplit.1, hp] at this
          exact absurd this (by simp)
    | none =>
      simp only
      rw [findLoop_eq_some h path method r parsed routes]
      constructor
      · rintro ⟨before, after, hsplit, hnone, hsome⟩
        refine ⟨route :: before, after, by rw [hsplit]; rfl, ?_, hsome⟩
        intro q hq
        rcases List.mem_cons.mp hq with hq | hq
        · rw [hq]; exact hp
        · exact hnone q hq
      · rintro ⟨before, after, hsplit, hnone, hsome⟩
        cases before with
        | nil =>
          simp only [List.nil_append, List.cons.injEq] at hsplit
          rw [← hsplit.1, hp] at hsome
          exact absurd hsome (by simp)
        | cons q before =>
          simp only [List.cons_append, List.cons.injEq] at hsplit
          exact ⟨before, after, hsplit.2, fun q2 hq2 => hnone q2 (List.mem_cons_of_mem q hq2),
            hsome⟩

/-- C11: `addRoute` appends the new route to the routes of the registry, so these stand in
registration order; `find` returns the pair of a route and its `parse` result exactly when
that route is the first one, in this order, whose `parse` succeeds, and returns `null` exactly
when no registered route's `parse` succeeds, in particular for a registry without routes. -/
theorem find_first_match :
    (∀ (h : Host) (router router2 : Router) (method name pattern : Str)
        (conditions : Conditions) (defaults : Params) (route : Route),
      router.addRoute h method name pattern conditions defaults = Except.ok (router2, route) →
      router2.routes = router.routes ++ [route] ∧
        Route.new h method name pattern conditions defaults = Except.ok route) ∧
    (∀ (h : Host) (router : Router) (path method : Str) (r : Route) (parsed : Params),
      router.find h path method = some (r, parsed) ↔
        ∃ before after, router.routes = before ++ r :: after ∧
          (∀ q ∈ before, q.parse h path method = none) ∧
          r.parse h path method = some parsed) ∧
    (∀ (h : Host) (router : Router) (path method : Str),
      router.find h path method = none ↔
        ∀ q ∈ router.routes, q.parse h path method = none) ∧
    (∀ (h : Host) (path method : Str), Router.empty.find h path method = none) := by
  refine ⟨?_, ?_, ?_, ?_⟩
  · intro h router router2 method name pattern conditions defaults route hadd
    unfold Router.addRoute at hadd
    split at hadd
    · exact absurd hadd (by simp)
    · rename_i r hr
      simp only [Except.ok.injEq, Prod.mk.injEq] at hadd
      obtain ⟨h1, h2⟩ := hadd
      subst h2
      rw [← h1]
      exact ⟨rfl, hr⟩
  · intro h router path method r parsed
    exact findLoop_eq_some h path method r parsed router.routes
  · intro h router path method
    exact findLoop_eq_none h path method router.routes
  · intro h path method
    rfl

theorem find_first_match_witness :
    ∃ router first second,
      (Router.empty.addRoute Host.reference "GET".data "one".data "/a<x>".data [] []).bind
        (fun added => added.1.addRoute Host.reference "GET".data "two".data "/<y>".data [] [])
        = Except.ok (router, second) ∧
      router.routes = [first, second] ∧
      router.find Host.reference "/a1".data "GET".data = some (first, [("x".data, "1".data)]) ∧
      router.find Host.reference "/b".data "GET".data = some (second, [("y".data, "b".data)]) := by
  obtain ⟨first, h1, hp1, hp1b⟩ := Route.exists_new Host.reference "GET".data "GET".data
    "one".data "/a<x>".data [] []
    (fun r => r.parse Host.reference "/a1".data "GET".data = some [("x".data, "1".data)] ∧
      r.parse Host.reference "/b".data "GET".data = none)
    (by decide) (by decide) (fun _ _ hp => hp) (by decide!)
  obtain ⟨second, h2, hp2⟩ := Route.exists_new Host.reference "GET".data "GET".data
    "two".data "/<y>".data [] []
    (fun r => r.parse Host.reference "/b".data "GET".data = some [("y".data, "b".data)])
    (by decide) (by decide) (fun _ _ hp => hp) (by decide!)
  have hadd1 : Router.empty.addRoute Host.reference "GET".data "one".data "/a<x>".data [] []
      = Except.ok ({ routes := [first], routesByName := [("one".data, first)] }, first) := by
    rw [Router.addRoute, h1]
    rfl
  have hadd2 : Router.addRoute Host.reference
      { routes := [first], routesByName := [("one".data, first)] }
      "GET".data "two".data "/<y>".data [] []
      = Except.ok ({ routes := [first, second],
                     routesByName := setRoute [("one".data, first)] "two".data second },
                   second) := by
    rw [Router.addRoute, h2]
    rfl
  refine ⟨_, first, second, by rw [hadd1]; exact hadd2, rfl, ?_, ?_⟩
  · exact (find_first_match.2.1 Host.reference _ _ _ first _).mpr
      ⟨[], [second], rfl, by simp, hp1⟩
  · exact (find_first_match.2.1 Host.reference _ _ _ second _).mpr
      ⟨[first], [], rfl, by simpa using hp1b, hp2⟩

/-! ## C12 -/

/-- C12, counterexample: the constructor accepts the empty string as name and as pattern. -/
theorem construct_accepts_empty_name_and_pattern :
    ∃ r, Route.construct Host.reference "GET".data (JsValue.string []) (JsValue.string [])
      [] [] = Except.ok r := by
  obtain ⟨r, hr, _⟩ := Route.exists_new Host.reference "GET".data "GET".data [] [] [] []
    (fun _ => True) (by decide) (by decide) (fun _ _ hp => hp) (by decide!)
  refine ⟨r, ?_⟩
  have hm : Host.reference.toUpperCase "GET".data ∈ HTTP_METHODS := by decide
  rw [Route.construct, if_neg (not_not.mpr hm)]
  simp only
  rw [hr]

/-- C12, amended: the constructor rejects the arguments whenever the upper-cased method is not
one of GET, POST, DELETE, PUT, and, the method being valid, whenever the name or the pattern
is not a string; any string, the empty one included, passes as name and as pattern. With a
valid method in any letter case and a name and a pattern that are strings the method is
accepted, and a route that is constructed stores it upper-cased. -/
theorem construct_validation :
    (∀ (h : Host) (method : Str) (name pattern : JsValue) (conditions : Conditions)
        (defaults : Params),
      h.toUpperCase method ∉ HTTP_METHODS →
      Route.construct h method name pattern conditions defaults
        = Except.error (ConstructError.invalidMethod (h.toUpperCase method))) ∧
    (∀ (h : Host) (method : Str) (pattern : JsValue) (conditions : Conditions)
        (defaults : Params),
      h.toUpperCase method ∈ HTTP_METHODS →
      Route.construct h method JsValue.notString pattern conditions defaults
        = Except.error ConstructError.nameNotString) ∧
    (∀ (h : Host) (method name : Str) (conditions : Conditions) (defaults : Params),
      h.toUpperCase method ∈ HTTP_METHODS →
      Route.construct h method (JsValue.string name) JsValue.notString conditions defaults
        = Except.error ConstructError.patternNotString) ∧
    (∀ (h : Host) (method name pattern : Str) (conditions : Conditions) (defaults : Params),
      (∀ c ∈ method, c.toNat < 128) → method.map Char.toUpper ∈ HTTP_METHODS →
      (∀ e, Route.construct h method (JsValue.string name) (JsValue.string pattern)
          conditions defaults = Except.error e → ∃ e2, e = ConstructError.compile e2) ∧
      (∀ r, Route.construct h method (JsValue.string name) (JsValue.string pattern)
          conditions defaults = Except.ok r → r.method = method.map Char.toUpper)) ∧
    (∀ h : Host, ∃ r, Route.construct h "get".data (JsValue.string []) (JsValue.string [])
        [] [] = Except.ok r ∧ r.method = "GET".data) := by
  refine ⟨?_, ?_, ?_, ?_, ?_⟩
  · intro h method name pattern conditions defaults hm
    unfold Route.construct
    rw [if_pos hm]
  · intro h method pattern conditions defaults hm
    rw [Route.construct, if_neg (not_not.mpr hm)]
  · intro h method name conditions defaults hm
    rw [Route.construct, if_neg (not_not.mpr hm)]
  · intro h method name pattern conditions defaults hascii hvalid
    have hup := h.toUpperCase_ascii method hascii
    have hm : h.toUpperCase method ∈ HTTP_METHODS := by rw [hup]; exact hvalid
    constructor
    · intro e he
      rw [Route.construct, if_neg (not_not.mpr hm)] at he
      split at he
      · exact absurd he (by simp)
      · rename_i e2 _
        exact ⟨e2, (Except.error.inj he).symm⟩
    · intro r hr
      rw [Route.construct, if_neg (not_not.mpr hm)] at hr
      split at hr
      · rename_i r2 hr2
        rw [← Except.ok.inj hr, (Route.new_ok hr2).2.1, hup]
      · exact absurd hr (by simp)
  · intro h
    obtain ⟨r, hr, hmeth⟩ := Route.exists_new h "get".data "GET".data [] [] [] []
      (fun r => r.method = "GET".data) (by decide) (by decide) (fun _ _ hp => hp)
      (by decide!)
    refine ⟨r, ?_, hmeth⟩
    have hm : h.toUpperCase "get".data ∈ HTTP_METHODS := by
      rw [h.toUpperCase_ascii _ (by decide)]
      decide
    rw [Route.construct, if_neg (not_not.mpr hm)]
    simp only
    rw [hr]

theorem construct_validation_witness :
    Route.construct Host.reference "patch".data (JsValue.string "users".data)
        (JsValue.string "/a".data) [] []
      = Except.error (ConstructError.invalidMethod "PATCH".data) ∧
    Route.construct Host.reference "put".data JsValue.notString (JsValue.string "/a".data) [] []
      = Except.error ConstructError.nameNotString ∧
    (∀ r, Route.construct Host.reference "pUt".data (JsValue.string "users".data)
        (JsValue.string "/a".data) [] [] = Except.ok r → r.method = "PUT".data) :=
  ⟨construct_validation.1 Host.reference "patch".data _ _ [] [] (by decide),
    construct_validation.2.1 Host.reference "put".data _ [] [] (by decide),
    (construct_validation.2.2.2.1 Host.reference "pUt".data "users".data "/a".data [] []
      (by decide) (by decide)).2⟩

/-! ## C14 -/

/-- C14, the failing input: for the pattern made of the single character `"` the builder
source holds the text `"""`, which is not one string literal, and the construction does not
return a route. -/
theorem construct_fails_on_double_quote :
    escape "\"".data = "\"".data ∧ jsStringValue (escape "\"".data) = none ∧
    Route.new Host.reference "GET".data "r".data "\"".data [] []
      = Except.error RouteError.builderSource := by
  decide!

/-! ## Lemmas: the loop of `parseBrackets` -/

theorem bracketsLoop_eq_foldl (sub : Str → List Part) :
    ∀ (cs : Str) (parts : List Part) (part : Str) (countOpened : Nat) (finding : Bool),
      bracketsLoop sub cs parts part countOpened finding =
        parseParams (cs.foldl (bracketStep sub) ⟨parts, part, countOpened, finding⟩).part
          (cs.foldl (bracketStep sub) ⟨parts, part, countOpened, finding⟩).parts
  | [], _, _, _, _ => rfl
  | c :: cs, parts, part, countOpened, finding => by
    rw [bracketsLoop, List.foldl_cons]
    by_cases h1 : c = '('
    · cases finding
      · simp only [h1, if_true, bracketStep]
        exact bracketsLoop_eq_foldl sub cs _ _ _ _
      · simp only [h1, if_true, bracketStep]
        exact bracketsLoop_eq_foldl sub cs _ _ _ _
    · by_cases h2 : c = ')'
      · cases finding
        · simp only [h1, h2, if_false, if_true, bracketStep]
          exact bracketsLoop_eq_foldl sub cs _ _ _ _
        · by_cases h3 : countOpened = 0
          · simp only [h1, h2, h3, if_false, if_true, bracketStep]
            exact bracketsLoop_eq_foldl sub cs _ _ _ _
          · simp only [h1, h2, h3, if_false, if_true, bracketStep]
            exact bracketsLoop_eq_foldl sub cs _ _ _ _
      · simp only [h1, h2, if_false, bracketStep]
        exact bracketsLoop_eq_foldl sub cs _ _ _ _

/-- Two functions standing for the recursive call give the same loop when they agree on every
text shorter than the bound `n`: the loop only calls them on the content of a group. -/
theorem foldl_bracketStep_congr (sub1 sub2 : Str → List Part) (n : Nat)
    (hsub : ∀ t : Str, t.length < n → sub1 t = sub2 t) :
    ∀ (cs : Str) (parts : List Part) (part : Str) (countOpened : Nat) (finding : Bool),
      (finding = true → part.length + cs.length < n) → (finding = false → cs.length ≤ n) →
      cs.foldl (bracketStep sub1) ⟨parts, part, countOpened, finding⟩ =
        cs.foldl (bracketStep sub2) ⟨parts, part, countOpened, finding⟩
  | [], _, _, _, _, _, _ => rfl
  | c :: cs, parts, part, countOpened, finding, ht, hf => by
    rw [List.foldl_cons, List.foldl_cons]
    by_cases h1 : c = '('
    · cases finding
      · have := hf rfl
        simp only [List.length_cons] at this
        simp only [h1, if_true, bracketStep]
        exact foldl_bracketStep_congr sub1 sub2 n hsub cs _ _ _ _
          (fun _ => by simp only [List.length_nil]; omega) (fun e => by simp at e)
      · have := ht rfl
        simp only [List.length_cons] at this
        simp only [h1, if_true, bracketStep]
        exact foldl_bracketStep_congr sub1 sub2 n hsub cs _ _ _ _
          (fun _ => by simp only [List.length_append, List.length_singleton]; omega)
          (fun e => by simp at e)
    · by_cases h2 : c = ')'
      · cases finding
        · have := hf rfl
          simp only [List.length_cons] at this
          simp only [h1, h2, if_false, if_true, bracketStep]
          exact foldl_bracketStep_congr sub1 sub2 n hsub cs _ _ _ _
            (fun e => by simp at e) (fun _ => by omega)
        · have := ht rfl
          simp only [List.length_cons] at this
          by_cases h3 : countOpened = 0
          · simp only [h1, h2, h3, if_false, if_true, bracketStep]
            rw [hsub part (by omega)]
            exact foldl_bracketStep_congr sub1 sub2 n hsub cs _ _ _ _
              (fun e => by simp at e) (fun _ => by omega)
          · simp only [h1, h2, h3, if_false, if_true, bracketStep]
            exact foldl_bracketStep_congr sub1 sub2 n hsub cs _ _ _ _
              (fun _ => by simp only [List.length_append, List.length_singleton]; omega)
              (fun e => by simp at e)
      · simp only [h1, h2, if_false, bracketStep]
        cases finding
        · have := hf rfl
          simp only [List.length_cons] at this
          exact foldl_bracketStep_congr sub1 sub2 n hsub cs _ _ _ _
            (fun e => by simp at e) (fun _ => by omega)
        · have := ht rfl
          simp only [List.length_cons] at this
          exact foldl_bracketStep_congr sub1 sub2 n hsub cs _ _ _ _
            (fun _ => by simp only [List.length_append, List.length_singleton]; omega)
            (fun e => by simp at e)

/-- Any fuel above the length of the pattern gives the same tree. -/
theorem parseBracketsFuel_congr :
    ∀ (n : Nat) (s : Str) (f1 f2 : Nat), s.length ≤ n → s.length < f1 → s.length < f2 →
      parseBracketsFuel f1 s = parseBracketsFuel f2 s
  | n, s, 0, _, _, h1, _ => by omega
  | n, s, _ + 1, 0, _, _, h2 => by omega
  | n, s, f1 + 1, f2 + 1, hn, h1, h2 => by
    rw [parseBracketsFuel, parseBracketsFuel, bracketsLoop_eq_foldl, bracketsLoop_eq_foldl,
      foldl_bracketStep_congr (parseBracketsFuel f1) (parseBracketsFuel f2) s.length
        (fun t ht =>
          match n, hn with
          | 0, hn => by omega
          | m + 1, hn => parseBracketsFuel_congr m t f1 f2 (by omega) (by omega) (by omega))
        s [] [] 0 false (fun e => by simp at e) (fun _ => Nat.le_refl _)]

theorem parseBracketsFuel_eq (s : Str) (fuel : Nat) (h : s.length < fuel) :
    parseBracketsFuel fuel s = parseBrackets s :=
  parseBracketsFuel_congr s.length s fuel (s.length + 1) (Nat.le_refl _) h (Nat.lt_succ_self _)

/-- `parseBrackets` in terms of its loop, the recursive call being `parseBrackets` itself. -/
theorem parseBrackets_eq (s : Str) :
    parseBrackets s =
      parseParams (s.foldl (bracketStep parseBrackets) ⟨[], [], 0, false⟩).part
        (s.foldl (bracketStep parseBrackets) ⟨[], [], 0, false⟩).parts := by
  rw [parseBrackets, parseBracketsFuel, bracketsLoop_eq_foldl,
    foldl_bracketStep_congr (parseBracketsFuel s.length) parseBrackets s.length
      (fun t ht => parseBracketsFuel_eq t s.length ht)
      s [] [] 0 false (fun e => by simp at e) (fun _ => Nat.le_refl _)]

theorem depth_bracketStep (sub : Str → List Part) (st : BState) (c : Char) :
    (if (bracketStep sub st c).isFindingClosed then (bracketStep sub st c).countOpened + 1
      else 0) =
      if c = '(' then (if st.isFindingClosed then st.countOpened + 1 else 0) + 1
      else if c = ')' then (if st.isFindingClosed then st.countOpened + 1 else 0) - 1
      else if st.isFindingClosed then st.countOpened + 1 else 0 := by
  rcases st with ⟨parts, part, countOpened, finding⟩
  by_cases h1 : c = '('
  · cases finding <;> simp [h1, bracketStep]
  · by_cases h2 : c = ')'
    · have hne : ¬ (')' = '(') := by decide
      cases finding
      · simp [h2, hne, bracketStep]
      · by_cases h3 : countOpened = 0
        · simp [h2, hne, h3, bracketStep]
        · subst h2
          simp only [hne, h3, if_false, if_true, bracketStep]
          omega
    · cases finding <;> simp [h1, h2, bracketStep]

/-- The number of groups open in a state of the loop. -/
theorem unclosed_foldl (sub : Str → List Part) :
    ∀ (cs : Str) (st : BState),
      (if (cs.foldl (bracketStep sub) st).isFindingClosed then
          (cs.foldl (bracketStep sub) st).countOpened + 1 else 0) =
        unclosed cs (if st.isFindingClosed then st.countOpened + 1 else 0)
  | [], _ => rfl
  | c :: cs, st => by
    rw [List.foldl_cons, unclosed_foldl sub cs, depth_bracketStep, unclosed]
    by_cases h1 : c = '('
    · rw [if_pos h1, if_pos h1]
    · by_cases h2 : c = ')'
      · rw [if_neg h1, if_pos h2, if_neg h1, if_pos h2]
      · rw [if_neg h1, if_neg h2, if_neg h1, if_neg h2]

/-- Characters other than parentheses are added to the buffer. -/
theorem foldl_bracketStep_plain (sub : Str → List Part) :
    ∀ (text : Str) (parts : List Part) (part : Str) (countOpened : Nat) (finding : Bool),
      (∀ c ∈ text, c ≠ '(' ∧ c ≠ ')') →
      text.foldl (bracketStep sub) ⟨parts, part, countOpened, finding⟩ =
        ⟨parts, part ++ text, countOpened, finding⟩
  | [], _, _, _, _, _ => by simp
  | c :: cs, parts, part, countOpened, finding, hplain => by
    have hc := hplain c (List.mem_cons_self c cs)
    rw [List.foldl_cons]
    have hstep : bracketStep sub ⟨parts, part, countOpened, finding⟩ c =
        ⟨parts, part ++ [c], countOpened, finding⟩ := by
      simp [bracketStep, hc.1, hc.2]
    rw [hstep, foldl_bracketStep_plain sub cs _ _ _ _
      (fun d hd => hplain d (List.mem_cons_of_mem c hd))]
    simp

theorem parseParams_nil (parts : List Part) : parseParams [] parts = parts := by
  simp [parseParams, paramTokens, paramTokensFuel]

theorem parseParams_append (text : Str) (before parts : List Part) :
    parseParams text (before ++ parts) = before ++ parseParams text parts := by
  simp [parseParams, List.append_assoc]

theorem parseBrackets_query_string : parseBrackets "?<query_string>".data =
    [Part.lit "?".data, Part.param QUERY_STRING] := by decide!

/-- The tree of a pattern that leaves no group open, followed by `(?<query_string>)`. -/
theorem parseBrackets_append_query_group (pattern : Str) (hclosed : unclosed pattern 0 = 0) :
    parseBrackets (pattern ++ QUERY_STRING_GROUP) =
      parseBrackets pattern ++
        [Part.optional [QUERY_STRING] [Part.lit "?".data, Part.param QUERY_STRING]] := by
  have hq : QUERY_STRING_GROUP = '(' :: ("?<query_string>".data ++ [')']) := by decide
  have hplain : ∀ c ∈ "?<query_string>".data, c ≠ '(' ∧ c ≠ ')' := by decide
  have hdepth := unclosed_foldl parseBrackets pattern ⟨[], [], 0, false⟩
  rw [parseBrackets_eq (pattern ++ QUERY_STRING_GROUP), List.foldl_append, parseBrackets_eq pattern]
  generalize pattern.foldl (bracketStep parseBrackets) ⟨[], [], 0, false⟩ = st at hdepth ⊢
  rcases st with ⟨parts, part, countOpened, finding⟩
  simp only [hclosed, Bool.false_eq_true, if_false] at hdepth
  cases finding
  · rw [hq, List.foldl_cons, List.foldl_append]
    have hopen : bracketStep parseBrackets ⟨parts, part, countOpened, false⟩ '(' =
        ⟨parseParams part parts, [], 0, true⟩ := by simp [bracketStep]
    rw [hopen, foldl_bracketStep_plain parseBrackets _ _ _ _ _ hplain]
    simp only [List.nil_append, List.foldl_cons, List.foldl_nil]
    have hclose : bracketStep parseBrackets
        ⟨parseParams part parts, "?<query_string>".data, 0, true⟩ ')' =
        ⟨parseParams part parts ++
          [Part.optional (dependOnParams (parseBrackets "?<query_string>".data))
            (parseBrackets "?<query_string>".data)], [], 0, false⟩ := by
      simp [bracketStep]
    rw [hclose, parseParams_nil, parseBrackets_query_string]
    rfl
  · simp at hdepth

theorem lookup_setCondition_self : ∀ (conditions : Conditions) (key : Str) (value : Condition),
    (setCondition conditions key value).lookup key = some value
  | [], key, value => by simp [setCondition, List.lookup]
  | (k, v) :: o, key, value => by
    by_cases hk : k = key
    · rw [setCondition, if_pos hk, hk]
      simp [List.lookup]
    · have hb : (key == k) = false := by
        have : ¬ key = k := fun e => hk e.symm
        simpa using this
      rw [setCondition, if_neg hk]
      simp only [List.lookup, hb]
      exact lookup_setCondition_self o key value

/-- The tree of a route whose pattern leaves no `(` unclosed. -/
theorem Route.parts_of_closed {h : Host} {method name pattern : Str} {conditions : Conditions}
    {defaults : Params} {r : Route}
    (hr : Route.new h method name pattern conditions defaults = Except.ok r)
    (hclosed : unclosed pattern 0 = 0) :
    r.parts = parseBrackets pattern ++
        [Part.optional [QUERY_STRING] [Part.lit "?".data, Part.param QUERY_STRING]] := by
  rw [(Route.new_ok hr).2.2.2.1]
  exact parseBrackets_append_query_group pattern hclosed

/-! ## C15 -/

/-- C15: for every pattern that leaves no `(` unclosed, the tree of the constructed route is
the tree of the pattern alone followed by exactly one node,
`Optional(children = [Literal "?", Param "query_string"], dependOnParams = ["query_string"])`,
and the route's condition for `query_string` is `.*` whatever conditions were supplied. -/
theorem route_tree_has_query_group (h : Host) (method name pattern : Str)
    (conditions : Conditions) (defaults : Params) (r : Route)
    (hr : Route.new h method name pattern conditions defaults = Except.ok r)
    (hclosed : unclosed pattern 0 = 0) :
    r.parts = parseBrackets pattern ++
        [Part.optional [QUERY_STRING] [Part.lit "?".data, Part.param QUERY_STRING]] ∧
      r.conditions.lookup QUERY_STRING = some (Condition.source ".*".data) := by
  obtain ⟨_, _, _, hparts, _, hcond, _, _⟩ := Route.new_ok hr
  rw [hparts, hcond]
  exact ⟨parseBrackets_append_query_group pattern hclosed, lookup_setCondition_self _ _ _⟩

theorem route_tree_has_query_group_witness :
    ∃ r, Route.new Host.reference "GET".data "users".data "/a(/<y>)".data
        [(QUERY_STRING, Condition.values ["a".data])] [] = Except.ok r ∧
      r.parts = [Part.lit "/a".data,
          Part.optional ["y".data] [Part.lit "/".data, Part.param "y".data],
          Part.optional [QUERY_STRING] [Part.lit "?".data, Part.param QUERY_STRING]] ∧
      r.conditions.lookup QUERY_STRING = some (Condition.source ".*".data) := by
  obtain ⟨r, hr, _⟩ := Route.exists_new Host.reference "GET".data "GET".data "users".data
    "/a(/<y>)".data [(QUERY_STRING, Condition.values ["a".data])] []
    (fun _ => True) (by decide) (by decide) (fun _ _ hp => hp) (by decide!)
  have key := route_tree_has_query_group Host.reference _ _ _ _ _ r hr (by decide)
  have hp : parseBrackets "/a(/<y>)".data = [Part.lit "/a".data,
      Part.optional ["y".data] [Part.lit "/".data, Part.param "y".data]] := by decide!
  rw [hp] at key
  exact ⟨r, hr, key.1, key.2⟩

/-! ## C16 -/

theorem nodesList_append : ∀ (xs ys : List Part),
    Part.nodes.nodesList (xs ++ ys) = Part.nodes.nodesList xs ++ Part.nodes.nodesList ys
  | [], ys => rfl
  | x :: xs, ys => by
    rw [List.cons_append, Part.nodes.nodesList, Part.nodes.nodesList, nodesList_append xs ys,
      List.append_assoc]

theorem dependOnParams_eq_directParams : ∀ parts : List Part,
    dependOnParams parts = directParams parts
  | [] => rfl
  | Part.lit _ :: parts => by
    rw [dependOnParams]
    · rw [dependOnParams_eq_directParams parts]
      rfl
    · intro name hn
      cases hn
  | Part.param name :: parts => by
    rw [dependOnParams, dependOnParams_eq_directParams parts]
    rfl
  | Part.optional _ _ :: parts => by
    rw [dependOnParams]
    · rw [dependOnParams_eq_directParams parts]
      rfl
    · intro name hn
      cases hn

theorem tokenPart_not_optional (token : Str) (dependOn : List Str) (children : List Part) :
    tokenPart token ≠ Part.optional dependOn children := by
  unfold tokenPart
  split <;> simp

theorem nodesList_map_tokenPart : ∀ tokens : List Str,
    Part.nodes.nodesList (tokens.map tokenPart) = tokens.map tokenPart
  | [] => rfl
  | token :: tokens => by
    rw [List.map_cons, Part.nodes.nodesList, nodesList_map_tokenPart tokens]
    unfold tokenPart
    split <;> simp [Part.nodes]

theorem shallowDeps_parseParams (text : Str) (parts : List Part) (hp : shallowDeps parts) :
    shallowDeps (parseParams text parts) := by
  intro node hnode dependOn children hopt
  rw [parseParams, nodesList_append, List.mem_append, nodesList_map_tokenPart] at hnode
  rcases hnode with hnode | hnode
  · exact hp node hnode dependOn children hopt
  · obtain ⟨token, _, htoken⟩ := List.mem_map.mp hnode
    rw [hopt] at htoken
    exact absurd htoken (tokenPart_not_optional token dependOn children)

theorem shallowDeps_foldl (sub : Str → List Part) (hsub : ∀ t, shallowDeps (sub t)) :
    ∀ (cs : Str) (st : BState), shallowDeps st.parts →
      shallowDeps (cs.foldl (bracketStep sub) st).parts
  | [], _, hst => hst
  | c :: cs, st, hst => by
    rw [List.foldl_cons]
    apply shallowDeps_foldl sub hsub cs
    rcases st with ⟨parts, part, countOpened, finding⟩
    by_cases h1 : c = '('
    · cases finding
      · simp only [h1, bracketStep, if_true]
        exact shallowDeps_parseParams part parts hst
      · simp only [h1, bracketStep, if_true]
        exact hst
    · by_cases h2 : c = ')'
      · have hne : ¬ (')' = '(') := by decide
        subst h2
        cases finding
        · simp only [hne, bracketStep, if_false, if_true]
          exact hst
        · by_cases h3 : countOpened = 0
          · simp only [hne, h3, bracketStep, if_false, if_true]
            intro node hnode dependOn children hopt
            rw [nodesList_append, List.mem_append] at hnode
            rcases hnode with hnode | hnode
            · exact hst node hnode dependOn children hopt
            · simp only [Part.nodes.nodesList, Part.nodes, List.append_nil,
                List.mem_cons] at hnode
              rcases hnode with hnode | hnode
              · rw [hnode] at hopt
                simp only [Part.optional.injEq] at hopt
                rw [← hopt.1, ← hopt.2]
                exact dependOnParams_eq_directParams _
              · exact hsub part node hnode dependOn children hopt
          · simp only [hne, h3, bracketStep, if_false, if_true]
            exact hst
      · simp only [h1, h2, bracketStep, if_false]
        exact hst

theorem shallowDeps_parseBracketsFuel : ∀ (fuel : Nat) (s : Str),
    shallowDeps (parseBracketsFuel fuel s)
  | 0, _ => by
    intro node hnode
    simp [parseBracketsFuel, Part.nodes.nodesList] at hnode
  | fuel + 1, s => by
    rw [parseBracketsFuel, bracketsLoop_eq_foldl]
    apply shallowDeps_parseParams
    apply shallowDeps_foldl _ (shallowDeps_parseBracketsFuel fuel)
    intro node hnode
    simp [Part.nodes.nodesList] at hnode

/-- C16: in the tree the parser produces for any pattern, the `dependOnParams` of every
Optional node, at any depth, is exactly the list, in order, of the names of the Param nodes
that are direct members of its children; for `/a(/b(/<y>))` the outer group lists no name
although `y` is nested in it. -/
theorem optional_depends_on_direct_params :
    (∀ (pattern : Str) (dependOn : List Str) (children : List Part),
      Part.optional dependOn children ∈ Part.nodes.nodesList (parseBrackets pattern) →
      dependOn = directParams children) ∧
    parseBrackets "/a(/b(/<y>))".data =
      [Part.lit "/a".data,
        Part.optional []
          [Part.lit "/b".data, Part.optional ["y".data] [Part.lit "/".data, Part.param "y".data]]]
    := by
  constructor
  · intro pattern dependOn children hmem
    exact shallowDeps_parseBracketsFuel _ pattern _ hmem dependOn children rfl
  · decide!

theorem optional_depends_on_direct_params_witness :
    ["x".data, "z".data] = directParams
      [Part.param "x".data, Part.optional ["y".data] [Part.param "y".data], Part.param "z".data]
    :=
  optional_depends_on_direct_params.1 "a(<x>(<y>)<z>)".data _ _ (by decide!)

/-! ## C19 -/

/-- Inside a group, the content up to the closing parenthesis is added to the buffer. -/
theorem foldl_bracketStep_content (sub : Str → List Part) :
    ∀ (content : Str) (parts : List Part) (part : Str) (depth : Nat),
      groupContent content depth = true →
      content.foldl (bracketStep sub) ⟨parts, part, depth, true⟩ =
        ⟨parts, part ++ content, 0, true⟩
  | [], parts, part, depth, hc => by
    simp only [groupContent, decide_eq_true_eq] at hc
    simp [hc]
  | c :: cs, parts, part, depth, hc => by
    rw [List.foldl_cons]
    rw [groupContent] at hc
    by_cases h1 : c = '('
    · rw [if_pos h1] at hc
      have hstep : bracketStep sub ⟨parts, part, depth, true⟩ c =
          ⟨parts, part ++ [c], depth + 1, true⟩ := by simp [bracketStep, h1]
      rw [hstep, foldl_bracketStep_content sub cs _ _ _ hc]
      simp
    · by_cases h2 : c = ')'
      · rw [if_neg h1, if_pos h2] at hc
        simp only [Bool.and_eq_true, decide_eq_true_eq] at hc
        have hne : ¬ (')' = '(') := by decide
        have hstep : bracketStep sub ⟨parts, part, depth, true⟩ c =
            ⟨parts, part ++ [c], depth - 1, true⟩ := by
          subst h2
          simp [bracketStep, hc.1]
        rw [hstep, foldl_bracketStep_content sub cs _ _ _ hc.2]
        simp
      · rw [if_neg h1, if_neg h2] at hc
        have hstep : bracketStep sub ⟨parts, part, depth, true⟩ c =
            ⟨parts, part ++ [c], depth, true⟩ := by simp [bracketStep, h1, h2]
        rw [hstep, foldl_bracketStep_content sub cs _ _ _ hc]
        simp

/-- The parts already pushed stay in front of those the loop pushes later. -/
theorem foldl_bracketStep_prefix (sub : Str → List Part) (before : List Part) :
    ∀ (cs : Str) (parts : List Part) (part : Str) (countOpened : Nat) (finding : Bool),
      cs.foldl (bracketStep sub) ⟨before ++ parts, part, countOpened, finding⟩ =
        ⟨before ++ (cs.foldl (bracketStep sub) ⟨parts, part, countOpened, finding⟩).parts,
          (cs.foldl (bracketStep sub) ⟨parts, part, countOpened, finding⟩).part,
          (cs.foldl (bracketStep sub) ⟨parts, part, countOpened, finding⟩).countOpened,
          (cs.foldl (bracketStep sub) ⟨parts, part, countOpened, finding⟩).isFindingClosed⟩
  | [], _, _, _, _ => rfl
  | c :: cs, parts, part, countOpened, finding => by
    rw [List.foldl_cons, List.foldl_cons]
    have hstep : bracketStep sub ⟨before ++ parts, part, countOpened, finding⟩ c =
        ⟨before ++ (bracketStep sub ⟨parts, part, countOpened, finding⟩ c).parts,
          (bracketStep sub ⟨parts, part, countOpened, finding⟩ c).part,
          (bracketStep sub ⟨parts, part, countOpened, finding⟩ c).countOpened,
          (bracketStep sub ⟨parts, part, countOpened, finding⟩ c).isFindingClosed⟩ := by
      by_cases h1 : c = '('
      · cases finding <;> simp [bracketStep, h1, parseParams_append]
      · by_cases h2 : c = ')'
        · have hne : ¬ (')' = '(') := by decide
          subst h2
          cases finding
          · simp [bracketStep, hne]
          · by_cases h3 : countOpened = 0 <;> simp [bracketStep, hne, h3]
        · cases finding <;> simp [bracketStep, h1, h2]
    rw [hstep]
    exact foldl_bracketStep_prefix sub before cs _ _ _ _

/-- The tree of a text, a group and what follows the group. -/
theorem parseBrackets_group (text content rest : Str)
    (htext : ∀ c ∈ text, c ≠ '(' ∧ c ≠ ')') (hcontent : groupContent content 0 = true) :
    parseBrackets (text ++ '(' :: (content ++ ')' :: rest)) =
      parseParams text [] ++
        Part.optional (directParams (parseBrackets content)) (parseBrackets content) ::
          parseBrackets rest := by
  rw [parseBrackets_eq, List.foldl_append, foldl_bracketStep_plain _ _ _ _ _ _ htext,
    List.foldl_cons]
  have hopen : bracketStep parseBrackets ⟨[], [] ++ text, 0, false⟩ '(' =
      ⟨parseParams text [], [], 0, true⟩ := by simp [bracketStep]
  rw [hopen, List.foldl_append, foldl_bracketStep_content _ _ _ _ _ hcontent, List.foldl_cons]
  have hne : ¬ (')' = '(') := by decide
  have hclose : bracketStep parseBrackets ⟨parseParams text [], [] ++ content, 0, true⟩ ')' =
      ⟨(parseParams text [] ++
          [Part.optional (directParams (parseBrackets content)) (parseBrackets content)]) ++ [],
        [], 0, false⟩ := by
    simp [bracketStep, hne, dependOnParams_eq_directParams]
  rw [hclose, foldl_bracketStep_prefix, parseParams_append, parseBrackets_eq rest]
  simp

/-- C19, counterexample: for `/x(a(b)c)` the children of the group are not the literal text
`a(b)c`; no Literal of the tree holds a parenthesis. -/
theorem nested_parentheses_are_not_literal :
    parseBrackets "/x(a(b)c)".data ≠
        [Part.lit "/x".data, Part.optional [] [Part.lit "a(b)c".data]] ∧
      ∀ node ∈ Part.nodes.nodesList (parseBrackets "/x(a(b)c)".data),
        ∀ c ∈ node.render, node = Part.lit node.render → c ≠ '(' ∧ c ≠ ')' := by
  decide!

/-- C19, amended: the text between the `(` that opens a group and the `)` that closes it,
nested `(` and their balancing `)` included, is kept in the buffer of the group and then parsed
recursively into the children of the group, so that balanced parentheses inside a group
delimit nested optional groups; for `/x(a(b)c)` the children of the group are
Literal `a`, an Optional holding Literal `b`, and Literal `c`. -/
theorem nested_parentheses_nest_groups :
    (∀ (text content rest : Str),
      (∀ c ∈ text, c ≠ '(' ∧ c ≠ ')') → groupContent content 0 = true →
      parseBrackets (text ++ '(' :: (content ++ ')' :: rest)) =
        parseParams text [] ++
          Part.optional (directParams (parseBrackets content)) (parseBrackets content) ::
            parseBrackets rest) ∧
    parseBrackets "/x(a(b)c)".data =
      [Part.lit "/x".data,
        Part.optional [] [Part.lit "a".data, Part.optional [] [Part.lit "b".data],
          Part.lit "c".data]] :=
  ⟨parseBrackets_group, by decide!⟩

theorem nested_parentheses_nest_groups_witness :
    parseBrackets ("/x".data ++ '(' :: ("a(b)c".data ++ ')' :: "/y".data)) =
      parseParams "/x".data [] ++
        Part.optional (directParams (parseBrackets "a(b)c".data)) (parseBrackets "a(b)c".data) ::
          parseBrackets "/y".data :=
  nested_parentheses_nest_groups.1 "/x".data "a(b)c".data "/y".data (by decide) (by decide)

/-! ## Lemmas: the tokenizer of `parseParams` -/

theorem not_isNameChar_gt : isNameChar '>' = false := by decide

theorem not_isNameChar_lt : isNameChar '<' = false := by decide

/-- What the first alternative of `PARSE_PARAMS_REGEXP` matches. -/
theorem matchParamToken_eq_some {s token rest : Str}
    (hm : matchParamToken s = some (token, rest)) :
    ∃ name, isParamName name = true ∧ token = '<' :: (name ++ ['>']) ∧ s = token ++ rest := by
  unfold matchParamToken at hm
  split at hm
  · rename_i c cs
    split at hm
    · rename_i hstart
      split at hm
      · rename_i run rest2 hspan
        simp only [Option.some.injEq, Prod.mk.injEq] at hm
        rw [List.span_eq_take_drop] at hspan
        simp only [Prod.mk.injEq] at hspan
        refine ⟨c :: run, ?_, ?_, ?_⟩
        · rw [isParamName, hstart, Bool.true_and, ← hspan.1, List.all_eq_true]
          intro x hx
          exact List.mem_takeWhile_imp hx
        · rw [← hm.1]
          rfl
        · rw [← hm.1, ← hm.2]
          have := List.takeWhile_append_dropWhile isNameChar cs
          rw [hspan.1, hspan.2] at this
          rw [← this]
          simp
      · exact absurd hm (by simp)
    · exact absurd hm (by simp)
  · exact absurd hm (by simp)

/-- The first alternative matches a well-formed placeholder at the head of a text. -/
theorem matchParamToken_placeholder (name rest : Str) (hname : isParamName name = true) :
    matchParamToken ('<' :: (name ++ '>' :: rest)) = some ('<' :: (name ++ ['>']), rest) := by
  cases name with
  | nil => simp [isParamName] at hname
  | cons c run =>
    simp only [isParamName, Bool.and_eq_true, List.all_eq_true] at hname
    have hspan : (run ++ '>' :: rest).span isNameChar = (run, '>' :: rest) := by
      rw [List.span_eq_take_drop]
      have h1 : (run ++ '>' :: rest).takeWhile isNameChar = run := by
        rw [List.takeWhile_append_of_pos hname.2]
        simp [List.takeWhile, not_isNameChar_gt]
      have h2 : (run ++ '>' :: rest).dropWhile isNameChar = '>' :: rest := by
        rw [List.dropWhile_append_of_pos hname.2]
        simp [List.dropWhile, not_isNameChar_gt]
      rw [h1, h2]
    simp only [List.cons_append, matchParamToken, hname.1, if_true, hspan]

theorem tokenPart_placeholder (name : Str) :
    tokenPart ('<' :: (name ++ ['>'])) = Part.param name := by
  unfold tokenPart
  have hlast : ('<' :: (name ++ ['>'])).getLast? = some '>' := by
    show (('<' :: name) ++ ['>']).getLast? = some '>'
    exact List.getLast?_concat _
  rw [if_pos ⟨rfl, hlast⟩]
  simp

/-- A token rendered back is the token. -/
theorem render_tokenPart (token : Str) : (tokenPart token).render = token := by
  unfold tokenPart
  split
  · rename_i hcond
    cases token with
    | nil => simp at hcond
    | cons c rest =>
      simp only [List.head?_cons, Option.some.injEq] at hcond
      obtain ⟨hc, hlast⟩ := hcond
      subst hc
      cases hrest : rest with
      | nil =>
        rw [hrest] at hlast
        simp at hlast
      | cons d ds =>
        have hne : rest ≠ [] := by rw [hrest]; simp
        have hl : rest.getLast hne = '>' := by
          have : ('<' :: rest).getLast? = some (rest.getLast hne) := by
            rw [List.getLast?_eq_getLast _ (by simp), List.getLast_cons hne]
          rw [this] at hlast
          exact Option.some.inj hlast
        have hsplit := List.dropLast_append_getLast hne
        rw [hl] at hsplit
        rw [← hrest]
        simp only [Part.render, List.drop_succ_cons, List.drop_zero, List.length_cons]
        have : rest.take (rest.length + 1 - 2) = rest.dropLast := by
          rw [List.dropLast_eq_take]
          congr 1
        rw [this]
        show '<' :: (rest.dropLast ++ ['>']) = '<' :: rest
        rw [hsplit]
  · rfl

theorem takeWhile_append_stop (p : Char → Bool) (x : Char) (r : Str) (hx : p x = false) :
    ∀ l : Str, (l ++ x :: r).takeWhile p = l.takeWhile p
  | [] => by simp [List.takeWhile, hx]
  | c :: l => by
    by_cases hc : p c = true
    · simp [List.takeWhile, hc, takeWhile_append_stop p x r hx l]
    · simp [List.takeWhile, hc]

theorem dropWhile_append_stop (p : Char → Bool) (x : Char) (r : Str) (hx : p x = false) :
    ∀ l : Str, (l ++ x :: r).dropWhile p = l.dropWhile p ++ x :: r
  | [] => by simp [List.dropWhile, hx]
  | c :: l => by
    by_cases hc : p c = true
    · simp [List.dropWhile, hc, dropWhile_append_stop p x r hx l]
    · simp [List.dropWhile, hc]

/-- What follows a text from a `<` on does not change the match of the first alternative at
the head of the text. -/
theorem matchParamToken_append (s r : Str) :
    matchParamToken (s ++ '<' :: r) =
      (matchParamToken s).map (fun m => (m.1, m.2 ++ '<' :: r)) ∨
    s = [] := by
  cases s with
  | nil => exact Or.inr rfl
  | cons c cs =>
    left
    by_cases hc : c = '<'
    · subst hc
      cases cs with
      | nil => simp [matchParamToken, isNameStart]
      | cons c1 cs1 =>
        by_cases hstart : isNameStart c1 = true
        · cases hdrop : cs1.dropWhile isNameChar with
          | nil =>
            simp [matchParamToken, hstart, List.span_eq_take_drop,
              dropWhile_append_stop isNameChar '<' r not_isNameChar_lt, hdrop]
          | cons d ds =>
            by_cases hd : d = '>'
            · simp [matchParamToken, hstart, List.span_eq_take_drop,
                dropWhile_append_stop isNameChar '<' r not_isNameChar_lt,
                takeWhile_append_stop isNameChar '<' r not_isNameChar_lt, hdrop, hd]
            · simp [matchParamToken, hstart, List.span_eq_take_drop,
                dropWhile_append_stop isNameChar '<' r not_isNameChar_lt,
                takeWhile_append_stop isNameChar '<' r not_isNameChar_lt, hdrop, hd]
        · simp [matchParamToken, hstart]
    · have h1 : matchParamToken (c :: cs ++ '<' :: r) = none := by
        unfold matchParamToken
        split
        · rename_i heq
          simp only [List.cons_append, List.cons.injEq] at heq
          exact absurd heq.1 hc
        · rfl
      have h2 : matchParamToken (c :: cs) = none := by
        unfold matchParamToken
        split
        · rename_i heq
          simp only [List.cons.injEq] at heq
          exact absurd heq.1 hc
        · rfl
      rw [h1, h2]
      rfl

theorem matchParamToken_rest_length {s token rest : Str}
    (hm : matchParamToken s = some (token, rest)) : rest.length < s.length := by
  obtain ⟨name, _, htoken, hs⟩ := matchParamToken_eq_some hm
  rw [hs, htoken]
  simp only [List.length_append, List.length_cons]
  omega

theorem length_dropWhile_le (p : Char → Bool) (l : Str) : (l.dropWhile p).length ≤ l.length :=
  (List.dropWhile_sublist p).length_le

/-- Any fuel from the length of the text on gives the same tokens. -/
theorem paramTokensFuel_congr :
    ∀ (f1 f2 : Nat) (s : Str), s.length ≤ f1 → s.length ≤ f2 →
      paramTokensFuel f1 s = paramTokensFuel f2 s
  | 0, f2, s, h1, _ => by
    have : s = [] := List.length_eq_zero.mp (Nat.le_zero.mp h1)
    subst this
    cases f2 <;> rfl
  | f1 + 1, 0, s, _, h2 => by
    have : s = [] := List.length_eq_zero.mp (Nat.le_zero.mp h2)
    subst this
    rfl
  | f1 + 1, f2 + 1, [], _, _ => rfl
  | f1 + 1, f2 + 1, c :: cs, h1, h2 => by
    simp only [List.length_cons] at h1 h2
    rw [paramTokensFuel, paramTokensFuel]
    cases hm : matchParamToken (c :: cs) with
    | some m =>
      obtain ⟨token, rest⟩ := m
      have := matchParamToken_rest_length hm
      simp only [List.length_cons] at this
      simp only
      rw [paramTokensFuel_congr f1 f2 rest (by omega) (by omega)]
    | none =>
      simp only
      have := length_dropWhile_le isPlainChar cs
      rw [paramTokensFuel_congr f1 f2 (cs.dropWhile isPlainChar) (by omega) (by omega),
        paramTokensFuel_congr f1 f2 cs (by omega) (by omega)]

theorem paramTokensFuel_eq (fuel : Nat) (s : Str) (h : s.length ≤ fuel) :
    paramTokensFuel fuel s = paramTokens s :=
  paramTokensFuel_congr fuel s.length s h (Nat.le_refl _)

/-- The tokens of a non-empty text: the first match, then the tokens of what follows it. -/
theorem paramTokens_cons (c : Char) (cs : Str) :
    paramTokens (c :: cs) =
      match matchParamToken (c :: cs) with
      | some (token, rest) => token :: paramTokens rest
      | none =>
        if isPlainChar c then
          (c :: cs.takeWhile isPlainChar) :: paramTokens (cs.dropWhile isPlainChar)
        else [c] :: paramTokens cs := by
  rw [paramTokens, List.length_cons, paramTokensFuel]
  cases hm : matchParamToken (c :: cs) with
  | some m =>
    obtain ⟨token, rest⟩ := m
    have := matchParamToken_rest_length hm
    simp only [List.length_cons] at this
    simp only
    rw [paramTokensFuel_eq _ rest (by omega)]
  | none =>
    simp only
    rw [paramTokensFuel_eq _ _ (length_dropWhile_le isPlainChar cs),
      paramTokensFuel_eq _ cs (Nat.le_refl _)]

theorem paramTokens_nil : paramTokens [] = [] := rfl

theorem renderList_append : ∀ (xs ys : List Part),
    Part.render.renderList (xs ++ ys) = Part.render.renderList xs ++ Part.render.renderList ys
  | [], ys => rfl
  | x :: xs, ys => by
    rw [List.cons_append, Part.render.renderList, Part.render.renderList,
      renderList_append xs ys, List.append_assoc]

/-- The tokens of a text, rendered back, give the text. -/
theorem renderList_paramTokens :
    ∀ (n : Nat) (s : Str), s.length ≤ n →
      Part.render.renderList ((paramTokens s).map tokenPart) = s
  | _, [], _ => rfl
  | 0, c :: cs, h => by simp at h
  | n + 1, c :: cs, h => by
    simp only [List.length_cons] at h
    rw [paramTokens_cons]
    cases hm : matchParamToken (c :: cs) with
    | some m =>
      obtain ⟨token, rest⟩ := m
      have hlen := matchParamToken_rest_length hm
      simp only [List.length_cons] at hlen
      obtain ⟨name, _, _, hs⟩ := matchParamToken_eq_some hm
      simp only [List.map_cons, Part.render.renderList]
      rw [render_tokenPart, renderList_paramTokens n rest (by omega), hs]
    | none =>
      simp only
      by_cases hp : isPlainChar c = true
      · have hlen := length_dropWhile_le isPlainChar cs
        rw [if_pos hp]
        simp only [List.map_cons, Part.render.renderList]
        rw [render_tokenPart, renderList_paramTokens n _ (by omega)]
        simp
      · rw [if_neg hp]
        simp only [List.map_cons, Part.render.renderList]
        rw [render_tokenPart, renderList_paramTokens n cs (by omega)]
        rfl

theorem renderList_parseParams (text : Str) (parts : List Part) :
    Part.render.renderList (parseParams text parts) = Part.render.renderList parts ++ text := by
  rw [parseParams, renderList_append, renderList_paramTokens text.length text (Nat.le_refl _)]

/-- The tokens of a text that continues with `<`: those of the text, then those from `<` on. -/
theorem paramTokens_append_lt (r : Str) :
    ∀ (n : Nat) (s : Str), s.length ≤ n →
      paramTokens (s ++ '<' :: r) = paramTokens s ++ paramTokens ('<' :: r)
  | _, [], _ => rfl
  | 0, c :: cs, h => by simp at h
  | n + 1, c :: cs, h => by
    simp only [List.length_cons] at h
    have happ := matchParamToken_append (c :: cs) r
    simp only [reduceCtorEq, or_false] at happ
    rw [List.cons_append, paramTokens_cons, paramTokens_cons c cs, ← List.cons_append, happ]
    cases hm : matchParamToken (c :: cs) with
    | some m =>
      obtain ⟨token, rest⟩ := m
      have hlen := matchParamToken_rest_length hm
      simp only [List.length_cons] at hlen
      simp only [Option.map_some']
      rw [paramTokens_append_lt r n rest (by omega)]
      rfl
    | none =>
      simp only [Option.map_none']
      by_cases hp : isPlainChar c = true
      · have hlen := length_dropWhile_le isPlainChar cs
        rw [if_pos hp, if_pos hp, takeWhile_append_stop isPlainChar '<' r (by decide),
          dropWhile_append_stop isPlainChar '<' r (by decide),
          paramTokens_append_lt r n _ (by omega)]
        rfl
      · rw [if_neg hp, if_neg hp, paramTokens_append_lt r n cs (by omega)]
        rfl

/-- A well-formed placeholder becomes a Param wherever it stands in the text. -/
theorem parseParams_placeholder (before name after : Str) (parts : List Part)
    (hname : isParamName name = true) :
    parseParams (before ++ '<' :: (name ++ '>' :: after)) parts =
      parseParams before parts ++ Part.param name :: parseParams after [] := by
  have hlen : (name ++ '>' :: after).length = name.length + after.length + 1 := by
    simp only [List.length_append, List.length_cons]
    omega
  rw [parseParams, parseParams, parseParams,
    paramTokens_append_lt _ before.length before (Nat.le_refl _),
    paramTokens_cons, matchParamToken_placeholder name after hname]
  simp only [List.map_append, List.map_cons, tokenPart_placeholder, List.nil_append,
    List.append_assoc]

/-! ## Lemmas: the parser loses no character -/

theorem unclosed_append : ∀ (a b : Str) (depth : Nat),
    unclosed (a ++ b) depth = unclosed b (unclosed a depth)
  | [], _, _ => rfl
  | c :: a, b, depth => by
    rw [List.cons_append, unclosed, unclosed]
    by_cases h1 : c = '('
    · rw [if_pos h1, if_pos h1, unclosed_append a b]
    · by_cases h2 : c = ')'
      · rw [if_neg h1, if_pos h2, if_neg h1, if_pos h2, unclosed_append a b]
      · rw [if_neg h1, if_neg h2, if_neg h1, if_neg h2, unclosed_append a b]

/-- The invariant of the loop of `parseBrackets`: the parts pushed so far, the `(` of the group
being read and the buffer render the text read so far. -/
theorem render_foldl_bracketStep (sub : Str → List Part) (n : Nat)
    (hsub : ∀ t : Str, t.length < n → unclosed t 0 = 0 → Part.render.renderList (sub t) = t) :
    ∀ (cs : Str) (parts : List Part) (part : Str) (countOpened : Nat) (finding : Bool)
      (done : Str),
      Part.render.renderList parts ++ (if finding then '(' :: part else part) = done →
      (finding = true → unclosed part 0 = countOpened ∧ part.length + cs.length < n) →
      (finding = false → cs.length ≤ n) →
      Part.render.renderList (cs.foldl (bracketStep sub) ⟨parts, part, countOpened, finding⟩).parts
        ++ (if (cs.foldl (bracketStep sub) ⟨parts, part, countOpened, finding⟩).isFindingClosed
            then '(' :: (cs.foldl (bracketStep sub) ⟨parts, part, countOpened, finding⟩).part
            else (cs.foldl (bracketStep sub) ⟨parts, part, countOpened, finding⟩).part)
        = done ++ cs
  | [], _, _, _, _, _, hdone, _, _ => by simpa using hdone
  | c :: cs, parts, part, countOpened, finding, done, hdone, ht, hf => by
    have hcons : done ++ c :: cs = (done ++ [c]) ++ cs := by simp
    rw [List.foldl_cons, hcons]
    have hne : ¬ (')' = '(') := by decide
    by_cases h1 : c = '('
    · subst h1
      cases finding
      · have hlen := hf rfl
        simp only [List.length_cons] at hlen
        simp only [Bool.false_eq_true, if_false] at hdone
        have hstep : bracketStep sub ⟨parts, part, countOpened, false⟩ '(' =
            ⟨parseParams part parts, [], 0, true⟩ := by simp [bracketStep]
        rw [hstep]
        apply render_foldl_bracketStep sub n hsub cs
        · rw [renderList_parseParams, hdone]
          simp
        · intro _
          exact ⟨rfl, by simp only [List.length_nil]; omega⟩
        · intro e
          simp at e
      · obtain ⟨hdepth, hlen⟩ := ht rfl
        simp only [List.length_cons] at hlen
        simp only [if_true] at hdone
        have hstep : bracketStep sub ⟨parts, part, countOpened, true⟩ '(' =
            ⟨parts, part ++ ['('], countOpened + 1, true⟩ := by simp [bracketStep]
        rw [hstep]
        apply render_foldl_bracketStep sub n hsub cs
        · rw [← hdone]
          simp
        · intro _
          refine ⟨?_, by simp only [List.length_append, List.length_singleton]; omega⟩
          rw [unclosed_append, hdepth]
          simp [unclosed]
        · intro e
          simp at e
    · by_cases h2 : c = ')'
      · subst h2
        cases finding
        · have hlen := hf rfl
          simp only [List.length_cons] at hlen
          simp only [Bool.false_eq_true, if_false] at hdone
          have hstep : bracketStep sub ⟨parts, part, countOpened, false⟩ ')' =
              ⟨parts, part ++ [')'], countOpened, false⟩ := by simp [bracketStep, hne]
          rw [hstep]
          apply render_foldl_bracketStep sub n hsub cs
          · rw [← hdone]
            simp
          · intro e
            simp at e
          · intro _
            omega
        · obtain ⟨hdepth, hlen⟩ := ht rfl
          simp only [List.length_cons] at hlen
          simp only [if_true] at hdone
          by_cases h3 : countOpened = 0
          · have hstep : bracketStep sub ⟨parts, part, countOpened, true⟩ ')' =
                ⟨parts ++ [Part.optional (dependOnParams (sub part)) (sub part)], [],
                  countOpened, false⟩ := by simp [bracketStep, hne, h3]
            rw [hstep]
            apply render_foldl_bracketStep sub n hsub cs
            · rw [renderList_append]
              simp only [Part.render.renderList, Part.render, List.append_nil,
                Bool.false_eq_true, if_false]
              rw [hsub part (by omega) (by rw [hdepth, h3]), ← hdone]
              simp
            · intro e
              simp at e
            · intro _
              omega
          · have hstep : bracketStep sub ⟨parts, part, countOpened, true⟩ ')' =
                ⟨parts, part ++ [')'], countOpened - 1, true⟩ := by
              simp [bracketStep, hne, h3]
            rw [hstep]
            apply render_foldl_bracketStep sub n hsub cs
            · rw [← hdone]
              simp
            · intro _
              refine ⟨?_, by simp only [List.length_append, List.length_singleton]; omega⟩
              rw [unclosed_append, hdepth]
              simp [unclosed, hne]
            · intro e
              simp at e
      · have hstep : bracketStep sub ⟨parts, part, countOpened, finding⟩ c =
            ⟨parts, part ++ [c], countOpened, finding⟩ := by simp [bracketStep, h1, h2]
        rw [hstep]
        apply render_foldl_bracketStep sub n hsub cs
        · rw [← hdone]
          cases finding <;> simp
        · intro e
          obtain ⟨hdepth, hlen⟩ := ht e
          simp only [List.length_cons] at hlen
          refine ⟨?_, by simp only [List.length_append, List.length_singleton]; omega⟩
          rw [unclosed_append, hdepth]
          simp [unclosed, h1, h2]
        · intro e
          have hlen := hf e
          simp only [List.length_cons] at hlen
          omega

/-- The tree of a pattern that leaves no group open renders back to the pattern. -/
theorem renderList_parseBrackets :
    ∀ (n : Nat) (s : Str), s.length ≤ n → unclosed s 0 = 0 →
      Part.render.renderList (parseBrackets s) = s
  | n, s, hn, hclosed => by
    have hsub : ∀ t : Str, t.length < s.length → unclosed t 0 = 0 →
        Part.render.renderList (parseBrackets t) = t := by
      intro t ht hc
      match n, hn with
      | 0, hn => omega
      | m + 1, hn => exact renderList_parseBrackets m t (by omega) hc
    have hinv := render_foldl_bracketStep parseBrackets s.length hsub s [] [] 0 false []
      rfl (fun e => by simp at e) (fun _ => Nat.le_refl _)
    have hdepth := unclosed_foldl parseBrackets s ⟨[], [], 0, false⟩
    rw [parseBrackets_eq, renderList_parseParams]
    generalize s.foldl (bracketStep parseBrackets) ⟨[], [], 0, false⟩ = st at hinv hdepth
    rcases st with ⟨parts, part, countOpened, finding⟩
    simp only [Bool.false_eq_true, if_false, hclosed] at hdepth
    cases finding
    · simpa using hinv
    · simp at hdepth

/-- A property of nodes that holds for the parts of every token and passes from the children
of a group to the group holds for every node of the tree the loop builds. -/
theorem nodes_foldl_bracketStep (Q : Part → Prop) (sub : Str → List Part)
    (hsub : ∀ t, ∀ node ∈ Part.nodes.nodesList (sub t), Q node)
    (htoken : ∀ text token, token ∈ paramTokens text → Q (tokenPart token))
    (hgroup : ∀ children, (∀ node ∈ Part.nodes.nodesList children, Q node) →
      Q (Part.optional (dependOnParams children) children)) :
    ∀ (cs : Str) (st : BState), (∀ node ∈ Part.nodes.nodesList st.parts, Q node) →
      ∀ node ∈ Part.nodes.nodesList (cs.foldl (bracketStep sub) st).parts, Q node
  | [], _, hst => hst
  | c :: cs, st, hst => by
    rw [List.foldl_cons]
    apply nodes_foldl_bracketStep Q sub hsub htoken hgroup cs
    rcases st with ⟨parts, part, countOpened, finding⟩
    have hne : ¬ (')' = '(') := by decide
    by_cases h1 : c = '('
    · subst h1
      cases finding
      · simp only [bracketStep, if_true, Bool.false_eq_true, if_false]
        intro node hnode
        rw [parseParams, nodesList_append, List.mem_append, nodesList_map_tokenPart] at hnode
        rcases hnode with hnode | hnode
        · exact hst node hnode
        · obtain ⟨token, htok, heq⟩ := List.mem_map.mp hnode
          rw [← heq]
          exact htoken part token htok
      · simp only [bracketStep, if_true]
        exact hst
    · by_cases h2 : c = ')'
      · subst h2
        cases finding
        · simp only [hne, bracketStep, if_false, Bool.false_eq_true]
          exact hst
        · by_cases h3 : countOpened = 0
          · simp only [hne, h3, bracketStep, if_false, if_true]
            intro node hnode
            rw [nodesList_append, List.mem_append] at hnode
            rcases hnode with hnode | hnode
            · exact hst node hnode
            · simp only [Part.nodes.nodesList, Part.nodes, List.append_nil,
                List.mem_cons] at hnode
              rcases hnode with hnode | hnode
              · rw [hnode]
                exact hgroup _ (hsub part)
              · exact hsub part node hnode
          · simp only [hne, h3, bracketStep, if_false, if_true]
            exact hst
      · simp only [h1, h2, bracketStep, if_false]
        exact hst

theorem nodes_parseBracketsFuel (Q : Part → Prop)
    (htoken : ∀ text token, token ∈ paramTokens text → Q (tokenPart token))
    (hgroup : ∀ children, (∀ node ∈ Part.nodes.nodesList children, Q node) →
      Q (Part.optional (dependOnParams children) children)) :
    ∀ (fuel : Nat) (s : Str), ∀ node ∈ Part.nodes.nodesList (parseBracketsFuel fuel s), Q node
  | 0, _ => by
    intro node hnode
    simp [parseBracketsFuel, Part.nodes.nodesList] at hnode
  | fuel + 1, s => by
    intro node hnode
    rw [parseBracketsFuel, bracketsLoop_eq_foldl, parseParams, nodesList_append,
      List.mem_append, nodesList_map_tokenPart] at hnode
    rcases hnode with hnode | hnode
    · exact nodes_foldl_bracketStep Q _ (nodes_parseBracketsFuel Q htoken hgroup fuel) htoken
        hgroup s _ (by intro node hnode; simp [Part.nodes.nodesList] at hnode) node hnode
    · obtain ⟨token, htok, heq⟩ := List.mem_map.mp hnode
      rw [← heq]
      exact htoken _ token htok

/-- A token that becomes a Param is a well-formed placeholder. -/
theorem isParamName_of_token :
    ∀ (n : Nat) (s : Str), s.length ≤ n → ∀ token ∈ paramTokens s, ∀ name,
      tokenPart token = Part.param name → isParamName name = true
  | _, [], _, token, htoken, _, _ => by simp [paramTokens_nil] at htoken
  | 0, c :: cs, h, _, _, _, _ => by simp at h
  | n + 1, c :: cs, h, token, htoken, name, hpart => by
    simp only [List.length_cons] at h
    rw [paramTokens_cons] at htoken
    cases hm : matchParamToken (c :: cs) with
    | some m =>
      obtain ⟨token2, rest⟩ := m
      have hlen := matchParamToken_rest_length hm
      simp only [List.length_cons] at hlen
      rw [hm] at htoken
      simp only [List.mem_cons] at htoken
      rcases htoken with htoken | htoken
      · obtain ⟨name2, hname2, htok2, _⟩ := matchParamToken_eq_some hm
        rw [htoken, htok2, tokenPart_placeholder] at hpart
        rw [← Part.param.inj hpart]
        exact hname2
      · exact isParamName_of_token n rest (by omega) token htoken name hpart
    | none =>
      rw [hm] at htoken
      simp only at htoken
      by_cases hp : isPlainChar c = true
      · have hlen := length_dropWhile_le isPlainChar cs
        rw [if_pos hp] at htoken
        simp only [List.mem_cons] at htoken
        rcases htoken with htoken | htoken
        · have hc : c ≠ '<' := by
            intro e
            rw [e] at hp
            exact absurd hp (by decide)
          rw [htoken] at hpart
          simp [tokenPart, hc] at hpart
        · exact isParamName_of_token n _ (by omega) token htoken name hpart
      · rw [if_neg hp] at htoken
        simp only [List.mem_cons] at htoken
        rcases htoken with htoken | htoken
        · rw [htoken] at hpart
          by_cases hc : c = '<'
          · rw [hc] at hpart
            simp [tokenPart] at hpart
          · simp [tokenPart, hc] at hpart
        · exact isParamName_of_token n cs (by omega) token htoken name hpart

/-! ## C20 -/

/-- C20: the tree of every pattern that leaves no `(` unclosed renders back to the pattern,
character for character; the bound put on the depth of the recursion of `parseBrackets` is
never reached; a placeholder `<name>` whose name matches `[a-zA-Z_][\w-]*` becomes a Param
wherever it stands in a tokenized text, and every Param of a tree has such a name, so that a
malformed placeholder stays literal text. -/
theorem parser_is_lossless :
    (∀ s : Str, unclosed s 0 = 0 → Part.render.renderList (parseBrackets s) = s) ∧
    (∀ (s : Str) (fuel : Nat), s.length < fuel → parseBracketsFuel fuel s = parseBrackets s) ∧
    (∀ (before name after : Str) (parts : List Part), isParamName name = true →
      parseParams (before ++ '<' :: (name ++ '>' :: after)) parts =
        parseParams before parts ++ Part.param name :: parseParams after []) ∧
    (∀ (s name : Str), Part.param name ∈ Part.nodes.nodesList (parseBrackets s) →
      isParamName name = true) := by
  refine ⟨fun s hs => renderList_parseBrackets s.length s (Nat.le_refl _) hs,
    parseBracketsFuel_eq, parseParams_placeholder, ?_⟩
  intro s name hmem
  exact nodes_parseBracketsFuel (fun node => ∀ name, node = Part.param name →
      isParamName name = true)
    (fun text token htoken name hpart =>
      isParamName_of_token text.length text (Nat.le_refl _) token htoken name hpart)
    (fun children _ name hpart => by cases hpart)
    _ s _ hmem name rfl

theorem parser_is_lossless_witness :
    Part.render.renderList (parseBrackets "/a<x>(/b<9>(<y->))>".data) = "/a<x>(/b<9>(<y->))>".data ∧
    parseParams "<<x><1>".data [] =
      [Part.lit "<".data, Part.param "x".data, Part.lit "<".data, Part.lit "1".data,
        Part.lit ">".data] ∧
    isParamName "y-".data = true :=
  ⟨parser_is_lossless.1 _ (by decide),
    by
      have := parser_is_lossless.2.2.1 "<".data "x".data "<1>".data [] (by decide)
      rw [show parseParams "<".data [] = [Part.lit "<".data] by decide!,
        show parseParams "<1>".data [] = [Part.lit "<".data, Part.lit "1".data,
          Part.lit ">".data] by decide!] at this
      exact this,
    parser_is_lossless.2.2.2 "/a<x>(/b<9>(<y->))>".data "y-".data (by decide!)⟩

/-! ## Lemmas: what the builder reads of the mapping -/

theorem buildList_append (defaults q : Params) : ∀ (xs ys : List Part),
    Part.buildFn.buildList defaults q (xs ++ ys) =
      Part.buildFn.buildList defaults q xs ++ Part.buildFn.buildList defaults q ys
  | [], ys => rfl
  | x :: xs, ys => by
    rw [List.cons_append, Part.buildFn.buildList, Part.buildFn.buildList,
      buildList_append defaults q xs ys, List.append_assoc]

theorem mem_namesList_of_mem : ∀ (parts : List Part) (name : Str),
    Part.param name ∈ parts → name ∈ Part.paramNames.namesList parts
  | [], _, h => by simp at h
  | part :: parts, name, h => by
    rw [Part.paramNames.namesList, List.mem_append]
    rcases List.mem_cons.mp h with h | h
    · left
      rw [← h]
      simp [Part.paramNames]
    · exact Or.inr (mem_namesList_of_mem parts name h)

theorem mem_dependOnParams : ∀ (parts : List Part) (name : Str),
    name ∈ dependOnParams parts → Part.param name ∈ parts
  | [], _, h => by simp [dependOnParams] at h
  | Part.lit _ :: parts, name, h => by
    rw [dependOnParams_eq_directParams] at h
    have h2 : name ∈ directParams parts := by simpa [directParams] using h
    rw [← dependOnParams_eq_directParams] at h2
    exact List.mem_cons_of_mem _ (mem_dependOnParams parts name h2)
  | Part.param n :: parts, name, h => by
    rw [dependOnParams] at h
    rcases List.mem_cons.mp h with h | h
    · rw [h]
      exact List.mem_cons_self _ _
    · exact List.mem_cons_of_mem _ (mem_dependOnParams parts name h)
  | Part.optional _ _ :: parts, name, h => by
    rw [dependOnParams_eq_directParams] at h
    have h2 : name ∈ directParams parts := by simpa [directParams] using h
    rw [← dependOnParams_eq_directParams] at h2
    exact List.mem_cons_of_mem _ (mem_dependOnParams parts name h2)

/-- In the tree of any pattern the names a group depends on are names of Params among its
children. -/
theorem depend_mem_children (s : Str) (dependOn : List Str) (children : List Part)
    (hmem : Part.optional dependOn children ∈ Part.nodes.nodesList (parseBrackets s)) :
    ∀ name ∈ dependOn, Part.param name ∈ children :=
  nodes_parseBracketsFuel
    (fun node => ∀ dependOn children, node = Part.optional dependOn children →
      ∀ name ∈ dependOn, Part.param name ∈ children)
    (fun text token _ dependOn children hopt =>
      absurd hopt (tokenPart_not_optional token dependOn children))
    (fun children _ dependOn children2 hopt name hname => by
      simp only [Part.optional.injEq] at hopt
      rw [← hopt.2]
      rw [← hopt.1] at hname
      exact mem_dependOnParams children name hname)
    _ s _ hmem dependOn children rfl

theorem hasOwn_congr {q1 q2 : Params} {key : Str} (h : getProp q1 key = getProp q2 key) :
    hasOwn q1 key = hasOwn q2 key := by
  rw [hasOwn_eq_isSome, hasOwn_eq_isSome, h]

mutual
/-- Two mappings that agree outside the key `avoid` build the same text for a part that uses
no parameter of that name. -/
theorem buildFn_congr (defaults q1 q2 : Params) (avoid : Str)
    (hagree : ∀ key, key ≠ avoid → getProp q1 key = getProp q2 key) :
    ∀ part : Part, part.buildFnReadable defaults = true →
      (∀ dependOn children, Part.optional dependOn children ∈ part.nodes →
        ∀ name ∈ dependOn, Part.param name ∈ children) →
      avoid ∉ part.paramNames →
      part.buildFn defaults q1 = part.buildFn defaults q2
  | Part.lit _, _, _, _ => rfl
  | Part.param name, hread, _, havoid => by
    simp only [Part.buildFnReadable, Bool.and_eq_true] at hread
    have hname := jsLit_of_readable name hread.1
    have hne : name ≠ avoid := by
      intro e
      apply havoid
      simp [Part.paramNames, e]
    rw [Part.buildFn, Part.buildFn, hname, hagree name hne, hasOwn_congr (hagree name hne)]
  | Part.optional dependOn children, hread, hdeps, havoid => by
    have hnames := jsLit_depend_of_readable hread
    have hchildren : Part.buildFnReadable.readableList defaults children = true := by
      simp only [Part.buildFnReadable, Bool.and_eq_true] at hread
      exact hread.2
    have hin := hdeps dependOn children (by simp [Part.nodes])
    have hany : dependOn.any (dependCounts defaults q1) =
        dependOn.any (dependCounts defaults q2) := by
      apply any_congr_of_mem
      intro name hname
      have hne : name ≠ avoid := by
        intro e
        apply havoid
        rw [Part.paramNames, ← e]
        exact mem_namesList_of_mem children name (hin name hname)
      rw [dependCounts, dependCounts, hnames name hname, hagree name hne,
        hasOwn_congr (hagree name hne)]
    rw [Part.buildFn, Part.buildFn, hany,
      buildList_congr defaults q1 q2 avoid hagree children hchildren
        (fun d c hm => hdeps d c (by
          rw [Part.nodes]
          exact List.mem_cons_of_mem _ hm))
        (by rw [Part.paramNames] at havoid; exact havoid)]
theorem buildList_congr (defaults q1 q2 : Params) (avoid : Str)
    (hagree : ∀ key, key ≠ avoid → getProp q1 key = getProp q2 key) :
    ∀ parts : List Part, Part.buildFnReadable.readableList defaults parts = true →
      (∀ dependOn children, Part.optional dependOn children ∈ Part.nodes.nodesList parts →
        ∀ name ∈ dependOn, Part.param name ∈ children) →
      avoid ∉ Part.paramNames.namesList parts →
      Part.buildFn.buildList defaults q1 parts = Part.buildFn.buildList defaults q2 parts
  | [], _, _, _ => rfl
  | part :: parts, hread, hdeps, havoid => by
    simp only [Part.buildFnReadable.readableList, Bool.and_eq_true] at hread
    rw [Part.paramNames.namesList, List.mem_append, not_or] at havoid
    rw [Part.buildFn.buildList, Part.buildFn.buildList,
      buildFn_congr defaults q1 q2 avoid hagree part hread.1
        (fun d c hm => hdeps d c (by
          rw [Part.nodes.nodesList]
          exact List.mem_append_left _ hm))
        havoid.1,
      buildList_congr defaults q1 q2 avoid hagree parts hread.2
        (fun d c hm => hdeps d c (by
          rw [Part.nodes.nodesList]
          exact List.mem_append_right _ hm))
        havoid.2]
end

theorem getProp_filter (P : Str → Bool) : ∀ (o : Params) (key : Str),
    getProp (o.filter (fun kv => P kv.1)) key = if P key then getProp o key else none
  | [], key => by simp [getProp_nil]
  | (k, v) :: o, key => by
    by_cases hk : P k = true
    · rw [List.filter_cons_of_pos (by simpa using hk), getProp_cons, getProp_cons,
        getProp_filter P o key]
      by_cases hkey : key = k
      · rw [if_pos hkey, if_pos hkey, hkey, if_pos hk]
      · rw [if_neg hkey, if_neg hkey]
    · rw [List.filter_cons_of_neg (by simpa using hk), getProp_filter P o key, getProp_cons]
      by_cases hkey : key = k
      · rw [if_pos hkey, hkey, if_neg hk, if_neg hk]
      · rw [if_neg hkey]

/-- The text the implicit group builds when no default is declared for `query_string`. -/
theorem buildFn_query_group (defaults q : Params) (hdefault : hasOwn defaults QUERY_STRING = false) :
    (Part.optional [QUERY_STRING] [Part.lit "?".data, Part.param QUERY_STRING]).buildFn
        defaults q =
      if hasOwn q QUERY_STRING then '?' :: (getProp q QUERY_STRING).getD [] else [] := by
  have h1 : jsLit QUERY_STRING = QUERY_STRING := by decide
  have h2 : jsLit "?".data = "?".data := by decide
  simp only [Part.buildFn, Part.buildFn.buildList, List.any_cons, List.any_nil, dependCounts,
    h1, h2, hdefault, Bool.false_eq_true, if_false, Bool.and_true, Bool.or_false,
    List.append_nil]
  by_cases hq : hasOwn q QUERY_STRING = true
  · simp [hq]
  · simp [hq]

theorem readableList_append (defaults : Params) : ∀ (xs ys : List Part),
    Part.buildFnReadable.readableList defaults (xs ++ ys) =
      (Part.buildFnReadable.readableList defaults xs &&
        Part.buildFnReadable.readableList defaults ys)
  | [], ys => by simp [Part.buildFnReadable.readableList]
  | x :: xs, ys => by
    rw [List.cons_append, Part.buildFnReadable.readableList,
      Part.buildFnReadable.readableList, readableList_append defaults xs ys, Bool.and_assoc]

/-- What `build` returns for a route whose pattern leaves no group open: the text of the tree
of the pattern, then that of the implicit group, both for the mapping handed to the builder. -/
theorem Route.build_eq {h : Host} {method name pattern : Str} {conditions : Conditions}
    {defaults : Params} {r : Route}
    (hr : Route.new h method name pattern conditions defaults = Except.ok r)
    (hclosed : unclosed pattern 0 = 0) (hdefault : hasOwn defaults QUERY_STRING = false)
    (p : Params) (queryString : Str) :
    r.buildWith p queryString =
      Part.buildFn.buildList defaults
          (if queryString = [] then r.pathParams p
            else setProp (r.pathParams p) QUERY_STRING queryString)
          (parseBrackets pattern) ++
        (if hasOwn (if queryString = [] then r.pathParams p
              else setProp (r.pathParams p) QUERY_STRING queryString) QUERY_STRING
          then '?' :: (getProp (if queryString = [] then r.pathParams p
              else setProp (r.pathParams p) QUERY_STRING queryString) QUERY_STRING).getD []
          else []) := by
  have hparts := Route.parts_of_closed hr hclosed
  have hdef := (Route.new_ok hr).2.2.1
  rw [Route.buildWith, hparts, hdef, buildList_append, Part.buildFn.buildList,
    Part.buildFn.buildList, List.append_nil, buildFn_query_group _ _ hdefault]

/-! ## Lemmas: the loop of `build` on a mapping without `__proto__` -/

theorem insertProp_of_not_mem : ∀ (o : Params) (k v : Str),
    k ∉ o.map Prod.fst → insertProp o k v = o ++ [(k, v)]
  | [], k, v, _ => rfl
  | (k0, v0) :: o, k, v, hk => by
    have h0 : ¬ k0 = k := fun e => hk (by simp [e])
    have h1 : k ∉ o.map Prod.fst := fun e => hk (by simp [List.mem_map] at e ⊢; exact Or.inr e)
    rw [insertProp, if_neg h0, insertProp_of_not_mem o k v h1]
    rfl

theorem getProp_of_mem_nodup : ∀ (o : Params) (k v : Str),
    (o.map Prod.fst).Nodup → (k, v) ∈ o → getProp o k = some v
  | [], _, _, _, hm => by cases hm
  | (k0, v0) :: o, k, v, hnd, hm => by
    rw [List.map_cons, List.nodup_cons] at hnd
    rw [getProp_cons]
    rcases List.mem_cons.1 hm with e | hin
    · have hk : k = k0 := congrArg Prod.fst e
      have hv : v = v0 := congrArg Prod.snd e
      rw [if_pos hk, hv]
    · have hk : ¬ k = k0 := by
        intro e
        apply hnd.1
        rw [← e]
        exact List.mem_map.2 ⟨(k, v), hin, rfl⟩
      rw [if_neg hk]
      exact getProp_of_mem_nodup o k v hnd.2 hin

/-- The loop of `build` copies the selected entries in order, when the entries it walks are
entries of `params` with distinct keys, none `__proto__` and none in the target yet. -/
theorem copyOwn_eq_append (params : Params) (selects : Str → Bool) :
    ∀ (l target : Params),
      (∀ kv ∈ l, getProp params kv.1 = some kv.2) → (l.map Prod.fst).Nodup →
      (∀ kv ∈ l, kv.1 ∉ target.map Prod.fst) → (∀ kv ∈ l, kv.1 ≠ PROTO) →
      copyOwn params selects (l.map Prod.fst) target =
        target ++ l.filter (fun kv => selects kv.1)
  | [], target, _, _, _, _ => by simp [copyOwn]
  | (k, v) :: l, target, hget, hnd, hfresh, hproto => by
    rw [List.map_cons, List.nodup_cons] at hnd
    have hget2 : ∀ kv ∈ l, getProp params kv.1 = some kv.2 :=
      fun kv hkv => hget kv (List.mem_cons_of_mem _ hkv)
    have hproto2 : ∀ kv ∈ l, kv.1 ≠ PROTO :=
      fun kv hkv => hproto kv (List.mem_cons_of_mem _ hkv)
    have hfresh2 : ∀ kv ∈ l, kv.1 ∉ target.map Prod.fst :=
      fun kv hkv => hfresh kv (List.mem_cons_of_mem _ hkv)
    have hk : getProp params k = some v := hget (k, v) (List.mem_cons_self _ _)
    have hkp : k ≠ PROTO := hproto (k, v) (List.mem_cons_self _ _)
    have hkt : k ∉ target.map Prod.fst := hfresh (k, v) (List.mem_cons_self _ _)
    rw [List.map_cons, copyOwn]
    by_cases hs : selects k = true
    · rw [if_pos hs, hk, Option.getD_some, setProp, if_neg hkp, insertProp_of_not_mem _ _ _ hkt,
        copyOwn_eq_append params selects l _ hget2 hnd.2 ?_ hproto2,
        List.filter_cons_of_pos (by simpa using hs), List.append_assoc]
      · rfl
      · intro kv hkv hmem
        rw [List.map_append, List.mem_append] at hmem
        rcases hmem with hmem | hmem
        · exact hfresh2 kv hkv hmem
        · simp only [List.map_cons, List.map_nil, List.mem_singleton] at hmem
          apply hnd.1
          rw [← hmem]
          exact List.mem_map.2 ⟨kv, hkv, rfl⟩
    · rw [if_neg hs, copyOwn_eq_append params selects l target hget2 hnd.2 hfresh2 hproto2,
        List.filter_cons_of_neg (by simpa using hs)]

theorem ne_PROTO_of_mem {p : Params} (hproto : hasOwn p PROTO = false) :
    ∀ kv ∈ p, kv.1 ≠ PROTO := by
  intro kv hkv e
  have : hasOwn p PROTO = true := by
    rw [hasOwn, List.any_eq_true]
    exact ⟨kv, hkv, by simpa using e⟩
  rw [hproto] at this
  exact absurd this (by simp)

/-- On a mapping with distinct keys, none of them `__proto__`, the loop of `build` keeps
exactly the selected entries. -/
theorem copyOwn_eq_filter (params : Params) (selects : Str → Bool)
    (hnd : (params.map Prod.fst).Nodup) (hproto : hasOwn params PROTO = false) :
    copyOwn params selects (params.map Prod.fst) [] =
      params.filter (fun kv => selects kv.1) := by
  rw [copyOwn_eq_append params selects params [] ?_ hnd ?_ (ne_PROTO_of_mem hproto)]
  · rfl
  · intro kv hkv
    exact getProp_of_mem_nodup params kv.1 kv.2 hnd hkv
  · intro kv _ hmem
    cases hmem

theorem nodup_keys_filter (p : Params) (f : Str × Str → Bool) (hnd : (p.map Prod.fst).Nodup) :
    ((p.filter f).map Prod.fst).Nodup :=
  List.Nodup.sublist (List.Sublist.map Prod.fst (List.filter_sublist p)) hnd

theorem hasOwn_filter_false (p : Params) (f : Str × Str → Bool) (key : Str)
    (hp : hasOwn p key = false) : hasOwn (p.filter f) key = false := by
  rw [hasOwn, List.any_eq_false] at hp ⊢
  intro kv hkv
  exact hp kv (List.mem_filter.1 hkv).1

/-- What `build` returns for a mapping whose keys are all parameters of the route, none of them
`query_string` or `__proto__`: the text of the tree of the pattern, for that mapping. -/
theorem Route.build_of_params {h : Host} {method name pattern : Str} {conditions : Conditions}
    {defaults : Params} {r : Route} {p : Params}
    (hr : Route.new h method name pattern conditions defaults = Except.ok r)
    (hclosed : unclosed pattern 0 = 0) (hdefault : hasOwn defaults QUERY_STRING = false)
    (hnd : (p.map Prod.fst).Nodup) (hnp : hasOwn p PROTO = false)
    (hall : ∀ kv ∈ p, kv.1 ∈ r.paramsMap) (hnoqs : hasOwn p QUERY_STRING = false) :
    r.build h p = Part.buildFn.buildList defaults p (parseBrackets pattern) := by
  have hq : r.queryParams p = [] := by
    rw [Route.queryParams, copyOwn_eq_filter p _ hnd hnp, List.filter_eq_nil_iff]
    intro kv hkv
    simpa using hall kv hkv
  have hpath : r.pathParams p = p := by
    rw [Route.pathParams, copyOwn_eq_filter p _ hnd hnp, List.filter_eq_self]
    intro kv hkv
    simpa using hall kv hkv
  rw [Route.build, hq, h.qsStringify_empty, Route.build_eq hr hclosed hdefault, if_pos rfl,
    hpath, hnoqs]
  simp

/-! ## C10 -/

/-- C10: for a route whose pattern leaves no `(` unclosed and uses no parameter named
`query_string`, and that declares no default for `query_string`, and for a mapping `p` (each
key listed once) that has no key `__proto__`: when `p` has at least one key that is not a
parameter of the route, `build(p)` is `build` of `p` restricted to the parameters of the route
other than `query_string`, followed by `?` and the encoding of the other entries of `p`; when
all keys of `p` are parameters of the route and `p` has no `query_string` entry, `build(p)` is
the text of the tree of the pattern alone for `p`, the implicit group adding nothing. The key
`__proto__` is where the code departs from the claim: for the pattern `/a` the mapping with
the single entry `__proto__="1"` has a key that is not a parameter of the route, and `build`
returns `/a`, without `?` and without the encoding of that entry. -/
theorem build_appends_query_string :
    (∀ (h : Host) (method name pattern : Str) (conditions : Conditions) (defaults : Params)
        (r : Route) (p : Params),
      Route.new h method name pattern conditions defaults = Except.ok r →
      unclosed pattern 0 = 0 →
      QUERY_STRING ∉ Part.paramNames.namesList (parseBrackets pattern) →
      hasOwn defaults QUERY_STRING = false →
      (p.map Prod.fst).Nodup → hasOwn p PROTO = false →
      (∃ kv ∈ p, kv.1 ∉ r.paramsMap) →
      r.build h p =
        r.build h (p.filter (fun kv => decide (kv.1 ∈ r.paramsMap) && decide (kv.1 ≠ QUERY_STRING)))
          ++ '?' :: h.qsStringify (p.filter (fun kv => kv.1 ∉ r.paramsMap))) ∧
    (∀ (h : Host) (method name pattern : Str) (conditions : Conditions) (defaults : Params)
        (r : Route) (p : Params),
      Route.new h method name pattern conditions defaults = Except.ok r →
      unclosed pattern 0 = 0 →
      hasOwn defaults QUERY_STRING = false →
      (p.map Prod.fst).Nodup → hasOwn p PROTO = false →
      (∀ kv ∈ p, kv.1 ∈ r.paramsMap) → hasOwn p QUERY_STRING = false →
      r.build h p = Part.buildFn.buildList defaults p (parseBrackets pattern)) ∧
    (∀ (h : Host) (name : Str),
      ∃ r, Route.new h "GET".data name "/a".data [] [] = Except.ok r ∧
        PROTO ∉ r.paramsMap ∧
        r.build h [(PROTO, "1".data)] = "/a".data ∧
        r.build h [(PROTO, "1".data)] ≠
          r.build h [] ++ '?' :: h.qsStringify [(PROTO, "1".data)]) := by
  refine ⟨?_, ?_, ?_⟩
  · intro h method name pattern conditions defaults r p hr hclosed hunused hdefault hnd hnp hleft
    obtain ⟨_, _, hdef, _, hpm, _, _, hread⟩ := Route.new_ok hr
    have hparts := Route.parts_of_closed hr hclosed
    rw [hparts, readableList_append, Bool.and_eq_true] at hread
    have hnd2 := nodup_keys_filter p
      (fun kv => decide (kv.1 ∈ r.paramsMap) && decide (kv.1 ≠ QUERY_STRING)) hnd
    have hnp2 := hasOwn_filter_false p
      (fun kv => decide (kv.1 ∈ r.paramsMap) && decide (kv.1 ≠ QUERY_STRING)) PROTO hnp
    have hqp : r.queryParams p = p.filter (fun kv => decide (kv.1 ∉ r.paramsMap)) :=
      copyOwn_eq_filter p _ hnd hnp
    have hpp : r.pathParams p = p.filter (fun kv => decide (kv.1 ∈ r.paramsMap)) :=
      copyOwn_eq_filter p _ hnd hnp
    have hqp2 : r.queryParams
        (p.filter (fun kv => decide (kv.1 ∈ r.paramsMap) && decide (kv.1 ≠ QUERY_STRING))) =
        (p.filter (fun kv => decide (kv.1 ∈ r.paramsMap) && decide (kv.1 ≠ QUERY_STRING))).filter
          (fun kv => decide (kv.1 ∉ r.paramsMap)) :=
      copyOwn_eq_filter _ _ hnd2 hnp2
    have hpp2 : r.pathParams
        (p.filter (fun kv => decide (kv.1 ∈ r.paramsMap) && decide (kv.1 ≠ QUERY_STRING))) =
        (p.filter (fun kv => decide (kv.1 ∈ r.paramsMap) && decide (kv.1 ≠ QUERY_STRING))).filter
          (fun kv => decide (kv.1 ∈ r.paramsMap)) :=
      copyOwn_eq_filter _ _ hnd2 hnp2
    have hq : r.queryParams p ≠ [] := by
      obtain ⟨kv, hkv, hnot⟩ := hleft
      intro e
      have : kv ∈ r.queryParams p := by
        rw [hqp, List.mem_filter]
        exact ⟨hkv, by simpa using hnot⟩
      rw [e] at this
      simp at this
    have hqs := h.qsStringify_nonempty _ hq
    have hq2 : r.queryParams
        (p.filter (fun kv => decide (kv.1 ∈ r.paramsMap) && decide (kv.1 ≠ QUERY_STRING)))
        = [] := by
      rw [hqp2, List.filter_filter, List.filter_eq_nil_iff]
      intro kv _
      by_cases hin : kv.1 ∈ r.paramsMap <;> simp [hin]
    have hget1 : ∀ key, getProp (r.pathParams p) key
        = if key ∈ r.paramsMap then getProp p key else none := by
      intro key
      rw [hpp]
      have := getProp_filter (fun k => decide (k ∈ r.paramsMap)) p key
      simp only [decide_eq_true_eq] at this
      exact this
    have hget2 : ∀ key, getProp (r.pathParams
        (p.filter (fun kv => decide (kv.1 ∈ r.paramsMap) && decide (kv.1 ≠ QUERY_STRING)))) key
        = if key ∈ r.paramsMap ∧ key ≠ QUERY_STRING then getProp p key else none := by
      intro key
      rw [hpp2]
      have h1 := getProp_filter (fun k => decide (k ∈ r.paramsMap))
        (p.filter (fun kv => decide (kv.1 ∈ r.paramsMap) && decide (kv.1 ≠ QUERY_STRING))) key
      simp only [decide_eq_true_eq] at h1
      rw [h1]
      have h2 := getProp_filter
        (fun k => decide (k ∈ r.paramsMap) && decide (k ≠ QUERY_STRING)) p key
      simp only [Bool.and_eq_true, decide_eq_true_eq] at h2
      rw [h2]
      by_cases hin : key ∈ r.paramsMap <;> simp [hin]
    rw [Route.build, Route.build, hq2, h.qsStringify_empty,
      Route.build_eq hr hclosed hdefault, Route.build_eq hr hclosed hdefault,
      if_neg hqs, if_pos rfl]
    have hown1 : hasOwn (setProp (r.pathParams p) QUERY_STRING
        (h.qsStringify (r.queryParams p))) QUERY_STRING = true := by
      rw [hasOwn_eq_isSome, getProp_setProp_of_ne _ _ _ _ QUERY_STRING_ne_PROTO, if_pos rfl]
      rfl
    have hown2 : hasOwn (r.pathParams
        (p.filter (fun kv => decide (kv.1 ∈ r.paramsMap) && decide (kv.1 ≠ QUERY_STRING))))
        QUERY_STRING = false := by
      rw [hasOwn_eq_isSome, hget2]
      simp
    rw [hown1, hown2, if_pos rfl, getProp_setProp_of_ne _ _ _ _ QUERY_STRING_ne_PROTO,
      if_pos rfl]
    simp only [Bool.false_eq_true, if_false, List.append_nil, Option.getD_some]
    rw [buildList_congr defaults _
      (r.pathParams
        (p.filter (fun kv => decide (kv.1 ∈ r.paramsMap) && decide (kv.1 ≠ QUERY_STRING))))
      QUERY_STRING ?_ (parseBrackets pattern) hread.1
      (fun d c hm => depend_mem_children pattern d c hm) hunused]
    · rw [hqp]
    · intro key hkey
      rw [getProp_setProp_of_ne _ _ _ _ QUERY_STRING_ne_PROTO, if_neg hkey, hget1, hget2]
      by_cases hin : key ∈ r.paramsMap <;> simp [hin, hkey]
  · intro h method name pattern conditions defaults r p hr hclosed hdefault hnd hnp hall hnoqs
    exact Route.build_of_params hr hclosed hdefault hnd hnp hall hnoqs
  · intro h name
    obtain ⟨r, hr, h1, h2, h3, h4, h5⟩ := Route.exists_new h "GET".data "GET".data name
      "/a".data [] []
      (fun r =>
        PROTO ∉ r.paramsMap ∧
        r.queryParams [(PROTO, "1".data)] = [] ∧
        r.buildWith [(PROTO, "1".data)] [] = "/a".data ∧
        r.queryParams [] = [] ∧
        r.buildWith [] [] = "/a".data)
      (by decide) (by decide) (fun _ _ hp => hp) (by decide!)
    have hb1 : r.build h [(PROTO, "1".data)] = "/a".data := by
      rw [Route.build, h2, h.qsStringify_empty, h3]
    have hb2 : r.build h [] = "/a".data := by
      rw [Route.build, h4, h.qsStringify_empty, h5]
    refine ⟨r, hr, h1, hb1, ?_⟩
    rw [hb1, hb2]
    intro e
    have := congrArg List.length e
    simp at this

theorem build_appends_query_string_witness :
    ∃ r, Route.new Host.reference "GET".data "users".data "/a<x>".data [] [] = Except.ok r ∧
      r.build Host.reference [("x".data, "1".data), ("z".data, "2".data)] = "/a1?z=2".data ∧
      r.build Host.reference [("x".data, "1".data)] = "/a1".data := by
  obtain ⟨r, hr, hpm, h1, h2, h3⟩ := Route.exists_new Host.reference "GET".data "GET".data
    "users".data "/a<x>".data [] []
    (fun r => r.paramsMap = ["x".data, QUERY_STRING] ∧
      r.build Host.reference [("x".data, "1".data)] = "/a1".data ∧
      [("x".data, "1".data), ("z".data, "2".data)].filter
        (fun kv => decide (kv.1 ∈ r.paramsMap) && decide (kv.1 ≠ QUERY_STRING))
        = [("x".data, "1".data)] ∧
      Host.reference.qsStringify ([("x".data, "1".data), ("z".data, "2".data)].filter
        (fun kv => kv.1 ∉ r.paramsMap)) = "z=2".data)
    (by decide) (by decide) (fun _ _ hp => hp) (by decide!)
  refine ⟨r, hr, ?_, ?_⟩
  · have key := build_appends_query_string.1 Host.reference _ _ _ _ _ r
      [("x".data, "1".data), ("z".data, "2".data)] hr (by decide) (by decide!) (by decide)
      (by decide) (by decide)
      ⟨("z".data, "2".data), by simp, by rw [hpm]; decide⟩
    rw [key, h2, h3, h1]
    decide
  · have key := build_appends_query_string.2.1 Host.reference _ _ _ _ _ r
      [("x".data, "1".data)] hr (by decide) (by decide) (by decide) (by decide)
      (by
        intro kv hkv
        rw [hpm]
        simp only [List.mem_singleton] at hkv
        rw [hkv]
        decide)
      (by decide)
    rw [key]
    decide!

/-! ## C18 -/

/-- C18, counterexample: for the pattern `/a(/b(/<y>))` and the mapping `{y:"2", z:"1"}`, the
mapping supplies no direct parameter of the trailing group of the route (its only direct
parameter is `query_string`), and `build` renders that group: the result is `/a?z=1`. -/
theorem build_renders_query_group_without_direct_parameter :
    ∃ r, Route.new Host.reference "GET".data "r".data "/a(/b(/<y>))".data [] []
        = Except.ok r ∧
      Part.optional [QUERY_STRING] [Part.lit "?".data, Part.param QUERY_STRING] ∈ r.parts ∧
      hasOwn [("y".data, "2".data), ("z".data, "1".data)] QUERY_STRING = false ∧
      r.build Host.reference [("y".data, "2".data), ("z".data, "1".data)] = "/a?z=1".data :=
  Route.exists_new Host.reference "GET".data "GET".data "r".data "/a(/b(/<y>))".data [] []
    (fun r =>
      Part.optional [QUERY_STRING] [Part.lit "?".data, Part.param QUERY_STRING] ∈ r.parts ∧
      hasOwn [("y".data, "2".data), ("z".data, "1".data)] QUERY_STRING = false ∧
      r.build Host.reference [("y".data, "2".data), ("z".data, "1".data)] = "/a?z=1".data)
    (by decide) (by decide) (fun _ _ hp => hp) (by decide!)

/-- C18, amended: the compiled builder decides the inclusion of an optional group only by the
group's immediate parameters: for every route and every mapping `q` the builder is called
with, a group none of whose direct parameters has an entry in `q` renders as the empty string,
whatever `q` holds for the parameters nested in its inner groups; `build(p)` calls the builder
with the mapping `newParams`, to which `query_string` is added when the encoding of the mapping
`queryParams` is not empty, where, for every key other than `__proto__`, `newParams` has the
entry of `p` when the key is a parameter of the route and no entry otherwise, and `queryParams`
has the entry of `p` when the key is not a parameter of the route and no entry otherwise; an
entry of `p` whose key is a parameter of the route is not handed to the query-string encoder;
for the pattern `/a(/b(/<y>))`, `build({y:"2"})` is `/a`. -/
theorem optional_inclusion_is_shallow :
    (∀ (h : Host) (method name pattern : Str) (conditions : Conditions) (defaults : Params)
        (r : Route) (dependOn : List Str) (children : List Part) (q : Params),
      Route.new h method name pattern conditions defaults = Except.ok r →
      Part.optional dependOn children ∈ Part.nodes.nodesList r.parts →
      (∀ name ∈ dependOn, hasOwn q name = false) →
      (Part.optional dependOn children).buildFn r.defaults q = []) ∧
    (∀ (h : Host) (r : Route) (p : Params),
      r.build h p = Part.buildFn.buildList r.defaults
        (if h.qsStringify (r.queryParams p) = [] then r.pathParams p
        else setProp (r.pathParams p) QUERY_STRING (h.qsStringify (r.queryParams p)))
        r.parts ∧
      (∀ key, key ≠ PROTO →
        getProp (r.pathParams p) key = if key ∈ r.paramsMap then getProp p key else none) ∧
      (∀ key, key ≠ PROTO →
        getProp (r.queryParams p) key = if key ∈ r.paramsMap then none else getProp p key)) ∧
    (∀ (r : Route) (p : Params) (key : Str),
      key ∈ r.paramsMap → hasOwn (r.queryParams p) key = false) ∧
    (∀ (h : Host) (name : Str),
      ∃ r, Route.new h "GET".data name "/a(/b(/<y>))".data [] [] = Except.ok r ∧
        r.build h [("y".data, "2".data)] = "/a".data) := by
  refine ⟨?_, fun _ r p => ⟨rfl, fun key hkey => getProp_pathParams_of_ne r p key hkey,
    fun key hkey => getProp_queryParams_of_ne r p key hkey⟩, ?_, ?_⟩
  · intro h method name pattern conditions defaults r dependOn children q hr hmem hq
    obtain ⟨_, _, hdef, _, _, _, _, hread⟩ := Route.new_ok hr
    rw [← hdef] at hread
    have hnode := readable_of_mem_nodesList r.defaults _ r.parts hread hmem
    have hany : dependOn.any (dependCounts r.defaults q) = false := by
      rw [List.any_eq_false]
      intro name hname
      rw [dependCounts_eq_false (jsLit_depend_of_readable hnode name hname)
        (jsLit_default_of_readable hnode name hname) (Or.inl (hq name hname))]
      simp
    rw [Part.buildFn, hany]
    rfl
  · intro r p key hkey
    rw [hasOwn_eq_isSome, getProp_queryParams]
    simp [hkey]
  · intro h name
    obtain ⟨r, hr, h1, h2⟩ := Route.exists_new h "GET".data "GET".data name
      "/a(/b(/<y>))".data [] []
      (fun r =>
        r.queryParams [("y".data, "2".data)] = [] ∧
        r.buildWith [("y".data, "2".data)] [] = "/a".data)
      (by decide) (by decide) (fun _ _ hp => hp) (by decide!)
    exact ⟨r, hr, by rw [Route.build, h1, h.qsStringify_empty, h2]⟩

theorem optional_inclusion_is_shallow_witness :
    (Part.optional []
        [Part.lit "/b".data, Part.optional ["y".data] [Part.lit "/".data, Part.param "y".data]]
      ).buildFn [] [("y".data, "2".data)] = [] := by
  obtain ⟨r, hr, _⟩ := optional_inclusion_is_shallow.2.2.2 Host.reference "users".data
  have hparts := (Route.new_ok hr).2.2.2.1
  have hdef := (Route.new_ok hr).2.2.1
  have hmem : Part.optional []
      [Part.lit "/b".data, Part.optional ["y".data] [Part.lit "/".data, Part.param "y".data]] ∈
      Part.nodes.nodesList r.parts := by
    rw [hparts]
    decide!
  have key := optional_inclusion_is_shallow.1 Host.reference "GET".data "users".data
    "/a(/b(/<y>))".data [] [] r _ _ [("y".data, "2".data)] hr hmem (by simp)
  rw [hdef] at key
  exact key

/-! ## C8 -/

theorem not_mem_special {c : Char} (hc : c ∉ SPECIAL_CHARS) :
    c ≠ '/' ∧ c ≠ '.' ∧ c ≠ '*' ∧ c ≠ '+' ∧ c ≠ '?' ∧ c ≠ '|' ∧ c ≠ '(' ∧ c ≠ ')' ∧
      c ≠ '[' ∧ c ≠ ']' ∧ c ≠ '{' ∧ c ≠ '}' ∧ c ≠ '\\' := by
  simpa [SPECIAL_CHARS] using hc

theorem not_alphanum_of_special : ∀ c ∈ SPECIAL_CHARS, c.isAlphanum = false ∧ c ≠ '^' ∧ c ≠ '$' := by
  decide

theorem escape_cons (c : Char) (cs : Str) : escape (c :: cs) = escape [c] ++ escape cs := by
  by_cases hc : c ∈ SPECIAL_CHARS <;> simp [escape, hc]

/-- Reading one character of a literal text, escaped. -/
theorem foldlM_stepRegExp_escape_char (st : PState) (q : Bool) (hmode : st.mode = Mode.normal q)
    (c : Char) :
    ∃ q2, (escape [c]).foldlM stepRegExp st =
      some { frame := { st.frame with terms := litTerm c :: st.frame.terms },
             stack := st.stack, groups := st.groups, mode := Mode.normal q2 } := by
  by_cases hc : c ∈ SPECIAL_CHARS
  · obtain ⟨ha, h1, h2⟩ := not_alphanum_of_special c hc
    have hw : c ≠ 'w' := by
      intro e
      rw [e] at ha
      exact absurd ha (by decide)
    have hd : c ≠ 'd' := by
      intro e
      rw [e] at ha
      exact absurd ha (by decide)
    refine ⟨true, ?_⟩
    simp [escape, hc, List.foldlM, stepRegExp, hmode, stepNormal, hw, hd, ha, litTerm, h1, h2,
      PState.push]
  · obtain ⟨_, h2, h3, h4, h5, h6, h7, h8, h9, h10, h11, h12, h13⟩ := not_mem_special hc
    by_cases hb : c = '^'
    · refine ⟨false, ?_⟩
      subst hb
      simp [escape, hc, List.foldlM, stepRegExp, hmode, stepNormal, litTerm, PState.push]
    · by_cases he : c = '$'
      · refine ⟨false, ?_⟩
        subst he
        simp [escape, hc, List.foldlM, stepRegExp, hmode, stepNormal, litTerm, PState.push]
      · refine ⟨true, ?_⟩
        simp [escape, hc, List.foldlM, stepRegExp, hmode, stepNormal, litTerm, PState.push,
          h2, h3, h4, h5, h6, h7, h8, h9, h10, h11, h12, h13, hb, he]

/-- Reading an escaped literal text adds one term for each of its characters. -/
theorem foldlM_stepRegExp_escape : ∀ (text : Str) (st : PState) (q : Bool),
    st.mode = Mode.normal q →
    ∃ q2, (escape text).foldlM stepRegExp st =
      some { frame := { st.frame with terms := (text.map litTerm).reverse ++ st.frame.terms },
             stack := st.stack, groups := st.groups, mode := Mode.normal q2 }
  | [], st, q, hmode => ⟨q, by
      cases st
      simp only at hmode
      simp [escape, List.foldlM, hmode]⟩
  | c :: cs, st, q, hmode => by
    obtain ⟨q1, h1⟩ := foldlM_stepRegExp_escape_char st q hmode c
    obtain ⟨q2, h2⟩ := foldlM_stepRegExp_escape cs
      { frame := { st.frame with terms := litTerm c :: st.frame.terms },
        stack := st.stack, groups := st.groups, mode := Mode.normal q1 } q1 rfl
    refine ⟨q2, ?_⟩
    rw [escape_cons, List.foldlM_append, h1]
    simp only [Option.bind_eq_bind, Option.some_bind]
    rw [h2]
    simp

theorem foldlM_stepRegExp_value (st : PState) (q : Bool) (hmode : st.mode = Mode.normal q) :
    ("(".data ++ PARAM_VALUE_REGEXP_SOURCE ++ ")".data).foldlM stepRegExp st =
      some { frame := { st.frame with
               terms := Regex.group st.groups (Regex.seq VALUE_REGEX Regex.empty) ::
                 st.frame.terms },
             stack := st.stack, groups := st.groups + 1, mode := Mode.normal true } := by
  cases st with
  | mk frame stack groups mode =>
    simp only at hmode
    subst hmode
    simp [PARAM_VALUE_REGEXP_SOURCE, List.foldlM, stepRegExp, stepNormal, stepClass, PState.push,
      Frame.close, Regex.altOf, Regex.seqOf, VALUE_REGEX]

theorem foldlM_stepRegExp_any (st : PState) (q : Bool) (hmode : st.mode = Mode.normal q) :
    ("(".data ++ ".*".data ++ ")".data).foldlM stepRegExp st =
      some { frame := { st.frame with
               terms := Regex.group st.groups (Regex.seq (Regex.star Regex.any) Regex.empty) ::
                 st.frame.terms },
             stack := st.stack, groups := st.groups + 1, mode := Mode.normal true } := by
  cases st with
  | mk frame stack groups mode =>
    simp only at hmode
    subst hmode
    simp [List.foldlM, stepRegExp, stepNormal, stepClass, PState.push,
      Frame.close, Regex.altOf, Regex.seqOf]

/-- Reading the source of a parameter with one of the two value sources of `valueBody`. -/
theorem foldlM_stepRegExp_param (conditions : Conditions) (name : Str) (st : PState) (q : Bool)
    (hmode : st.mode = Mode.normal q) (hp : (valueBody conditions name).isSome = true) :
    ((Part.param name).regExpSource conditions).foldlM stepRegExp st =
      some { frame := { st.frame with
               terms := Regex.group st.groups ((valueBody conditions name).getD Regex.empty) ::
                 st.frame.terms },
             stack := st.stack, groups := st.groups + 1, mode := Mode.normal true } := by
  rw [Part.regExpSource]
  unfold valueBody at hp ⊢
  by_cases h1 : buildParamValueRegExpSource conditions name = PARAM_VALUE_REGEXP_SOURCE
  · rw [if_pos h1, h1]
    exact foldlM_stepRegExp_value st q hmode
  · rw [if_neg h1] at hp ⊢
    by_cases h2 : buildParamValueRegExpSource conditions name = ".*".data
    · rw [if_pos h2, h2]
      exact foldlM_stepRegExp_any st q hmode
    · rw [if_neg h2] at hp
      exact absurd hp (by simp)

/-- Reading `(?:` opens a frame without capture. -/
theorem foldlM_stepRegExp_open (st : PState) (q : Bool) (hmode : st.mode = Mode.normal q) :
    "(?:".data.foldlM stepRegExp st =
      some { frame := { capture := none, alts := [], terms := [] },
             stack := st.frame :: st.stack, groups := st.groups, mode := Mode.normal false } := by
  cases st with
  | mk frame stack groups mode =>
    simp only at hmode
    subst hmode
    simp [List.foldlM, stepRegExp, stepNormal]

/-- Reading `)?` closes a frame without capture and alternatives, and makes it optional. -/
theorem foldlM_stepRegExp_close (terms : List Regex) (outer : Frame) (stack : List Frame)
    (groups : Nat) (q : Bool) :
    ")?".data.foldlM stepRegExp
        { frame := { capture := none, alts := [], terms := terms }, stack := outer :: stack,
          groups := groups, mode := Mode.normal q } =
      some { frame := { outer with
               terms := Regex.opt (Regex.seqOf terms.reverse) :: outer.terms },
             stack := stack, groups := groups, mode := Mode.normal false } := by
  simp [List.foldlM, stepRegExp, stepNormal, Frame.close, Regex.altOf]

mutual
/-- Reading the source of a part adds its terms and counts its capturing groups. -/
theorem foldlM_stepRegExp_part (conditions : Conditions) :
    ∀ (part : Part) (st : PState) (q : Bool), st.mode = Mode.normal q →
      part.plain conditions = true →
      ∃ q2, (part.regExpSource conditions).foldlM stepRegExp st =
        some { frame := { st.frame with
                 terms := (part.terms conditions st.groups).reverse ++ st.frame.terms },
               stack := st.stack, groups := st.groups + part.paramNames.length,
               mode := Mode.normal q2 }
  | Part.lit text, st, q, hmode, _ => by
    obtain ⟨q2, h⟩ := foldlM_stepRegExp_escape text st q hmode
    exact ⟨q2, by rw [Part.regExpSource, h]; rfl⟩
  | Part.param name, st, q, hmode, hp => by
    refine ⟨true, ?_⟩
    rw [foldlM_stepRegExp_param conditions name st q hmode
      (by simpa [Part.plain, Part.paramNames] using hp)]
    rfl
  | Part.optional d parts, st, q, hmode, hp => by
    obtain ⟨q2, h⟩ := foldlM_stepRegExp_parts conditions parts
      { frame := { capture := none, alts := [], terms := [] },
        stack := st.frame :: st.stack, groups := st.groups, mode := Mode.normal false }
      false rfl (by simpa [Part.plain, Part.paramNames] using hp)
    refine ⟨false, ?_⟩
    rw [Part.regExpSource, List.foldlM_append, List.foldlM_append,
      foldlM_stepRegExp_open st q hmode]
    simp only [Option.bind_eq_bind, Option.some_bind]
    rw [h]
    simp only [Option.some_bind, List.append_nil]
    rw [foldlM_stepRegExp_close]
    simp [Part.terms, Part.paramNames]
/-- Reading the source of a list of parts adds their terms and counts their capturing
groups. -/
theorem foldlM_stepRegExp_parts (conditions : Conditions) :
    ∀ (parts : List Part) (st : PState) (q : Bool), st.mode = Mode.normal q →
      (Part.paramNames.namesList parts).all (fun name => (valueBody conditions name).isSome)
        = true →
      ∃ q2, (Part.regExpSource.sourceList conditions parts).foldlM stepRegExp st =
        some { frame := { st.frame with
                 terms := (Part.terms.termsList conditions st.groups parts).reverse ++
                   st.frame.terms },
               stack := st.stack, groups := st.groups + (Part.paramNames.namesList parts).length,
               mode := Mode.normal q2 }
  | [], st, q, hmode, _ => ⟨q, by
      cases st
      simp only at hmode
      simp [Part.regExpSource.sourceList, Part.terms.termsList, Part.paramNames.namesList,
        List.foldlM, hmode]⟩
  | part :: parts, st, q, hmode, hp => by
    rw [Part.paramNames.namesList, List.all_append, Bool.and_eq_true] at hp
    obtain ⟨q1, h1⟩ := foldlM_stepRegExp_part conditions part st q hmode hp.1
    obtain ⟨q2, h2⟩ := foldlM_stepRegExp_parts conditions parts
      { frame := { st.frame with
          terms := (part.terms conditions st.groups).reverse ++ st.frame.terms },
        stack := st.stack, groups := st.groups + part.paramNames.length,
        mode := Mode.normal q1 } q1 rfl hp.2
    refine ⟨q2, ?_⟩
    rw [Part.regExpSource.sourceList, List.foldlM_append, h1]
    simp only [Option.bind_eq_bind, Option.some_bind]
    rw [h2]
    simp [Part.terms.termsList, Part.paramNames.namesList, Nat.add_assoc]
end

end Susanin
